import Mathlib

/-!
# Verification of inflatelib (DEFLATE / DEFLATE64 decoder)

A shallow embedding of the C sources of inflatelib (`src/lib/window.c`,
`src/lib/huffman_tree.c`, `src/lib/bitstream.h`, `src/lib/inflate.c`) together
with proofs of the specification claims.

Machine integers are modelled as `Nat` with explicit `% 2^w` at the points
where the C code relies on wrap-around (offset arithmetic on `uint16_t`
cursors).  Buffers are modelled as total functions `Nat → Nat`; the C code
never reads or writes out of bounds (this is asserted in the sources and
follows from the allocation-size analysis in `huffman_tree.c`), so indices
outside the allocated range are simply never touched by the embedded
functions.  Fallible operations return `Option`/`Except`/sum results, and
`while` loops whose trip count is data dependent are modelled with an explicit
fuel parameter that the call sites instantiate with a provably sufficient
bound.
-/

namespace Inflatelib

/-- `DEFLATE64_WINDOW_SIZE` from window.h. -/
def WSIZE : Nat := 65536

/-! ## Window (src/lib/window.c)

The `data` array is modelled as a total function `Nat → Nat`; the code only
accesses indices `< WSIZE`.  `read_offset`/`write_offset` are `uint16_t` in C;
every update in the source wraps modulo `2^16 = WSIZE`, which the embedding
makes explicit. -/

@[ext] structure window where
  read_offset : Nat
  write_offset : Nat
  unconsumed_bytes : Nat
  total_bytes : Nat
  data : Nat → Nat

/-- `window_reset` from window.c: zero the cursors and counters (the byte
array is left as is). -/
def window_reset (w : window) : window :=
  { w with read_offset := 0, write_offset := 0, unconsumed_bytes := 0, total_bytes := 0 }

/-- C `memmove(data + dst, data + src, n)` on the modelled byte array: the
destination range `[dst, dst+n)` receives a snapshot of the source range
(memmove semantics: all reads happen before any write). -/
def memmove (d : Nat → Nat) (dst src n : Nat) : Nat → Nat :=
  fun i => if dst ≤ i ∧ i < dst + n then d (src + (i - dst)) else d i

/-- `readRemaining` of one `window_copy_length_distance` loop iteration
(window.c lines 100-109). -/
def ld_readRemaining (w : window) (copyIndex : Nat) : Nat :=
  if copyIndex < w.write_offset then w.write_offset - copyIndex
  else WSIZE - copyIndex

/-- `copySize` of one loop iteration: `length` clamped first to
`readRemaining`, then to `writeRemaining = min (WSIZE - write_offset)
writeSpaceRemaining` (window.c lines 111-128). -/
def ld_copySize (w : window) (copyIndex length writeSpaceRemaining : Nat) : Nat :=
  min (min length (ld_readRemaining w copyIndex))
    (min (WSIZE - w.write_offset) writeSpaceRemaining)

/-- The body of one loop iteration: `memmove` plus cursor/counter updates
(window.c lines 130-140). -/
def ld_step (w : window) (copyIndex copySize : Nat) : window :=
  { w with
    data := memmove w.data w.write_offset copyIndex copySize,
    write_offset := (w.write_offset + copySize) % WSIZE,
    unconsumed_bytes := w.unconsumed_bytes + copySize,
    total_bytes := w.total_bytes + copySize }

/-- The `while ((length > 0) && (writeSpaceRemaining > 0))` loop of
`window_copy_length_distance` (window.c lines 96-141).  Each iteration copies
at least one byte, so `fuel := length` at the call site makes the fuelled
recursion equal to the C loop. -/
def window_copy_ld_loop : Nat → window → Nat → Nat → Nat → Nat → window × Nat
  | 0, w, _, _, _, acc => (w, acc)
  | fuel + 1, w, copyIndex, length, writeSpaceRemaining, acc =>
    if length > 0 ∧ writeSpaceRemaining > 0 then
      window_copy_ld_loop fuel
        (ld_step w copyIndex (ld_copySize w copyIndex length writeSpaceRemaining))
        ((copyIndex + ld_copySize w copyIndex length writeSpaceRemaining) % WSIZE)
        (length - ld_copySize w copyIndex length writeSpaceRemaining)
        (writeSpaceRemaining - ld_copySize w copyIndex length writeSpaceRemaining)
        (acc + ld_copySize w copyIndex length writeSpaceRemaining)
    else (w, acc)

/-- `window_copy_length_distance` from window.c.  `copyIndex` is the
`(uint16_t)(write_offset - distance)` wrap-around subtraction, written in `Nat`
as `(write_offset + (WSIZE - distance % WSIZE)) % WSIZE`.  Returns the updated
window and the C `int` result (`-1` for an invalid distance, otherwise the
number of bytes copied). -/
def window_copy_length_distance (w : window) (distance length : Nat) : window × Int :=
  if distance > w.total_bytes then (w, -1)
  else
    let copyIndex := (w.write_offset + (WSIZE - distance % WSIZE)) % WSIZE
    let r := window_copy_ld_loop length w copyIndex length (WSIZE - w.unconsumed_bytes) 0
    (r.1, Int.ofNat r.2)

/-! ### Reference forward byte-by-byte copy (the specification's description
of back-reference semantics: repeat the last `distance` bytes, earlier-written
destination bytes becoming source bytes for later writes). -/

/-- One step of the reference copy: append the byte sitting `distance`
positions behind the current write position. -/
def window_write_ref (w : window) (distance : Nat) : window :=
  let src := (w.write_offset + (WSIZE - distance % WSIZE)) % WSIZE
  { w with
    data := fun i => if i = w.write_offset then w.data src else w.data i,
    write_offset := (w.write_offset + 1) % WSIZE,
    unconsumed_bytes := w.unconsumed_bytes + 1,
    total_bytes := w.total_bytes + 1 }

/-- `n`-fold reference forward copy. -/
def window_ref_copy : Nat → window → Nat → window
  | 0, w, _ => w
  | n + 1, w, d => window_ref_copy n (window_write_ref w d) d

theorem window_ref_copy_succ' (n : Nat) (w : window) (d : Nat) :
    window_ref_copy (n + 1) w d = window_write_ref (window_ref_copy n w d) d := by
  induction n generalizing w with
  | zero => rfl
  | succ n ih =>
    show window_ref_copy (n + 1) (window_write_ref w d) d = _
    rw [ih]
    rfl

theorem window_ref_copy_add (m n : Nat) (w : window) (d : Nat) :
    window_ref_copy (m + n) w d = window_ref_copy n (window_ref_copy m w d) d := by
  induction n with
  | zero => rfl
  | succ n ih => rw [← Nat.add_assoc, window_ref_copy_succ', ih, ← window_ref_copy_succ']

/-- One segment of the C loop (a single `memmove` of `s` bytes from
`copyIndex` to `write_offset`, with the cursor/counter updates) agrees with
`s` steps of the reference forward copy, as long as `s` does not cross a
buffer-wrap boundary on either the read or the write side. -/
theorem window_ref_copy_seg (d : Nat) (hd2 : d ≤ WSIZE) :
    ∀ (s : Nat) (w : window) (c : Nat),
    w.write_offset < WSIZE →
    c = (w.write_offset + (WSIZE - d % WSIZE)) % WSIZE →
    s ≤ WSIZE - w.write_offset →
    s ≤ ld_readRemaining w c →
    window_ref_copy s w d =
      { w with
        data := memmove w.data w.write_offset c s,
        write_offset := (w.write_offset + s) % WSIZE,
        unconsumed_bytes := w.unconsumed_bytes + s,
        total_bytes := w.total_bytes + s } := by
  intro s
  induction s with
  | zero =>
    intro w c hwo _ _ _
    ext i
    · rfl
    · show w.write_offset = (w.write_offset + 0) % WSIZE
      rw [Nat.add_zero, Nat.mod_eq_of_lt hwo]
    · show w.unconsumed_bytes = w.unconsumed_bytes + 0
      rw [Nat.add_zero]
    · show w.total_bytes = w.total_bytes + 0
      rw [Nat.add_zero]
    · show w.data i = memmove w.data w.write_offset c 0 i
      simp only [memmove]
      exact (if_neg (by omega)).symm
  | succ s ih =>
    intro w c hwo hc hsw hsr
    simp only [ld_readRemaining] at hsr
    have hcW : c < WSIZE := by rw [hc]; exact Nat.mod_lt _ (by decide)
    -- the read segment never wraps: c + s < WSIZE
    have hcs : c + s < WSIZE := by
      rcases Nat.lt_or_ge c w.write_offset with hlt | hge
      · rw [if_pos hlt] at hsr; omega
      · rw [if_neg (Nat.not_lt.mpr hge)] at hsr; omega
    have hwos : w.write_offset + s < WSIZE := by omega
    have hsr' : s ≤ ld_readRemaining w c := by
      simp only [ld_readRemaining]
      rcases Nat.lt_or_ge c w.write_offset with hlt | hge
      · rw [if_pos hlt] at hsr ⊢; omega
      · rw [if_neg (Nat.not_lt.mpr hge)] at hsr ⊢; omega
    -- the source byte is not among the first s destination writes
    have hnotdst : ¬ (w.write_offset ≤ c + s ∧ c + s < w.write_offset + s) := by
      rcases Nat.lt_or_ge c w.write_offset with hlt | hge
      · rw [if_pos hlt] at hsr; omega
      · omega
    rw [window_ref_copy_succ', ih w c hwo hc (by omega) hsr']
    -- the source index of the (s+1)-st reference write is c + s
    have hsrc : ((w.write_offset + s) % WSIZE + (WSIZE - d % WSIZE)) % WSIZE = c + s := by
      rw [Nat.mod_eq_of_lt hwos]
      have h1 : w.write_offset + s + (WSIZE - d % WSIZE)
          = (w.write_offset + (WSIZE - d % WSIZE)) + s := by omega
      rw [h1, ← Nat.mod_add_mod, ← hc]
      exact Nat.mod_eq_of_lt hcs
    simp only [window_write_ref]
    ext i
    · rfl
    · show ((w.write_offset + s) % WSIZE + 1) % WSIZE = (w.write_offset + (s + 1)) % WSIZE
      rw [Nat.mod_eq_of_lt hwos, Nat.add_assoc]
    · show w.unconsumed_bytes + s + 1 = w.unconsumed_bytes + (s + 1)
      rw [Nat.add_assoc]
    · show w.total_bytes + s + 1 = w.total_bytes + (s + 1)
      rw [Nat.add_assoc]
    · show (if i = (w.write_offset + s) % WSIZE
            then memmove w.data w.write_offset c s
              (((w.write_offset + s) % WSIZE + (WSIZE - d % WSIZE)) % WSIZE)
            else memmove w.data w.write_offset c s i)
          = memmove w.data w.write_offset c (s + 1) i
      rw [hsrc, Nat.mod_eq_of_lt hwos]
      by_cases hi : i = w.write_offset + s
      · subst hi
        rw [if_pos rfl]
        simp only [memmove]
        rw [if_neg hnotdst, if_pos ⟨by omega, by omega⟩]
        congr 1
        omega
      · rw [if_neg hi]
        simp only [memmove]
        by_cases hin : w.write_offset ≤ i ∧ i < w.write_offset + s
        · rw [if_pos hin, if_pos ⟨hin.1, by omega⟩]
        · rw [if_neg hin, if_neg (by omega)]

/-- The full `window_copy_length_distance` copy loop equals
`min length writeSpaceRemaining` steps of the reference forward copy, where
`copyIndex`/`writeSpaceRemaining` carry their call-site values. -/
theorem window_copy_ld_loop_eq (d : Nat) (hd2 : d ≤ WSIZE) :
    ∀ (fuel len : Nat) (w : window) (ci wsr acc : Nat),
    len ≤ fuel →
    w.write_offset < WSIZE →
    w.unconsumed_bytes ≤ WSIZE →
    ci = (w.write_offset + (WSIZE - d % WSIZE)) % WSIZE →
    wsr = WSIZE - w.unconsumed_bytes →
    window_copy_ld_loop fuel w ci len wsr acc =
      (window_ref_copy (min len wsr) w d, acc + min len wsr) := by
  intro fuel
  induction fuel with
  | zero =>
    intro len w ci wsr acc hfl _ _ _ _
    have : len = 0 := by omega
    subst this
    simp [window_copy_ld_loop, window_ref_copy]
  | succ fuel ih =>
    intro len w ci wsr acc hfl hwo hunc hci hwsr
    by_cases hgo : len > 0 ∧ wsr > 0
    · have hcW : ci < WSIZE := by rw [hci]; exact Nat.mod_lt _ (by decide)
      simp only [window_copy_ld_loop]
      rw [if_pos hgo]
      set s := ld_copySize w ci len wsr with hs
      have hrr1 : 1 ≤ ld_readRemaining w ci := by
        rw [ld_readRemaining]
        by_cases hlt : ci < w.write_offset
        · rw [if_pos hlt]; omega
        · rw [if_neg hlt]; omega
      have hs1 : 1 ≤ s := by
        rw [hs, ld_copySize]
        have h1 : 1 ≤ WSIZE - w.write_offset := by omega
        omega
      have hslen : s ≤ len := by
        rw [hs, ld_copySize]; omega
      have hswsr : s ≤ wsr := by
        rw [hs, ld_copySize]
        have := min_le_right (WSIZE - w.write_offset) wsr
        omega
      have hsw : s ≤ WSIZE - w.write_offset := by
        rw [hs, ld_copySize]
        have := min_le_left (WSIZE - w.write_offset) wsr
        omega
      have hsr : s ≤ ld_readRemaining w ci := by
        rw [hs, ld_copySize]
        omega
      have hseg := window_ref_copy_seg d hd2 s w ci hwo hci hsw hsr
      have hw' : ld_step w ci s = window_ref_copy s w d := by
        simp only [ld_step]
        rw [hseg]
      rw [hw']
      have hwo2 : (window_ref_copy s w d).write_offset = (w.write_offset + s) % WSIZE := by
        rw [hseg]
      have hunc2 : (window_ref_copy s w d).unconsumed_bytes = w.unconsumed_bytes + s := by
        rw [hseg]
      rw [ih (len - s) (window_ref_copy s w d) ((ci + s) % WSIZE) (wsr - s) (acc + s)
        (by omega)
        (by rw [hwo2]; exact Nat.mod_lt _ (by decide))
        (by rw [hunc2]; omega)
        (by rw [hwo2, hci, Nat.mod_add_mod, Nat.mod_add_mod]
            congr 1
            omega)
        (by rw [hunc2]; omega)]
      have hmin : min (len - s) (wsr - s) = min len wsr - s := by omega
      rw [hmin]
      have hcomp : window_ref_copy (min len wsr - s) (window_ref_copy s w d) d
          = window_ref_copy (min len wsr) w d := by
        rw [← window_ref_copy_add]
        congr 1
        omega
      rw [hcomp]
      have hacc : acc + s + (min len wsr - s) = acc + min len wsr := by omega
      rw [hacc]
    · simp only [window_copy_ld_loop]
      rw [if_neg hgo]
      have hmin : min len wsr = 0 := by omega
      rw [hmin]
      simp [window_ref_copy]

/-- C1: for every window state satisfying the window invariants and every
back-reference with `1 ≤ distance ≤ 65536`, `distance ≤ total_bytes` and
`length ≥ 1`, `window_copy_length_distance` writes exactly
`n = min length (65536 - unconsumed_bytes)` bytes and returns `n`, and the
resulting window is exactly the one produced by the reference byte-by-byte
forward copy in which each written byte equals the window byte sitting
`distance` positions earlier in output order (so for `length > distance`
earlier-written destination bytes become sources of later writes). -/
theorem C1_window_copy_length_distance_forward (w : window) (d L : Nat)
    (hwo : w.write_offset < WSIZE) (hunc : w.unconsumed_bytes ≤ WSIZE)
    (hd1 : 1 ≤ d) (hd2 : d ≤ WSIZE) (hdt : d ≤ w.total_bytes) (hL : 1 ≤ L) :
    window_copy_length_distance w d L =
      (window_ref_copy (min L (WSIZE - w.unconsumed_bytes)) w d,
       Int.ofNat (min L (WSIZE - w.unconsumed_bytes))) := by
  simp only [window_copy_length_distance]
  rw [if_neg (by omega)]
  rw [window_copy_ld_loop_eq d hd2 L L w _ _ 0 le_rfl hwo hunc rfl rfl]
  simp

/-- Witness for C1 at a concrete window: two bytes written, back-reference
with distance 1 and length 3 (a run-length copy with `length > distance`). -/
theorem C1_witness :
    (2 : Nat) < WSIZE ∧ (2 : Nat) ≤ WSIZE ∧ (1 : Nat) ≤ 1 ∧ (1 : Nat) ≤ WSIZE ∧
    (1 : Nat) ≤ 2 ∧ (1 : Nat) ≤ 3 ∧
    window_copy_length_distance ⟨0, 2, 2, 2, fun _ => 0⟩ 1 3 =
      (window_ref_copy (min 3 (WSIZE - 2)) ⟨0, 2, 2, 2, fun _ => 0⟩ 1,
       Int.ofNat (min 3 (WSIZE - 2))) :=
  ⟨by decide, by decide, le_rfl, by decide, by decide, by decide,
   C1_window_copy_length_distance_forward ⟨0, 2, 2, 2, fun _ => 0⟩ 1 3 (by decide) (by decide)
     le_rfl (by decide) (by decide) (by decide)⟩

/-- C9: whenever `distance` strictly exceeds the window's total-bytes-written
counter, `window_copy_length_distance` returns the invalid-distance error
(`-1`) and the window — all cursors, counters, and the byte array — is
returned exactly as it was. -/
theorem C9_window_copy_length_distance_error_atomic (w : window) (d L : Nat)
    (h : d > w.total_bytes) :
    window_copy_length_distance w d L = (w, -1) := by
  simp only [window_copy_length_distance]
  rw [if_pos h]

/-- Witness for C9 at a concrete window (total_bytes = 4, distance = 5). -/
theorem C9_witness :
    (5 : Nat) > 4 ∧
    window_copy_length_distance ⟨1, 2, 3, 4, fun _ => 9⟩ 5 7 = (⟨1, 2, 3, 4, fun _ => 9⟩, -1) :=
  ⟨by decide, C9_window_copy_length_distance_error_atomic ⟨1, 2, 3, 4, fun _ => 9⟩ 5 7 (by decide)⟩

/-! ## Bitstream (src/lib/bitstream.h)

The struct is the `partial_data`/`partial_data_size` design of bitstream.h:
a borrowed byte slice plus up to a byte of already-consumed residual bits.
`bitstream_consume_bits` is translated from the `static inline` definition in
bitstream.h.  `bitstream_peek`, `bitstream_read_bits`, `bitstream_byte_align`
and `bitstream_copy_bytes` are modelled from their documented contracts in
bitstream.h and spec §4.1 (the repository ships a different internal
iteration of bitstream.c, but both designs have the same observable LSB-first
bit-sequence semantics: `read_bits n` yields the next `n` bits LSB-first when
available and fails without consuming otherwise; `peek` exposes
`min 16 available` bits zero-extended). -/

structure bitstream where
  data : List Nat
  partial_data : Nat
  partial_data_size : Nat
deriving DecidableEq

def bitstream_reset : bitstream := ⟨[], 0, 0⟩

/-- `bitstream_set_data`: attach a new input slice (precondition in the
source: the previous slice is fully consumed). -/
def bitstream_set_data (bs : bitstream) (d : List Nat) : bitstream :=
  { bs with data := d }

/-- The value of the remaining whole input bytes, first byte least
significant (LSB-first stream order). -/
def bytesVal : List Nat → Nat
  | [] => 0
  | b :: rest => b + 256 * bytesVal rest

/-- Number of available bits. -/
def bitstream.avail (bs : bitstream) : Nat :=
  bs.partial_data_size + 8 * bs.data.length

/-- The whole remaining bit sequence as an LSB-first natural number. -/
def bitstream.bitsValue (bs : bitstream) : Nat :=
  bs.partial_data + 2 ^ bs.partial_data_size * bytesVal bs.data

/-- `bitstream_consume_bits` from bitstream.h (translated from the inline C
definition). -/
def bitstream_consume_bits (bs : bitstream) (bits : Nat) : bitstream :=
  if bits ≤ bs.partial_data_size then
    { bs with
      partial_data_size := bs.partial_data_size - bits,
      partial_data := bs.partial_data / 2 ^ bits }
  else
    let bits' := bits - bs.partial_data_size
    let bytesToConsume := bits' / 8
    let partialBits := bits' % 8
    if partialBits ≠ 0 then
      { bs with
        partial_data := bs.data.getD bytesToConsume 0 / 2 ^ partialBits,
        partial_data_size := 8 - partialBits,
        data := bs.data.drop (bytesToConsume + 1) }
    else
      { bs with
        partial_data := 0,
        partial_data_size := 0,
        data := bs.data.drop bytesToConsume }

/-- Modelled from the spec (§4.1, bitstream.h doc comment): peek up to 16
bits without consuming; returns the bits (zero-extended) and their count
`min 16 available`. -/
def bitstream_peek (bs : bitstream) : Nat × Nat :=
  (bs.bitsValue % 2 ^ min 16 bs.avail, min 16 bs.avail)

/-- Modelled from the spec (§4.1, bitstream.h doc comment): read `n ≤ 16`
bits LSB-first; `none` (and no observable consumption) when fewer than `n`
bits remain. -/
def bitstream_read_bits (bs : bitstream) (n : Nat) : Option (Nat × bitstream) :=
  if bs.avail < n then none
  else some (bs.bitsValue % 2 ^ n, bitstream_consume_bits bs n)

/-- `bitstream_read_bits_unchecked`: same, without the availability check
(the fast path guarantees availability). -/
def bitstream_read_bits_unchecked (bs : bitstream) (n : Nat) : Nat × bitstream :=
  (bs.bitsValue % 2 ^ n, bitstream_consume_bits bs n)

/-- Modelled from the spec (§4.1): discard the 0..7 residual bits so that the
next read starts at a byte boundary (invariant: `partial_data_size < 8`). -/
def bitstream_byte_align (bs : bitstream) : bitstream :=
  { bs with partial_data := 0, partial_data_size := 0 }

/-- Modelled from the spec (§4.1, bitstream.h doc comment): after
byte-alignment, copy up to `n` raw bytes out of the input slice; returns the
bytes actually copied (fewer than `n` only when the slice is exhausted). -/
def bitstream_copy_bytes (bs : bitstream) (n : Nat) : List Nat × bitstream :=
  (bs.data.take n, { bs with data := bs.data.drop n })

/-! ## Huffman trees (src/lib/huffman_tree.c)

`huffman_table_entry.code_length` is a 4-bit bitfield and `symbol` an 11-bit
bitfield in C; every value the source stores in them is at most 15
(`MAX_CODE_LENGTH`, or the literal `0x0F` pointer marker) resp. below 2048
(symbols < 288, pair indices < 544), so the plain-`Nat` model is
value-faithful.  The `data_size` field of the C struct is used only in
assertions and is omitted; `table_mask` is always `2^table_bits - 1` (set by
`huffman_tree_init`), so masking is written `% 2^table_bits`. -/

def MAX_CODE_LENGTH : Nat := 15
def LITERAL_TREE_MAX_ELEMENT_COUNT : Nat := 288
def DIST_TREE_MAX_ELEMENT_COUNT : Nat := 32
def CODE_LENGTH_TREE_ELEMENT_COUNT : Nat := 19

structure huffman_table_entry where
  code_length : Nat
  symbol : Nat
deriving DecidableEq

structure huffman_tree where
  table_bits : Nat
  data : Nat → huffman_table_entry

/-- Pointwise update of an entry array. -/
def upde (f : Nat → huffman_table_entry) (i : Nat) (e : huffman_table_entry) :
    Nat → huffman_table_entry :=
  fun j => if j = i then e else f j

/-- The 16-entry nibble-reversal lookup table of `reverse_bits`. -/
def revNibble (v : Nat) : Nat :=
  [0x00, 0x08, 0x04, 0x0C, 0x02, 0x0A, 0x06, 0x0E,
   0x01, 0x09, 0x05, 0x0D, 0x03, 0x0B, 0x07, 0x0F].getD v 0

/-- The `while (count < bitCount)` loop of `reverse_bits`
(huffman_tree.c lines 348-353). -/
def reverse_bits_loop (value result count bitCount : Nat) : Nat :=
  if count < bitCount then
    reverse_bits_loop (value / 16) (result * 16 + revNibble (value % 16)) (count + 4) bitCount
  else result / 2 ^ (count - bitCount)
termination_by bitCount - count

/-- `reverse_bits` from huffman_tree.c: reverse the low `bitCount` bits of
`value`, 4 bits at a time through a lookup table, then shift off the
overshoot. -/
def reverse_bits (value bitCount : Nat) : Nat :=
  reverse_bits_loop value 0 0 bitCount

/-- STEP 1 + STEP 2 of `huffman_tree_reset` (lines 104-136): the per-length
code counts and the `nextCodes` array, with the incremental over-subscription
check.  The error value records the format arguments of the C error message
(`i`, `bitLengthCount[i]`, `nextCodes[i]`). -/
structure huffman_data_error where
  len : Nat
  count : Nat
  next_code : Nat
deriving DecidableEq

def computeNextCodes (counts : Nat → Nat) : Nat → Nat → (Nat → Nat) →
    Except huffman_data_error (Nat → Nat)
  | i, nextCode, nextCodes =>
    if i < MAX_CODE_LENGTH + 1 then
      let nc := nextCode * 2
      let nextCodes' := fun j => if j = i then nc else nextCodes j
      if nc + counts i > 2 ^ i then .error ⟨i, counts i, nc⟩
      else computeNextCodes counts (i + 1) (nc + counts i) nextCodes'
    else .ok nextCodes
termination_by i _ _ => (MAX_CODE_LENGTH + 1) - i

/-- The `while (code <= tree->table_mask)` replication loop for codes that
fit in the lookup table (huffman_tree.c lines 150-164). -/
def fillTable (d : Nat → huffman_table_entry) (code len sym mask : Nat) :
    Nat → huffman_table_entry :=
  if code ≤ mask then
    fillTable (upde d code ⟨len, sym⟩) (code + 2 ^ len) len sym mask
  else d
termination_by mask + 1 - code
decreasing_by
  have h2 : 0 < 2 ^ len := Nat.pos_pow_of_pos len (by decide)
  omega

/-- `entry->code_length = 0` on a single entry (the source only zeroes the
`code_length` field of a freshly allocated pair's children; `symbol` keeps
its stale value). -/
def zeroCL (d : Nat → huffman_table_entry) (i : Nat) : Nat → huffman_table_entry :=
  upde d i ⟨0, (d i).symbol⟩

/-- The descent/allocation loop for codes longer than `table_bits`
(huffman_tree.c lines 167-208).  `loc` is the index of the entry being
examined, `code` the remaining (already shifted) reversed code bits, `depth`
the C `currentLen`, `nextIdx` the C `nextTreeInsertIndex` (the data pointer is
`treeBase + 2*nextIdx`).  When allocating, only the `code_length` fields of
the two fresh children are zeroed, exactly as in the source. -/
def treeInsert (treeBase : Nat) :
    (Nat → huffman_table_entry) → Nat → Nat → Nat → Nat → Nat → Nat →
    (Nat → huffman_table_entry) × Nat
  | d, loc, code, depth, len, sym, nextIdx =>
    if depth < len then
      if (d loc).code_length = 0 then
        treeInsert treeBase
          (zeroCL (zeroCL (upde d loc ⟨15, nextIdx⟩) (treeBase + 2 * nextIdx))
            (treeBase + 2 * nextIdx + 1))
          (treeBase + 2 * nextIdx + code % 2) (code / 2)
          (depth + 1) len sym (nextIdx + 1)
      else
        treeInsert treeBase d (treeBase + 2 * (d loc).symbol + code % 2) (code / 2)
          (depth + 1) len sym nextIdx
    else (upde d loc ⟨len, sym⟩, nextIdx)
termination_by _ _ _ depth len _ _ => len - depth

/-- STEP 3 of `huffman_tree_reset` (lines 139-211): assign codes to the
symbols in ascending symbol order; `nextCodes` is the mutable next-code
array, `i` the current symbol. -/
def assignSymbols (tb : Nat) :
    (Nat → huffman_table_entry) → (Nat → Nat) → List Nat → Nat → Nat →
    (Nat → huffman_table_entry) × Nat
  | d, _, [], _, nextIdx => (d, nextIdx)
  | d, nextCodes, len :: rest, i, nextIdx =>
    if len ≠ 0 then
      let code := reverse_bits (nextCodes len) len
      let nextCodes' : Nat → Nat := fun j => if j = len then nextCodes len + 1 else nextCodes j
      if len ≤ tb then
        assignSymbols tb (fillTable d code len i (2 ^ tb - 1)) nextCodes' rest (i + 1) nextIdx
      else
        let r := treeInsert (2 ^ tb) d (code % 2 ^ tb) (code / 2 ^ tb) tb len i nextIdx
        assignSymbols tb r.1 nextCodes' rest (i + 1) r.2
    else assignSymbols tb d nextCodes rest (i + 1) nextIdx

/-- `huffman_tree_reset` from huffman_tree.c: zero the lookup-table portion
(the binary-tree portion keeps its stale contents, as in the source's
`memset`), compute the per-length next codes with the over-subscription
check, then assign all codes. -/
def huffman_tree_reset (t : huffman_tree) (codeLengths : List Nat) :
    Except huffman_data_error huffman_tree :=
  let d0 : Nat → huffman_table_entry :=
    fun j => if j < 2 ^ t.table_bits then ⟨0, 0⟩ else t.data j
  match computeNextCodes (fun l => codeLengths.count l) 1 0 (fun _ => 0) with
  | .error e => .error e
  | .ok nextCodes =>
    .ok { t with data := (assignSymbols t.table_bits d0 nextCodes codeLengths 0 0).1 }

/-- Result of `huffman_tree_lookup`: `0` (need more data), `-1` (invalid
code, data error), or `1` with the decoded symbol. -/
inductive lookup_result where
  | more
  | err
  | found (symbol : Nat)
deriving DecidableEq

/-- The `do { ... } while (tableEntry->code_length > bitsRead)` descent of
`huffman_tree_lookup` (huffman_tree.c lines 247-259).  Returns `none` when
the peeked bits run out mid-walk. -/
def walkLookup (d : Nat → huffman_table_entry) (treeBase : Nat) :
    huffman_table_entry → Nat → Nat → Nat → Option huffman_table_entry
  | e, bitsRead, rem, bits =>
    if bitsRead ≥ bits then none
    else
      if (d (treeBase + 2 * e.symbol + rem % 2)).code_length > bitsRead + 1 then
        walkLookup d treeBase (d (treeBase + 2 * e.symbol + rem % 2)) (bitsRead + 1)
          (rem / 2) bits
      else some (d (treeBase + 2 * e.symbol + rem % 2))
termination_by e bitsRead _ bits => bits - bitsRead

/-- `huffman_tree_lookup` from huffman_tree.c. -/
def huffman_tree_lookup (t : huffman_tree) (bs : bitstream) :
    lookup_result × bitstream :=
  let input := (bitstream_peek bs).1
  let bits := (bitstream_peek bs).2
  let e := t.data (input % 2 ^ t.table_bits)
  if e.code_length > bits ∧ bits ≤ t.table_bits then (.more, bs)
  else
    let fe? : Option huffman_table_entry :=
      if e.code_length > t.table_bits then
        walkLookup t.data (2 ^ t.table_bits) e t.table_bits (input / 2 ^ t.table_bits) bits
      else some e
    match fe? with
    | none => (.more, bs)
    | some fe =>
      if fe.code_length = 0 then (.err, bs)
      else (.found fe.symbol, bitstream_consume_bits bs fe.code_length)

/-! ### Canonical code computation (specification side, RFC 1951 §3.2.2)

`nextCodeF counts len` is the canonical starting code for each length as the
spec words it: `next[1] = 0`, `next[len] = (next[len-1] + count[len-1]) << 1`. -/

def nextCodeF (counts : Nat → Nat) : Nat → Nat
  | 0 => 0
  | l + 1 => if l = 0 then 0 else (nextCodeF counts l + counts l) * 2

/-- `computeNextCodes` succeeds when no length is over-subscribed, and then
returns exactly the canonical `nextCodeF` values (for indices not yet set,
i.e. `i ≤ l ≤ 15`; earlier indices keep their incoming values). -/
theorem computeNextCodes_ok (counts : Nat → Nat) :
    ∀ (k i acc : Nat) (ncs : Nat → Nat), i + k = 16 → 1 ≤ i →
    acc * 2 = nextCodeF counts i →
    (∀ l, i ≤ l → l ≤ 15 → nextCodeF counts l + counts l ≤ 2 ^ l) →
    ∃ nc, computeNextCodes counts i acc ncs = .ok nc ∧
      (∀ l, i ≤ l → l ≤ 15 → nc l = nextCodeF counts l) ∧
      (∀ l, l < i → nc l = ncs l) := by
  intro k
  induction k with
  | zero =>
    intro i acc ncs hik hi _ _
    have hi16 : i = 16 := by omega
    subst hi16
    refine ⟨ncs, ?_, ?_, ?_⟩
    · rw [computeNextCodes]
      rw [if_neg (by simp [MAX_CODE_LENGTH])]
    · intro l h1 h2; omega
    · intro l _; rfl
  | succ k ihk =>
    intro i acc ncs hik hi hacc hok
    have hlt : i < MAX_CODE_LENGTH + 1 := by simp [MAX_CODE_LENGTH]; omega
    rw [computeNextCodes]
    rw [if_pos hlt, if_neg (by push_neg; rw [hacc]; exact hok i le_rfl (by omega))]
    have hacc' : (acc * 2 + counts i) * 2 = nextCodeF counts (i + 1) := by
      show _ = nextCodeF counts (i + 1)
      have : nextCodeF counts (i + 1) = if i = 0 then 0 else (nextCodeF counts i + counts i) * 2 := rfl
      rw [this, if_neg (by omega), ← hacc]
    obtain ⟨nc, hrec, hset, hkeep⟩ := ihk (i + 1) (acc * 2 + counts i)
      (fun j => if j = i then acc * 2 else ncs j) (by omega) (by omega) hacc'
      (fun l hl1 hl2 => hok l (by omega) hl2)
    refine ⟨nc, hrec, ?_, ?_⟩
    · intro l h1 h2
      rcases Nat.eq_or_lt_of_le h1 with heq | hlt2
      · subst heq
        rw [hkeep i (by omega)]
        rw [if_pos rfl]
        exact hacc
      · exact hset l (by omega) h2
    · intro l hl
      rw [hkeep l (by omega)]
      rw [if_neg (by omega)]

/-- `computeNextCodes` fails with a data error as soon as some remaining
length is over-subscribed. -/
theorem computeNextCodes_err (counts : Nat → Nat) :
    ∀ (k i acc : Nat) (ncs : Nat → Nat), i + k = 16 → 1 ≤ i →
    acc * 2 = nextCodeF counts i →
    (∃ l, i ≤ l ∧ l ≤ 15 ∧ nextCodeF counts l + counts l > 2 ^ l) →
    ∃ e, computeNextCodes counts i acc ncs = .error e := by
  intro k
  induction k with
  | zero =>
    intro i acc ncs hik hi _ hbad
    obtain ⟨l, h1, h2, _⟩ := hbad
    omega
  | succ k ihk =>
    intro i acc ncs hik hi hacc hbad
    have hlt : i < MAX_CODE_LENGTH + 1 := by simp [MAX_CODE_LENGTH]; omega
    rw [computeNextCodes]
    rw [if_pos hlt]
    by_cases hover : acc * 2 + counts i > 2 ^ i
    · rw [if_pos hover]
      exact ⟨_, rfl⟩
    · rw [if_neg hover]
      have hacc' : (acc * 2 + counts i) * 2 = nextCodeF counts (i + 1) := by
        have : nextCodeF counts (i + 1) = if i = 0 then 0 else (nextCodeF counts i + counts i) * 2 := rfl
        rw [this, if_neg (by omega), ← hacc]
      refine ihk (i + 1) (acc * 2 + counts i) _ (by omega) (by omega) hacc' ?_
      obtain ⟨l, h1, h2, h3⟩ := hbad
      refine ⟨l, ?_, h2, h3⟩
      rcases Nat.eq_or_lt_of_le h1 with heq | hlt2
      · exfalso
        rw [← heq] at h3
        rw [hacc] at hover
        omega
      · omega

/-- Over-subscription makes `huffman_tree_reset` fail with a data error. -/
theorem huffman_tree_reset_error (t : huffman_tree) (v : List Nat)
    (hover : ∃ l, 1 ≤ l ∧ l ≤ 15 ∧
      nextCodeF (fun x => v.count x) l + v.count l > 2 ^ l) :
    ∃ e, huffman_tree_reset t v = .error e := by
  obtain ⟨e, he⟩ := computeNextCodes_err (fun x => v.count x) 15 1 0 (fun _ => 0)
    (by omega) le_rfl (by rfl) hover
  refine ⟨e, ?_⟩
  simp only [huffman_tree_reset]
  rw [he]

/-- Absence of over-subscription makes `huffman_tree_reset` succeed. -/
theorem huffman_tree_reset_ok (t : huffman_tree) (v : List Nat)
    (hok : ∀ l, 1 ≤ l → l ≤ 15 →
      nextCodeF (fun x => v.count x) l + v.count l ≤ 2 ^ l) :
    ∃ t', huffman_tree_reset t v = .ok t' := by
  obtain ⟨nc, hnc, _, _⟩ := computeNextCodes_ok (fun x => v.count x) 15 1 0 (fun _ => 0)
    (by omega) le_rfl (by rfl) hok
  refine ⟨{ t with data := (assignSymbols t.table_bits
    (fun j => if j < 2 ^ t.table_bits then ⟨0, 0⟩ else t.data j) nc v 0 0).1 }, ?_⟩
  simp only [huffman_tree_reset]
  rw [hnc]

/-- C3: any code-length vector that over-subscribes some prefix length (the
incrementally computed canonical next-code value after adding the count of
codes of length `l` exceeds `2^l`) is rejected by `huffman_tree_reset` with a
data error carrying the error-message parameters; in particular the vector
`[1,1,1]` surrounded by any numbers of zeros is rejected. -/
theorem C3_oversubscription_rejected :
    (∀ (t : huffman_tree) (v : List Nat),
      (∃ l, 1 ≤ l ∧ l ≤ 15 ∧
        nextCodeF (fun x => v.count x) l + v.count l > 2 ^ l) →
      ∃ e, huffman_tree_reset t v = .error e) ∧
    (∀ (t : huffman_tree) (n m : Nat),
      ∃ e, huffman_tree_reset t
        (List.replicate n 0 ++ [1, 1, 1] ++ List.replicate m 0) = .error e) := by
  refine ⟨huffman_tree_reset_error, ?_⟩
  intro t n m
  apply huffman_tree_reset_error t (List.replicate n 0 ++ [1, 1, 1] ++ List.replicate m 0)
  refine ⟨1, le_rfl, by omega, ?_⟩
  have hcount : (List.replicate n 0 ++ [1, 1, 1] ++ List.replicate m 0).count 1 = 3 := by
    simp [List.count_append, List.count_replicate]
  rw [hcount]
  have h0 : nextCodeF (fun x =>
      (List.replicate n 0 ++ [1, 1, 1] ++ List.replicate m 0).count x) 1 = 0 := rfl
  rw [h0]
  decide

/-! ### Bit reversal -/

/-- Specification-side reversal of the low `n` bits of `v` (RFC 1951's
"bit-reverse to LSB-first wire form"). -/
def bitRev : Nat → Nat → Nat
  | 0, _ => 0
  | n + 1, v => v % 2 * 2 ^ n + bitRev n (v / 2)

theorem bitRev_lt (n v : Nat) : bitRev n v < 2 ^ n := by
  induction n generalizing v with
  | zero => simp [bitRev]
  | succ n ih =>
    have h1 : v % 2 ≤ 1 := by omega
    have h2 := ih (v / 2)
    have h3 : v % 2 * 2 ^ n ≤ 2 ^ n := by
      calc v % 2 * 2 ^ n ≤ 1 * 2 ^ n := Nat.mul_le_mul_right _ h1
      _ = 2 ^ n := Nat.one_mul _
    calc bitRev (n + 1) v = v % 2 * 2 ^ n + bitRev n (v / 2) := rfl
    _ < 2 ^ n + 2 ^ n := by omega
    _ = 2 ^ (n + 1) := by rw [Nat.pow_succ]; omega

/-- Splitting a reversal: the low `k` bits of an `(m+k)`-bit reversal are the
reversal of the top `k` bits, the high `m` bits the reversal of the low `m`. -/
theorem bitRev_split (m k v : Nat) :
    bitRev (m + k) v = bitRev k (v / 2 ^ m) + 2 ^ k * bitRev m (v % 2 ^ m) := by
  induction m generalizing v k with
  | zero => simp [bitRev]
  | succ m ih =>
    have hshape : m + 1 + k = (m + k) + 1 := by omega
    rw [hshape]
    show v % 2 * 2 ^ (m + k) + bitRev (m + k) (v / 2) = _
    rw [ih k (v / 2)]
    have hd : v / 2 / 2 ^ m = v / 2 ^ (m + 1) := by
      rw [Nat.div_div_eq_div_mul, Nat.pow_succ, Nat.mul_comm (2 ^ m) 2]
    have hm1 : (v % 2 ^ (m + 1)) % 2 = v % 2 := by
      have : (2 : Nat) ∣ 2 ^ (m + 1) := Dvd.intro (2 ^ m) (by rw [Nat.pow_succ, Nat.mul_comm])
      exact Nat.mod_mod_of_dvd v this
    have hm2 : v % 2 ^ (m + 1) / 2 = v / 2 % 2 ^ m := by
      have h21 : (2 : Nat) * 2 ^ m = 2 ^ (m + 1) := by rw [Nat.pow_succ, Nat.mul_comm]
      rw [← h21, Nat.mod_mul_right_div_self]
    have hrhs : bitRev (m + 1) (v % 2 ^ (m + 1))
        = v % 2 * 2 ^ m + bitRev m (v / 2 % 2 ^ m) := by
      show (v % 2 ^ (m + 1)) % 2 * 2 ^ m + bitRev m (v % 2 ^ (m + 1) / 2) = _
      rw [hm1, hm2]
    rw [hrhs, hd]
    have hpow : (2 : Nat) ^ (m + k) = 2 ^ k * 2 ^ m := by
      rw [← Nat.pow_add, Nat.add_comm]
    rw [hpow]
    ring

/-- The low `k ≤ n` bits of an `n`-bit reversal are the reversal of the top
`k` bits. -/
theorem bitRev_mod (n k v : Nat) (h : k ≤ n) :
    bitRev n v % 2 ^ k = bitRev k (v / 2 ^ (n - k)) := by
  obtain ⟨m, rfl⟩ : ∃ m, n = m + k := ⟨n - k, by omega⟩
  have hmk : m + k - k = m := by omega
  rw [hmk, bitRev_split, Nat.add_mul_mod_self_left,
    Nat.mod_eq_of_lt (bitRev_lt _ _)]

/-- High bits of the reversal: `bitRev (n+1) v / 2^n = v % 2`. -/
theorem bitRev_div (n v : Nat) : bitRev (n + 1) v / 2 ^ n = v % 2 := by
  show (v % 2 * 2 ^ n + bitRev n (v / 2)) / 2 ^ n = v % 2
  rw [Nat.add_comm, Nat.mul_comm,
    Nat.add_mul_div_left _ _ (Nat.pos_pow_of_pos n (by decide)),
    Nat.div_eq_of_lt (bitRev_lt _ _)]
  omega

theorem bitRev_inj (n : Nat) : ∀ v1 v2, v1 < 2 ^ n → v2 < 2 ^ n →
    bitRev n v1 = bitRev n v2 → v1 = v2 := by
  induction n with
  | zero => intro v1 v2 h1 h2 _; omega
  | succ n ih =>
    intro v1 v2 h1 h2 heq
    have hlow : v1 % 2 = v2 % 2 := by
      have e1 := bitRev_div n v1
      have e2 := bitRev_div n v2
      rw [heq] at e1
      omega
    have hhigh : bitRev n (v1 / 2) = bitRev n (v2 / 2) := by
      have e1 : bitRev (n + 1) v1 % 2 ^ n = bitRev n (v1 / 2) := by
        have := bitRev_mod (n + 1) n v1 (by omega)
        simpa using this
      have e2 : bitRev (n + 1) v2 % 2 ^ n = bitRev n (v2 / 2) := by
        have := bitRev_mod (n + 1) n v2 (by omega)
        simpa using this
      rw [← e1, ← e2, heq]
    have := ih (v1 / 2) (v2 / 2)
      (by rw [Nat.pow_succ] at h1; omega)
      (by rw [Nat.pow_succ] at h2; omega) hhigh
    omega

theorem revNibble_eq : ∀ x, x < 16 → revNibble x = bitRev 4 x := by decide

/-- Dividing an `n`-bit reversal by `2^(n-len)` keeps the reversal of the low
`len` bits. -/
theorem bitRev_shift (n len u : Nat) (h : len ≤ n) :
    bitRev n u / 2 ^ (n - len) = bitRev len (u % 2 ^ len) := by
  obtain ⟨k, rfl⟩ : ∃ k, n = len + k := ⟨n - len, by omega⟩
  have hk : len + k - len = k := by omega
  rw [hk, bitRev_split,
    Nat.add_mul_div_left _ _ (Nat.pos_pow_of_pos k (by decide)),
    Nat.div_eq_of_lt (bitRev_lt _ _), Nat.zero_add]

theorem reverse_bits_loop_eq (len : Nat) :
    ∀ (K j v : Nat), len ≤ 4 * j + 4 * K →
    reverse_bits_loop (v / 2 ^ (4 * j)) (bitRev (4 * j) (v % 2 ^ (4 * j))) (4 * j) len
      = bitRev len (v % 2 ^ len) := by
  intro K
  induction K with
  | zero =>
    intro j v hle
    rw [reverse_bits_loop, if_neg (by omega), bitRev_shift _ len _ (by omega),
      Nat.mod_mod_of_dvd _ (Nat.pow_dvd_pow 2 (by omega))]
  | succ K ih =>
    intro j v hle
    by_cases hcont : 4 * j < len
    · rw [reverse_bits_loop, if_pos hcont]
      have h164 : (16 : Nat) = 2 ^ 4 := by norm_num
      have harg1 : v / 2 ^ (4 * j) / 16 = v / 2 ^ (4 * (j + 1)) := by
        rw [Nat.div_div_eq_div_mul]
        congr 1
        rw [h164, ← Nat.pow_add]
        ring
      have hnib : v / 2 ^ (4 * j) % 16 = v % 2 ^ (4 * (j + 1)) / 2 ^ (4 * j) := by
        have h16 : (2 : Nat) ^ (4 * (j + 1)) = 2 ^ (4 * j) * 16 := by
          rw [h164, ← Nat.pow_add]
          ring
        rw [h16, Nat.mod_mul_right_div_self]
      have hmm : v % 2 ^ (4 * (j + 1)) % 2 ^ (4 * j) = v % 2 ^ (4 * j) := by
        exact Nat.mod_mod_of_dvd _ (Nat.pow_dvd_pow 2 (by omega))
      have hres : bitRev (4 * j) (v % 2 ^ (4 * j)) * 16 + revNibble (v / 2 ^ (4 * j) % 16)
          = bitRev (4 * (j + 1)) (v % 2 ^ (4 * (j + 1))) := by
        have hsplit := bitRev_split (4 * j) 4 (v % 2 ^ (4 * (j + 1)))
        have h4j : 4 * j + 4 = 4 * (j + 1) := by ring
        rw [h4j] at hsplit
        rw [hsplit, hmm, ← hnib, revNibble_eq _ (Nat.mod_lt _ (by decide))]
        have : (2 : Nat) ^ 4 = 16 := by norm_num
        rw [this]
        ring
      rw [harg1, hres]
      have h4j : 4 * j + 4 = 4 * (j + 1) := by ring
      rw [h4j]
      exact ih (j + 1) v (by omega)
    · rw [reverse_bits_loop, if_neg hcont, bitRev_shift _ len _ (by omega),
        Nat.mod_mod_of_dvd _ (Nat.pow_dvd_pow 2 (by omega))]

/-- The source's nibble-table `reverse_bits` computes the mathematical bit
reversal of the low `bitCount` bits. -/
theorem reverse_bits_eq (v len : Nat) :
    reverse_bits v len = bitRev len (v % 2 ^ len) := by
  have h := reverse_bits_loop_eq len len 0 v (by omega)
  simpa [reverse_bits, bitRev] using h

/-! ### Prefix-freeness of canonical codes -/

/-- The numeric canonical code of symbol `i`: codes of one length are
assigned in ascending symbol order starting at the length's `nextCodeF`. -/
def codeN (v : List Nat) (i : Nat) : Nat :=
  nextCodeF (fun x => v.count x) (v.getD i 0) + (v.take i).count (v.getD i 0)

theorem count_take_lt (v : List Nat) (i : Nat) (hi : i < v.length) :
    (v.take i).count (v.getD i 0) < v.count (v.getD i 0) := by
  set a := v.getD i 0 with ha
  have hsplit : v.count a = (v.take i).count a + (v.drop i).count a := by
    conv_lhs => rw [← List.take_append_drop i v]
    rw [List.count_append]
  have hdrop : 1 ≤ (v.drop i).count a := by
    have hcons : v.drop i = v.getD i 0 :: v.drop (i + 1) := by
      rw [List.getD_eq_getElem v 0 hi]
      exact List.drop_eq_getElem_cons hi
    rw [hcons, ← ha, List.count_cons_self]
    omega
  omega

theorem count_take_mono (v : List Nat) (a : Nat) (i j : Nat) (h : i ≤ j) :
    (v.take i).count a ≤ (v.take j).count a := by
  have heq : v.take i = (v.take j).take i := by
    rw [List.take_take, Nat.min_eq_left h]
  rw [heq]
  exact ((List.take_prefix i (v.take j)).sublist).count_le a

theorem nextCodeF_ge (c : Nat → Nat) (l l' : Nat) (h1 : 1 ≤ l) (h : l < l') :
    (nextCodeF c l + c l) * 2 ^ (l' - l) ≤ nextCodeF c l' := by
  induction l' with
  | zero => omega
  | succ l' ih =>
    rcases Nat.lt_or_ge l l' with hlt | hge
    · have hrec : nextCodeF c (l' + 1) = (nextCodeF c l' + c l') * 2 := by
        show (if l' = 0 then 0 else (nextCodeF c l' + c l') * 2) = _
        rw [if_neg (by omega)]
      have hstep := ih hlt
      have hexp : l' + 1 - l = (l' - l) + 1 := by omega
      rw [hexp, Nat.pow_succ, hrec]
      have : (nextCodeF c l + c l) * (2 ^ (l' - l) * 2)
          = ((nextCodeF c l + c l) * 2 ^ (l' - l)) * 2 := by ring
      rw [this]
      omega
    · have hl : l = l' := by omega
      subst hl
      have hrec : nextCodeF c (l + 1) = (nextCodeF c l + c l) * 2 := by
        show (if l = 0 then 0 else (nextCodeF c l + c l) * 2) = _
        rw [if_neg (by omega)]
      rw [hrec]
      have : l + 1 - l = 1 := by omega
      rw [this, Nat.pow_one]

theorem count_take_succ (v : List Nat) (k : Nat) (hk : k < v.length) :
    (v.take (k + 1)).count (v.getD k 0) = (v.take k).count (v.getD k 0) + 1 := by
  rw [List.take_succ, List.count_append]
  have hopt : v[k]? = some (v.getD k 0) := by
    rw [List.getElem?_eq_getElem hk, List.getD_eq_getElem v 0 hk]
  rw [hopt]
  simp

/-- Under acceptance, every canonical code fits in its length. -/
theorem codeN_lt (v : List Nat) (i : Nat) (hi : i < v.length)
    (hl15 : v.getD i 0 ≤ 15) (hl0 : 1 ≤ v.getD i 0)
    (hacc : ∀ l, 1 ≤ l → l ≤ 15 →
      nextCodeF (fun x => v.count x) l + v.count l ≤ 2 ^ l) :
    codeN v i < 2 ^ v.getD i 0 := by
  have h1 := count_take_lt v i hi
  have h2 := hacc (v.getD i 0) hl0 hl15
  simp only [codeN]
  omega

/-- Canonical codes are (MSB-first) prefix-free: the truncation of a longer
code to a shorter assigned length never equals the shorter code. -/
theorem codeN_div_ne (v : List Nat) (i j : Nat)
    (hi : i < v.length) (hj : j < v.length) (hne : i ≠ j)
    (hli : 1 ≤ v.getD i 0)
    (hord : v.getD i 0 ≤ v.getD j 0) :
    codeN v j / 2 ^ (v.getD j 0 - v.getD i 0) ≠ codeN v i := by
  rcases Nat.eq_or_lt_of_le hord with heq | hlt
  · have hz : v.getD j 0 - v.getD i 0 = 0 := by omega
    rw [hz, pow_zero, Nat.div_one]
    simp only [codeN, ← heq]
    rcases Nat.lt_or_ge i j with hij | hij
    · have hsucc := count_take_succ v i hi
      have hmono := count_take_mono v (v.getD i 0) (i + 1) j (by omega)
      omega
    · have hji : j < i := by omega
      have hsucc := count_take_succ v j hj
      rw [← heq] at hsucc
      have hmono := count_take_mono v (v.getD i 0) (j + 1) i (by omega)
      omega
  · have hstep := nextCodeF_ge (fun x => v.count x) (v.getD i 0) (v.getD j 0) hli hlt
    have hranki := count_take_lt v i hi
    have hge : nextCodeF (fun x => v.count x) (v.getD i 0) + v.count (v.getD i 0)
        ≤ codeN v j / 2 ^ (v.getD j 0 - v.getD i 0) := by
      rw [Nat.le_div_iff_mul_le (Nat.pos_pow_of_pos _ (by decide))]
      calc (nextCodeF (fun x => v.count x) (v.getD i 0) + v.count (v.getD i 0))
            * 2 ^ (v.getD j 0 - v.getD i 0)
          ≤ nextCodeF (fun x => v.count x) (v.getD j 0) := hstep
        _ ≤ codeN v j := by simp only [codeN]; exact Nat.le_add_right _ _
    intro hcontra
    have hilt : codeN v i < nextCodeF (fun x => v.count x) (v.getD i 0)
        + v.count (v.getD i 0) := by
      simp only [codeN]
      omega
    omega

/-- Reversed canonical codes never agree on their common low bits: the
LSB-first form of the prefix-freeness used by the table construction. -/
theorem revCode_conflict_free (v : List Nat) (i j : Nat)
    (hi : i < v.length) (hj : j < v.length) (hne : i ≠ j)
    (hli : 1 ≤ v.getD i 0) (hlj : 1 ≤ v.getD j 0)
    (h15i : v.getD i 0 ≤ 15) (h15j : v.getD j 0 ≤ 15)
    (hacc : ∀ l, 1 ≤ l → l ≤ 15 →
      nextCodeF (fun x => v.count x) l + v.count l ≤ 2 ^ l) :
    bitRev (v.getD i 0) (codeN v i) % 2 ^ min (v.getD i 0) (v.getD j 0)
      ≠ bitRev (v.getD j 0) (codeN v j) % 2 ^ min (v.getD i 0) (v.getD j 0) := by
  intro hcontra
  rcases le_total (v.getD i 0) (v.getD j 0) with hord | hord
  · rw [min_eq_left hord, bitRev_mod _ _ _ le_rfl, bitRev_mod _ _ _ hord] at hcontra
    have hzi : v.getD i 0 - v.getD i 0 = 0 := by omega
    rw [hzi, pow_zero, Nat.div_one] at hcontra
    have hciB : codeN v i < 2 ^ v.getD i 0 := codeN_lt v i hi h15i hli hacc
    have hcjB : codeN v j / 2 ^ (v.getD j 0 - v.getD i 0) < 2 ^ v.getD i 0 := by
      rw [Nat.div_lt_iff_lt_mul (Nat.pos_pow_of_pos _ (by decide)), ← Nat.pow_add]
      have harith : v.getD i 0 + (v.getD j 0 - v.getD i 0) = v.getD j 0 := by omega
      rw [harith]
      exact codeN_lt v j hj h15j hlj hacc
    have := bitRev_inj (v.getD i 0) _ _ hciB hcjB hcontra
    exact codeN_div_ne v i j hi hj hne hli hord this.symm
  · rw [min_eq_right hord, bitRev_mod _ _ _ hord, bitRev_mod _ _ _ le_rfl] at hcontra
    have hzj : v.getD j 0 - v.getD j 0 = 0 := by omega
    rw [hzj, pow_zero, Nat.div_one] at hcontra
    have hcjB : codeN v j < 2 ^ v.getD j 0 := codeN_lt v j hj h15j hlj hacc
    have hciB : codeN v i / 2 ^ (v.getD i 0 - v.getD j 0) < 2 ^ v.getD j 0 := by
      rw [Nat.div_lt_iff_lt_mul (Nat.pos_pow_of_pos _ (by decide)), ← Nat.pow_add]
      have harith : v.getD j 0 + (v.getD i 0 - v.getD j 0) = v.getD i 0 := by omega
      rw [harith]
      exact codeN_lt v i hi h15i hli hacc
    have := bitRev_inj (v.getD j 0) _ _ hciB hcjB hcontra
    exact codeN_div_ne v j i hj hi (Ne.symm hne) hlj hord this

/-! ### Structural invariant of the lookup table / binary tree -/

theorem upde_eq (d : Nat → huffman_table_entry) (i : Nat) (e : huffman_table_entry) :
    upde d i e i = e := by simp [upde]

theorem upde_ne (d : Nat → huffman_table_entry) (i : Nat) (e : huffman_table_entry)
    (x : Nat) (h : x ≠ i) : upde d i e x = d x := by simp [upde, h]

theorem mod_pow_succ_decomp (a k : Nat) :
    a % 2 ^ (k + 1) = a % 2 ^ k + a / 2 ^ k % 2 * 2 ^ k := by
  have h : (2 : Nat) ^ (k + 1) = 2 ^ k * 2 := by rw [Nat.pow_succ]
  rw [h, Nat.mod_mul]
  ring

theorem div_mod_pow_succ (a k : Nat) : a % 2 ^ (k + 1) / 2 ^ k = a / 2 ^ k % 2 := by
  have h : (2 : Nat) ^ (k + 1) = 2 ^ k * 2 := by rw [Nat.pow_succ]
  rw [h, Nat.mod_mul_right_div_self]

theorem mod_char (x code len : Nat) (h : code < 2 ^ len) :
    (∃ q, x = code + q * 2 ^ len) ↔ x % 2 ^ len = code := by
  constructor
  · rintro ⟨q, rfl⟩
    rw [Nat.add_mul_mod_self_right, Nat.mod_eq_of_lt h]
  · intro h1
    refine ⟨x / 2 ^ len, ?_⟩
    have hdecomp := Nat.div_add_mod x (2 ^ len)
    have : x = x % 2 ^ len + x / 2 ^ len * 2 ^ len := by
      rw [Nat.mul_comm (x / 2 ^ len) (2 ^ len)]
      omega
    rw [h1] at this
    exact this

/-- The structural invariant of the Huffman lookup array during STEP 3.

`own n` is the (ghost) bit-prefix at which allocated binary-tree pair `n`
sits: `own n = (k, p)` means pair `n` is reached after consuming the `k`
LSB-first bits of `p`.  `S` lists the `(reversed code, length, symbol)`
triples that justify the entries present in the array, `Sc` the sublist whose
lookup paths are known complete. -/
structure TreeInv (T : Nat) (d : Nat → huffman_table_entry) (N : Nat)
    (S Sc : List (Nat × Nat × Nat)) (own : Nat → Nat × Nat) : Prop where
  hT1 : 1 ≤ T
  hT15 : T < 15
  scodes : ∀ c l s, (c, l, s) ∈ S → 1 ≤ l ∧ l ≤ 15 ∧ c < 2 ^ l
  own_range : ∀ n, n < N → T ≤ (own n).1 ∧ (own n).1 < 15 ∧ (own n).2 < 2 ^ (own n).1
  own_link : ∀ n, n < N →
    ((own n).1 = T ∧ d (own n).2 = ⟨15, n⟩) ∨
    (T < (own n).1 ∧ ∃ n', n' < N ∧
      own n' = ((own n).1 - 1, (own n).2 % 2 ^ ((own n).1 - 1)) ∧
      d (2 ^ T + 2 * n' + (own n).2 / 2 ^ ((own n).1 - 1)) = ⟨15, n⟩)
  own_inj : ∀ n1, n1 < N → ∀ n2, n2 < N → own n1 = own n2 → n1 = n2
  pair_child : ∀ n, n < N → ∀ b, b < 2 →
    (d (2 ^ T + 2 * n + b)).code_length = 0 ∨
    (∃ n2, n2 < N ∧ d (2 ^ T + 2 * n + b) = ⟨15, n2⟩ ∧
      own n2 = ((own n).1 + 1, (own n).2 + b * 2 ^ (own n).1)) ∨
    (∃ s, ((own n).2 + b * 2 ^ (own n).1, (own n).1 + 1, s) ∈ S ∧
      d (2 ^ T + 2 * n + b) = ⟨(own n).1 + 1, s⟩)
  table_classify : ∀ idx, idx < 2 ^ T →
    (d idx).code_length = 0 ∨
    (∃ c l s, (c, l, s) ∈ S ∧ 1 ≤ l ∧ l ≤ T ∧ idx % 2 ^ l = c ∧ d idx = ⟨l, s⟩) ∨
    (∃ n, n < N ∧ d idx = ⟨15, n⟩ ∧ own n = (T, idx))
  pair_used : ∀ n, n < N → ∃ c l s, (c, l, s) ∈ S ∧ (own n).1 < l ∧
    c % 2 ^ (own n).1 = (own n).2
  sc_sub : ∀ x, x ∈ Sc → x ∈ S
  complete_short : ∀ c l s, (c, l, s) ∈ Sc → l ≤ T →
    ∀ idx, idx < 2 ^ T → idx % 2 ^ l = c → d idx = ⟨l, s⟩
  complete_long : ∀ c l s, (c, l, s) ∈ Sc → T < l →
    ∃ n, n < N ∧ own n = (l - 1, c % 2 ^ (l - 1)) ∧
      d (2 ^ T + 2 * n + c / 2 ^ (l - 1)) = ⟨l, s⟩

/-- `fillTable` writes `⟨len, sym⟩` exactly at the indices of the arithmetic
progression `code, code + 2^len, ...` up to `mask`, and nothing else. -/
theorem fillTable_char (len sym : Nat) :
    ∀ (fuel code mask : Nat) (d : Nat → huffman_table_entry), mask < code + fuel →
    ∀ x, ((x ≤ mask ∧ ∃ q, x = code + q * 2 ^ len) →
        fillTable d code len sym mask x = ⟨len, sym⟩) ∧
      (¬(x ≤ mask ∧ ∃ q, x = code + q * 2 ^ len) →
        fillTable d code len sym mask x = d x) := by
  intro fuel
  have hE : 1 ≤ 2 ^ len := Nat.pos_pow_of_pos len (by decide)
  induction fuel with
  | zero =>
    intro code mask d hfuel x
    constructor
    · rintro ⟨h1, q, rfl⟩
      exfalso
      have := Nat.le_add_right code (q * 2 ^ len)
      omega
    · intro _
      rw [fillTable, if_neg (by omega)]
  | succ fuel ih =>
    intro code mask d hfuel x
    by_cases hcm : code ≤ mask
    · have hrec : ∀ y, fillTable d code len sym mask y
          = fillTable (upde d code ⟨len, sym⟩) (code + 2 ^ len) len sym mask y := by
        intro y
        rw [fillTable, if_pos hcm]
      constructor
      · rintro ⟨h1, q, rfl⟩
        rw [hrec]
        rcases Nat.eq_zero_or_pos q with h0 | h1q
        · subst h0
          rw [Nat.zero_mul, Nat.add_zero]
          have hnot : ¬(code ≤ mask ∧ ∃ q', code = code + 2 ^ len + q' * 2 ^ len) := by
            rintro ⟨_, q', hq'⟩
            have h2 : 0 ≤ q' * 2 ^ len := Nat.zero_le _
            generalize q' * 2 ^ len = t at hq'
            omega
          rw [(ih (code + 2 ^ len) mask _ (by omega) code).2 hnot, upde_eq]
        · have hq : code + q * 2 ^ len = code + 2 ^ len + (q - 1) * 2 ^ len := by
            have hq2 : q = (q - 1) + 1 := by omega
            rw [hq2, Nat.add_mul, Nat.one_mul]
            have hq3 : q - 1 + 1 - 1 = q - 1 := by omega
            rw [hq3]
            omega
          rw [(ih (code + 2 ^ len) mask _ (by omega) _).1
            ⟨h1, q - 1, by rw [hq]⟩]
      · intro hnot
        rw [hrec]
        have hxc : x ≠ code := by
          intro hx
          exact hnot ⟨by omega, 0, by omega⟩
        have hnot' : ¬(x ≤ mask ∧ ∃ q', x = code + 2 ^ len + q' * 2 ^ len) := by
          rintro ⟨hx1, q', hq'⟩
          refine hnot ⟨hx1, q' + 1, ?_⟩
          rw [Nat.add_mul, Nat.one_mul]
          omega
        rw [(ih (code + 2 ^ len) mask _ (by omega) x).2 hnot', upde_ne _ _ _ _ hxc]
    · constructor
      · rintro ⟨h1, q, rfl⟩
        exfalso
        have := Nat.le_add_right code (q * 2 ^ len)
        omega
      · intro _
        rw [fillTable, if_neg (by omega)]

theorem mod_mod_pow (a l m : Nat) (h : m ≤ l) : a % 2 ^ l % 2 ^ m = a % 2 ^ m :=
  Nat.mod_mod_of_dvd a (Nat.pow_dvd_pow 2 h)

/-- Inserting a code of length `≤ table_bits` (the `fillTable` branch of
STEP 3) preserves the structural invariant and completes that code. -/
theorem fillTable_inv (T : Nat) (d : Nat → huffman_table_entry) (N : Nat)
    (S Sc : List (Nat × Nat × Nat)) (own : Nat → Nat × Nat)
    (cs ls ss : Nat)
    (inv : TreeInv T d N S Sc own)
    (hmem : (cs, ls, ss) ∈ S)
    (hlsT : ls ≤ T)
    (hNC : ∀ c l s, (c, l, s) ∈ S → (c, l, s) ≠ (cs, ls, ss) →
      c % 2 ^ min l ls ≠ cs % 2 ^ min l ls) :
    TreeInv T (fillTable d cs ls ss (2 ^ T - 1)) N S ((cs, ls, ss) :: Sc) own := by
  obtain ⟨hls1, hls15, hcs⟩ := inv.scodes cs ls ss hmem
  have hTpos : 1 ≤ 2 ^ T := Nat.pos_pow_of_pos T (by decide)
  have hft := fillTable_char ls ss (2 ^ T) cs (2 ^ T - 1) d (by omega)
  -- write/unchanged characterization in modular form
  have hwr : ∀ x, x < 2 ^ T → x % 2 ^ ls = cs →
      fillTable d cs ls ss (2 ^ T - 1) x = ⟨ls, ss⟩ := by
    intro x hx1 hx2
    exact (hft x).1 ⟨by omega, (mod_char x cs ls hcs).mpr hx2⟩
  have hun : ∀ x, ¬(x < 2 ^ T ∧ x % 2 ^ ls = cs) →
      fillTable d cs ls ss (2 ^ T - 1) x = d x := by
    intro x hx
    refine (hft x).2 ?_
    rintro ⟨h1, hq⟩
    exact hx ⟨by omega, (mod_char x cs ls hcs).mp hq⟩
  -- value stability on every slot whose entry is nonzero
  have hVS : ∀ x, (d x).code_length ≠ 0 → fillTable d cs ls ss (2 ^ T - 1) x = d x := by
    intro x hx
    by_cases hxw : x < 2 ^ T ∧ x % 2 ^ ls = cs
    · obtain ⟨hx1, hx2⟩ := hxw
      rcases inv.table_classify x hx1 with h0 | ⟨c, l, s, hcls, hl1, hlT, hxl, hdx⟩ |
        ⟨n, hn, hdx, hown⟩
      · exact absurd h0 hx
      · by_cases hsame : (c, l, s) = (cs, ls, ss)
        · rw [hwr x hx1 hx2, hdx]
          injection hsame with h1 h2
          injection h2 with h2 h3
          rw [h2, h3]
        · exfalso
          refine hNC c l s hcls hsame ?_
          rw [← hxl, mod_mod_pow x l (min l ls) (min_le_left _ _), ← hx2,
            mod_mod_pow x ls (min l ls) (min_le_right _ _)]
      · exfalso
        obtain ⟨c, l, s, hcls, hlgt, hcmod⟩ := inv.pair_used n hn
        have hofst : (own n).1 = T := by rw [hown]
        have hosnd : (own n).2 = x := by rw [hown]
        rw [hofst] at hlgt
        rw [hofst, hosnd] at hcmod
        by_cases hsame : (c, l, s) = (cs, ls, ss)
        · injection hsame with h1 h2
          injection h2 with h2 h3
          omega
        · refine hNC c l s hcls hsame ?_
          have hminr : min l ls = ls := by omega
          rw [hminr, ← mod_mod_pow c T ls hlsT, hcmod, hx2, Nat.mod_eq_of_lt hcs]
    · exact hun x hxw
  -- slots in the tree region are untouched
  have hTR : ∀ x, 2 ^ T ≤ x → fillTable d cs ls ss (2 ^ T - 1) x = d x := by
    intro x hx
    exact hun x (by omega)
  have hT1 := inv.hT1
  refine ⟨inv.hT1, inv.hT15, inv.scodes, inv.own_range, ?_, inv.own_inj, ?_, ?_,
    inv.pair_used, ?_, ?_, ?_⟩
  · -- own_link
    intro n hn
    rcases inv.own_link n hn with ⟨h1, h2⟩ | ⟨h1, n', hn', hown', hd⟩
    · exact Or.inl ⟨h1, by rw [hVS _ (by rw [h2]; simp)]; exact h2⟩
    · exact Or.inr ⟨h1, n', hn', hown', by rw [hVS _ (by rw [hd]; simp)]; exact hd⟩
  · -- pair_child
    intro n hn b hb
    have hge : 2 ^ T ≤ 2 ^ T + 2 * n + b := by omega
    rw [hTR _ hge]
    exact inv.pair_child n hn b hb
  · -- table_classify
    intro idx hidx
    by_cases hxw : idx % 2 ^ ls = cs
    · exact Or.inr (Or.inl ⟨cs, ls, ss, hmem, hls1, hlsT, hxw, hwr idx hidx hxw⟩)
    · rw [hun idx (fun h => hxw h.2)]
      exact inv.table_classify idx hidx
  · -- sc_sub
    intro x hx
    rcases List.mem_cons.mp hx with hhead | htail
    · rw [hhead]; exact hmem
    · exact inv.sc_sub x htail
  · -- complete_short
    intro c l s hcls hlT idx hidx hmod
    rcases List.mem_cons.mp hcls with hhead | htail
    · injection hhead with h1 h2
      injection h2 with h2 h3
      subst h1; subst h2; subst h3
      exact hwr idx hidx hmod
    · have hold := inv.complete_short c l s htail hlT idx hidx hmod
      obtain ⟨hl1', _, _⟩ := inv.scodes c l s (inv.sc_sub _ htail)
      rw [hVS _ (by rw [hold]; simp; omega)]
      exact hold
  · -- complete_long
    intro c l s hcls hlT
    rcases List.mem_cons.mp hcls with hhead | htail
    · injection hhead with h1 h2
      injection h2 with h2 h3
      omega
    · obtain ⟨n, hn, hown, hd⟩ := inv.complete_long c l s htail hlT
      refine ⟨n, hn, hown, ?_⟩
      rw [hVS _ (by rw [hd]; simp; omega)]
      exact hd

theorem treeInsert_alloc (B : Nat) (d : Nat → huffman_table_entry)
    (loc code depth len sym nextIdx : Nat)
    (h1 : depth < len) (h2 : (d loc).code_length = 0) :
    treeInsert B d loc code depth len sym nextIdx
      = treeInsert B
          (zeroCL (zeroCL (upde d loc ⟨15, nextIdx⟩) (B + 2 * nextIdx))
            (B + 2 * nextIdx + 1))
          (B + 2 * nextIdx + code % 2) (code / 2) (depth + 1) len sym (nextIdx + 1) := by
  rw [treeInsert, if_pos h1, if_pos h2]

theorem treeInsert_follow (B : Nat) (d : Nat → huffman_table_entry)
    (loc code depth len sym nextIdx : Nat)
    (h1 : depth < len) (h2 : ¬(d loc).code_length = 0) :
    treeInsert B d loc code depth len sym nextIdx
      = treeInsert B d (B + 2 * (d loc).symbol + code % 2) (code / 2)
          (depth + 1) len sym nextIdx := by
  rw [treeInsert, if_pos h1, if_neg h2]

theorem treeInsert_base (B : Nat) (d : Nat → huffman_table_entry)
    (loc code depth len sym nextIdx : Nat) (h1 : ¬ depth < len) :
    treeInsert B d loc code depth len sym nextIdx = (upde d loc ⟨len, sym⟩, nextIdx) := by
  rw [treeInsert, if_neg h1]

/-- During a long-code insertion, the slot addressed by the prefix
`(depth, cs % 2^depth)` holds: an unassigned entry, a genuine pointer for
that prefix, or (only at the final depth) the code's own terminal. -/
theorem treeInsert_classify (T cs ls ss : Nat)
    (d : Nat → huffman_table_entry) (N : Nat)
    (S Sc : List (Nat × Nat × Nat)) (own : Nat → Nat × Nat) (depth loc : Nat)
    (inv : TreeInv T d N S Sc own)
    (hmem : (cs, ls, ss) ∈ S)
    (hTls : T < ls)
    (hNC : ∀ c l s, (c, l, s) ∈ S → (c, l, s) ≠ (cs, ls, ss) →
      c % 2 ^ min l ls ≠ cs % 2 ^ min l ls)
    (hdls : depth ≤ ls)
    (hnode : (depth = T ∧ loc = cs % 2 ^ T) ∨
      (T < depth ∧ ∃ n, n < N ∧ own n = (depth - 1, cs % 2 ^ (depth - 1)) ∧
        loc = 2 ^ T + 2 * n + cs / 2 ^ (depth - 1) % 2)) :
    (d loc).code_length = 0 ∨
    (∃ n2, n2 < N ∧ d loc = ⟨15, n2⟩ ∧ own n2 = (depth, cs % 2 ^ depth)) ∨
    (depth = ls ∧ d loc = ⟨ls, ss⟩) := by
  obtain ⟨hls1, hls15, hcs⟩ := inv.scodes cs ls ss hmem
  rcases hnode with ⟨hdT, hloc⟩ | ⟨hdT, n, hn, hown, hloc⟩
  · -- table entry
    have hlocB : loc < 2 ^ T := by
      rw [hloc]; exact Nat.mod_lt _ (Nat.pos_pow_of_pos T (by decide))
    rcases inv.table_classify loc hlocB with h0 | ⟨c, l, s, hcls, hl1, hlT, hxl, hdx⟩ |
      ⟨n2, hn2, hdx, hown2⟩
    · exact Or.inl h0
    · exfalso
      by_cases hsame : (c, l, s) = (cs, ls, ss)
      · injection hsame with h1 h2
        injection h2 with h2 h3
        omega
      · refine hNC c l s hcls hsame ?_
        have hminl : min l ls = l := by omega
        rw [hminl, ← hxl, mod_mod_pow loc l l le_rfl, hloc,
          mod_mod_pow cs T l (by omega)]
    · refine Or.inr (Or.inl ⟨n2, hn2, hdx, ?_⟩)
      rw [hown2, hloc, hdT]
  · -- child slot of the parent pair `n`
    have hb : cs / 2 ^ (depth - 1) % 2 < 2 := Nat.mod_lt _ (by decide)
    have hpc := inv.pair_child n hn (cs / 2 ^ (depth - 1) % 2) hb
    rw [← hloc] at hpc
    have hofst : (own n).1 = depth - 1 := by rw [hown]
    have hosnd : (own n).2 = cs % 2 ^ (depth - 1) := by rw [hown]
    have hdecomp : cs % 2 ^ (depth - 1) + cs / 2 ^ (depth - 1) % 2 * 2 ^ (depth - 1)
        = cs % 2 ^ depth := by
      have hd1 : depth = (depth - 1) + 1 := by omega
      rw [hd1, mod_pow_succ_decomp]
      have : depth - 1 + 1 - 1 = depth - 1 := by omega
      rw [this]
    rcases hpc with h0 | ⟨n2, hn2, hdx, hown2⟩ | ⟨s, hs, hdx⟩
    · exact Or.inl h0
    · refine Or.inr (Or.inl ⟨n2, hn2, hdx, ?_⟩)
      rw [hown2, hofst, hosnd]
      have hd1 : depth - 1 + 1 = depth := by omega
      rw [hd1, hdecomp]
    · rw [hofst] at hs hdx
      rw [hosnd, hdecomp] at hs
      have hd1 : depth - 1 + 1 = depth := by omega
      rw [hd1] at hs hdx
      by_cases hsame : (cs % 2 ^ depth, depth, s) = (cs, ls, ss)
      · injection hsame with h1 h2
        injection h2 with h2 h3
        refine Or.inr (Or.inr ⟨h2, ?_⟩)
        rw [hdx, h2, h3]
      · exfalso
        refine hNC _ _ _ hs hsame ?_
        have hminl : min depth ls = depth := by omega
        rw [hminl]
        exact mod_mod_pow cs depth depth le_rfl

theorem hte_cl (a b : Nat) : (huffman_table_entry.mk a b).code_length = a := rfl

theorem hte_sym (a b : Nat) : (huffman_table_entry.mk a b).symbol = b := rfl

theorem zeroCL_cl (d : Nat → huffman_table_entry) (i : Nat) :
    (zeroCL d i i).code_length = 0 := by
  rw [zeroCL, upde_eq]

theorem zeroCL_ne (d : Nat → huffman_table_entry) (i x : Nat) (h : x ≠ i) :
    zeroCL d i x = d x := upde_ne _ _ _ _ h

theorem upde_id (d : Nat → huffman_table_entry) (i : Nat) (e : huffman_table_entry)
    (h : d i = e) : upde d i e = d := by
  funext x
  by_cases hx : x = i
  · subst hx
    rw [upde_eq]
    exact h.symm
  · exact upde_ne _ _ _ _ hx

/-- If the entry at `loc` is unassigned, any index holding a nonzero-length
entry is distinct from `loc`. -/
theorem write_miss (d : Nat → huffman_table_entry) (loc idx a b : Nat)
    (h0 : (d loc).code_length = 0) (hw : d idx = ⟨a, b⟩) (ha : a ≠ 0) : idx ≠ loc := by
  intro h
  rw [← h, hw] at h0
  exact ha h0

theorem div_pow_lt_two (a k : Nat) (h : a < 2 ^ (k + 1)) : a / 2 ^ k < 2 := by
  have hp : 0 < 2 ^ k := Nat.pos_pow_of_pos k (by decide)
  have h2 : (2 : Nat) ^ (k + 1) = 2 ^ k * 2 := Nat.pow_succ 2 k
  rw [Nat.div_lt_iff_lt_mul hp]
  omega

/-- A node-address hypothesis pins `loc` below the allocation frontier. -/
theorem nodeAt_bounds (T cs N : Nat) (own : Nat → Nat × Nat) (depth loc : Nat)
    (hnode : (depth = T ∧ loc = cs % 2 ^ T) ∨
      (T < depth ∧ ∃ n, n < N ∧ own n = (depth - 1, cs % 2 ^ (depth - 1)) ∧
        loc = 2 ^ T + 2 * n + cs / 2 ^ (depth - 1) % 2)) :
    T ≤ depth ∧ loc < 2 ^ T + 2 * N := by
  rcases hnode with ⟨hd, hl⟩ | ⟨hd, n, hn, _, hl⟩
  · have h1 : cs % 2 ^ T < 2 ^ T := Nat.mod_lt _ (Nat.pos_pow_of_pos T (by decide))
    omega
  · have h1 : cs / 2 ^ (depth - 1) % 2 < 2 := Nat.mod_lt _ (by decide)
    omega

/-- Inserting a long code `(cs, ls, ss)` of a conflict-free code set into the
tree from any node of its insertion path preserves the tree invariant,
completes the code, never decreases the allocation count, and keeps the
ownership of previously allocated pairs. -/
theorem treeInsert_inv (T cs ls ss : Nat) (S Sc : List (Nat × Nat × Nat))
    (hmem : (cs, ls, ss) ∈ S) (hTls : T < ls)
    (hNC : ∀ c l s, (c, l, s) ∈ S → (c, l, s) ≠ (cs, ls, ss) →
      c % 2 ^ min l ls ≠ cs % 2 ^ min l ls) :
    ∀ (K : Nat) (d : Nat → huffman_table_entry) (N : Nat) (own : Nat → Nat × Nat)
      (depth loc : Nat),
    TreeInv T d N S Sc own →
    depth + K = ls →
    ((depth = T ∧ loc = cs % 2 ^ T) ∨
      (T < depth ∧ ∃ n, n < N ∧ own n = (depth - 1, cs % 2 ^ (depth - 1)) ∧
        loc = 2 ^ T + 2 * n + cs / 2 ^ (depth - 1) % 2)) →
    N ≤ (treeInsert (2 ^ T) d loc (cs / 2 ^ depth) depth ls ss N).2 ∧
    ∃ own2, (∀ n, n < N → own2 n = own n) ∧
      TreeInv T (treeInsert (2 ^ T) d loc (cs / 2 ^ depth) depth ls ss N).1
        (treeInsert (2 ^ T) d loc (cs / 2 ^ depth) depth ls ss N).2
        S ((cs, ls, ss) :: Sc) own2 := by
  intro K
  induction K with
  | zero =>
    intro d N own depth loc inv hdK hnode
    have hdeq : depth = ls := by omega
    subst hdeq
    obtain ⟨hls1, hls15, hcs⟩ := inv.scodes cs depth ss hmem
    have hclass := treeInsert_classify T cs depth ss d N S Sc own depth loc inv hmem hTls
      hNC le_rfl hnode
    rcases hnode with ⟨hdT, _⟩ | ⟨hTd2, n, hn, hown, hloc⟩
    · exfalso
      omega
    have ho1 : (own n).1 = depth - 1 := by rw [hown]
    have ho2 : (own n).2 = cs % 2 ^ (depth - 1) := by rw [hown]
    have hd1 : depth - 1 + 1 = depth := by omega
    have hdivlt : cs / 2 ^ (depth - 1) < 2 := by
      apply div_pow_lt_two
      rw [hd1]
      exact hcs
    have hdivm : cs / 2 ^ (depth - 1) % 2 = cs / 2 ^ (depth - 1) := Nat.mod_eq_of_lt hdivlt
    have hdec : cs % 2 ^ depth = cs % 2 ^ (depth - 1) + cs / 2 ^ (depth - 1) % 2 * 2 ^ (depth - 1) := by
      have h := mod_pow_succ_decomp cs (depth - 1)
      rw [hd1] at h
      exact h
    have hcseq : cs % 2 ^ depth = cs := Nat.mod_eq_of_lt hcs
    rw [treeInsert_base (2 ^ T) d loc (cs / 2 ^ depth) depth depth ss N (lt_irrefl depth)]
    refine ⟨le_refl N, own, fun m _ => rfl, ?_⟩
    show TreeInv T (upde d loc ⟨depth, ss⟩) N S ((cs, depth, ss) :: Sc) own
    obtain ⟨_, hloclt⟩ := nodeAt_bounds T cs N own depth loc
      (Or.inr ⟨hTd2, n, hn, hown, hloc⟩)
    have hlocB : 2 ^ T ≤ loc := by rw [hloc]; omega
    rcases hclass with h0 | ⟨n2, hn2, hdx, hown2⟩ | ⟨_, hdx⟩
    · -- the slot is unassigned: a clean terminal write
      have hst : ∀ x, x ≠ loc → upde d loc ⟨depth, ss⟩ x = d x := fun x hx =>
        upde_ne _ _ _ _ hx
      refine ⟨inv.hT1, inv.hT15, inv.scodes, inv.own_range, ?_, inv.own_inj, ?_, ?_,
        inv.pair_used, ?_, ?_, ?_⟩
      · intro m hm
        rcases inv.own_link m hm with ⟨ha, hb2⟩ | ⟨ha, n', hn', hw1, hw2⟩
        · refine Or.inl ⟨ha, ?_⟩
          rw [hst _ (write_miss d loc _ 15 m h0 hb2 (by omega))]
          exact hb2
        · refine Or.inr ⟨ha, n', hn', hw1, ?_⟩
          rw [hst _ (write_miss d loc _ 15 m h0 hw2 (by omega))]
          exact hw2
      · intro m hm b hb2
        by_cases hx : 2 ^ T + 2 * m + b = loc
        · have hb : cs / 2 ^ (depth - 1) % 2 < 2 := Nat.mod_lt _ (by decide)
          have hmn : m = n := by omega
          have hbv : b = cs / 2 ^ (depth - 1) % 2 := by omega
          subst hmn
          subst hbv
          refine Or.inr (Or.inr ⟨ss, ?_, ?_⟩)
          · rw [ho1, ho2, hd1]
            have hconv : cs % 2 ^ (depth - 1) + cs / 2 ^ (depth - 1) % 2 * 2 ^ (depth - 1)
                = cs := by rw [← hdec, hcseq]
            rw [hconv]
            exact hmem
          · rw [hx, upde_eq, ho1, hd1]
        · rw [hst _ hx]
          exact inv.pair_child m hm b hb2
      · intro idx hidx
        rw [hst _ (by omega)]
        exact inv.table_classify idx hidx
      · intro x hx
        rcases List.mem_cons.mp hx with rfl | hx2
        · exact hmem
        · exact inv.sc_sub x hx2
      · intro c l s hcls hlT
        rcases List.mem_cons.mp hcls with heq | htail
        · exfalso
          injection heq with he1 he2
          injection he2 with he2 he3
          omega
        · intro idx hidx hmodx
          rw [hst _ (by omega)]
          exact inv.complete_short c l s htail hlT idx hidx hmodx
      · intro c l s hcls hTl
        rcases List.mem_cons.mp hcls with heq | htail
        · injection heq with he1 he2
          injection he2 with he2 he3
          rw [he1, he2, he3]
          refine ⟨n, hn, hown, ?_⟩
          rw [← hdivm, ← hloc]
          exact upde_eq d loc ⟨depth, ss⟩
        · obtain ⟨m, hm, hom, hwm⟩ := inv.complete_long c l s htail hTl
          obtain ⟨hl1', _, _⟩ := inv.scodes c l s (inv.sc_sub _ htail)
          refine ⟨m, hm, hom, ?_⟩
          rw [hst _ (write_miss d loc _ l s h0 hwm (by omega))]
          exact hwm
    · -- a pointer cannot own the full code's prefix
      exfalso
      obtain ⟨c, l, s, hclsS, hlt, hmod⟩ := inv.pair_used n2 hn2
      have h1 : (own n2).1 = depth := by rw [hown2]
      have h2 : (own n2).2 = cs % 2 ^ depth := by rw [hown2]
      rw [h1] at hlt
      rw [h1, h2] at hmod
      have hne := hNC c l s hclsS (by
        intro he
        injection he with he1 he2
        injection he2 with he2 he3
        omega)
      have hminl : min l depth = depth := by omega
      rw [hminl] at hne
      exact hne hmod
    · -- the terminal is already present: the write is the identity
      rw [upde_id d loc ⟨depth, ss⟩ hdx]
      refine ⟨inv.hT1, inv.hT15, inv.scodes, inv.own_range, inv.own_link, inv.own_inj,
        inv.pair_child, inv.table_classify, inv.pair_used, ?_, ?_, ?_⟩
      · intro x hx
        rcases List.mem_cons.mp hx with rfl | hx2
        · exact hmem
        · exact inv.sc_sub x hx2
      · intro c l s hcls hlT
        rcases List.mem_cons.mp hcls with heq | htail
        · exfalso
          injection heq with he1 he2
          injection he2 with he2 he3
          omega
        · exact inv.complete_short c l s htail hlT
      · intro c l s hcls hTl
        rcases List.mem_cons.mp hcls with heq | htail
        · injection heq with he1 he2
          injection he2 with he2 he3
          rw [he1, he2, he3]
          refine ⟨n, hn, hown, ?_⟩
          rw [← hdivm, ← hloc]
          exact hdx
        · exact inv.complete_long c l s htail hTl
  | succ K ih =>
    intro d N own depth loc inv hdK hnode
    obtain ⟨hls1, hls15, hcs⟩ := inv.scodes cs ls ss hmem
    have hdls : depth < ls := by omega
    obtain ⟨hTd, hloclt⟩ := nodeAt_bounds T cs N own depth loc hnode
    have hclass := treeInsert_classify T cs ls ss d N S Sc own depth loc inv hmem hTls hNC
      (by omega) hnode
    have hdd : cs / 2 ^ depth / 2 = cs / 2 ^ (depth + 1) := by
      rw [Nat.div_div_eq_div_mul, ← Nat.pow_succ]
    rcases hclass with h0 | ⟨n2, hn2, hdx, hown2⟩ | ⟨hdeq, _⟩
    · -- allocate a fresh pair and descend
      rw [treeInsert_alloc (2 ^ T) d loc (cs / 2 ^ depth) depth ls ss N hdls h0, hdd]
      set d3 := zeroCL (zeroCL (upde d loc ⟨15, N⟩) (2 ^ T + 2 * N)) (2 ^ T + 2 * N + 1)
        with hd3def
      have hd3loc : d3 loc = ⟨15, N⟩ := by
        rw [hd3def, zeroCL_ne _ _ _ (by omega), zeroCL_ne _ _ _ (by omega), upde_eq]
      have hd3f0 : (d3 (2 ^ T + 2 * N)).code_length = 0 := by
        rw [hd3def, zeroCL_ne _ _ _ (by omega)]
        exact zeroCL_cl _ _
      have hd3f1 : (d3 (2 ^ T + 2 * N + 1)).code_length = 0 := by
        rw [hd3def]
        exact zeroCL_cl _ _
      have hd3a : ∀ x, x ≠ loc → x < 2 ^ T + 2 * N → d3 x = d x := by
        intro x hx hxl
        rw [hd3def, zeroCL_ne _ _ _ (by omega), zeroCL_ne _ _ _ (by omega),
          upde_ne _ _ _ _ hx]
      obtain ⟨own1, hown1N, hown1lt⟩ :
          ∃ own1 : Nat → Nat × Nat, own1 N = (depth, cs % 2 ^ depth) ∧
            ∀ m, m ≠ N → own1 m = own m :=
        ⟨fun m => if m = N then (depth, cs % 2 ^ depth) else own m, by simp,
          fun m hm => by simp [hm]⟩
      have h1N : (own1 N).1 = depth := by rw [hown1N]
      have h2N : (own1 N).2 = cs % 2 ^ depth := by rw [hown1N]
      have hdup : ∀ m, m < N → own m = (depth, cs % 2 ^ depth) → False := by
        intro m hm hem
        rcases inv.own_link m hm with ⟨ha, hb2⟩ | ⟨ha, n', hn', hw1, hw2⟩
        · have haT : depth = T := by rw [hem] at ha; exact ha
          have hb2' : d (cs % 2 ^ depth) = ⟨15, m⟩ := by rw [hem] at hb2; exact hb2
          rcases hnode with ⟨hdT, hloc⟩ | ⟨hTd2, _⟩
          · rw [hdT] at hb2'
            rw [← hloc] at hb2'
            rw [hb2'] at h0
            have h15 : (15 : Nat) = 0 := h0
            omega
          · omega
        · have haT : T < depth := by rw [hem] at ha; exact ha
          have hd1 : depth - 1 + 1 = depth := by omega
          have hw1' : own n' = (depth - 1, cs % 2 ^ depth % 2 ^ (depth - 1)) := by
            rw [hem] at hw1; exact hw1
          rw [mod_mod_pow cs depth (depth - 1) (by omega)] at hw1'
          have hw2' : d (2 ^ T + 2 * n' + cs % 2 ^ depth / 2 ^ (depth - 1)) = ⟨15, m⟩ := by
            rw [hem] at hw2; exact hw2
          have hidx : cs % 2 ^ depth / 2 ^ (depth - 1) = cs / 2 ^ (depth - 1) % 2 := by
            have h := div_mod_pow_succ cs (depth - 1)
            rw [hd1] at h
            exact h
          rw [hidx] at hw2'
          rcases hnode with ⟨hdT, _⟩ | ⟨hTd2, n'', hn'', hownn, hloc⟩
          · omega
          · have hnn : n' = n'' := inv.own_inj n' hn' n'' hn'' (by rw [hw1', hownn])
            rw [hnn, ← hloc] at hw2'
            rw [hw2'] at h0
            have h15 : (15 : Nat) = 0 := h0
            omega
      have hinv1 : TreeInv T d3 (N + 1) S Sc own1 := by
        refine ⟨inv.hT1, inv.hT15, inv.scodes, ?_, ?_, ?_, ?_, ?_, ?_, inv.sc_sub,
          ?_, ?_⟩
        · intro m hm
          by_cases hmN : m = N
          · subst hmN
            rw [h1N, h2N]
            exact ⟨hTd, by omega, Nat.mod_lt _ (Nat.pos_pow_of_pos _ (by decide))⟩
          · rw [hown1lt m hmN]
            exact inv.own_range m (by omega)
        · intro m hm
          by_cases hmN : m = N
          · subst hmN
            rcases hnode with ⟨hdT, hloc⟩ | ⟨hTd2, p, hp, hownp, hloc⟩
            · refine Or.inl ⟨by rw [h1N, hdT], ?_⟩
              rw [h2N, hdT, ← hloc]
              exact hd3loc
            · refine Or.inr ⟨by rw [h1N]; omega, p, by omega, ?_, ?_⟩
              · rw [hown1lt p (by omega), h1N, h2N,
                  mod_mod_pow cs depth (depth - 1) (by omega)]
                exact hownp
              · rw [h1N, h2N]
                have hidx : cs % 2 ^ depth / 2 ^ (depth - 1) = cs / 2 ^ (depth - 1) % 2 := by
                  have h := div_mod_pow_succ cs (depth - 1)
                  have hd1 : depth - 1 + 1 = depth := by omega
                  rw [hd1] at h
                  exact h
                rw [hidx, ← hloc]
                exact hd3loc
          · have hmN' : m < N := by omega
            rw [hown1lt m hmN]
            rcases inv.own_link m hmN' with ⟨ha, hb2⟩ | ⟨ha, n', hn', hw1, hw2⟩
            · refine Or.inl ⟨ha, ?_⟩
              obtain ⟨hr1, hr2, hr3⟩ := inv.own_range m hmN'
              rw [ha] at hr3
              rw [hd3a _ (write_miss d loc _ 15 m h0 hb2 (by omega)) (by omega)]
              exact hb2
            · refine Or.inr ⟨ha, n', by omega, by rw [hown1lt n' (by omega)]; exact hw1, ?_⟩
              obtain ⟨hq1, hq2, hq3⟩ := inv.own_range m hmN'
              have hT1' : 1 ≤ T := inv.hT1
              have hbit : (own m).2 / 2 ^ ((own m).1 - 1) < 2 := by
                apply div_pow_lt_two
                have hd1 : (own m).1 - 1 + 1 = (own m).1 := by omega
                rw [hd1]
                exact hq3
              rw [hd3a _ (write_miss d loc _ 15 m h0 hw2 (by omega)) (by omega)]
              exact hw2
        · intro p hp q hq heq
          by_cases hpN : p = N
          · by_cases hqN : q = N
            · rw [hpN, hqN]
            · subst hpN
              rw [hown1N, hown1lt q hqN] at heq
              exact (hdup q (by omega) heq.symm).elim
          · by_cases hqN : q = N
            · subst hqN
              rw [hown1N, hown1lt p hpN] at heq
              exact (hdup p (by omega) heq).elim
            · rw [hown1lt p hpN, hown1lt q hqN] at heq
              exact inv.own_inj p (by omega) q (by omega) heq
        · intro m hm b hb2
          by_cases hmN : m = N
          · subst hmN
            interval_cases b
            · exact Or.inl hd3f0
            · exact Or.inl hd3f1
          · have hmN' : m < N := by omega
            by_cases hx : 2 ^ T + 2 * m + b = loc
            · rcases hnode with ⟨hdT, hloc⟩ | ⟨hTd2, p, hp, hownp, hloc⟩
              · exfalso
                have hmc : cs % 2 ^ T < 2 ^ T := Nat.mod_lt _ (Nat.pos_pow_of_pos T (by decide))
                omega
              · have hb : cs / 2 ^ (depth - 1) % 2 < 2 := Nat.mod_lt _ (by decide)
                have hmp : m = p := by omega
                have hbv : b = cs / 2 ^ (depth - 1) % 2 := by omega
                subst hmp
                subst hbv
                have hop1 : (own m).1 = depth - 1 := by rw [hownp]
                have hop2 : (own m).2 = cs % 2 ^ (depth - 1) := by rw [hownp]
                refine Or.inr (Or.inl ⟨N, by omega, ?_, ?_⟩)
                · rw [hx]
                  exact hd3loc
                · rw [hown1N, hown1lt m (by omega), hop1, hop2]
                  have hd1 : depth - 1 + 1 = depth := by omega
                  have hdec := mod_pow_succ_decomp cs (depth - 1)
                  rw [hd1] at hdec
                  rw [hd1, ← hdec]
            · rw [hd3a _ hx (by omega)]
              rw [hown1lt m hmN]
              rcases inv.pair_child m hmN' b hb2 with hc | ⟨p, hp2, hv, ho⟩ | ⟨s, hsm, hv⟩
              · exact Or.inl hc
              · exact Or.inr (Or.inl ⟨p, by omega, hv, by
                  rw [hown1lt p (by omega)]; exact ho⟩)
              · exact Or.inr (Or.inr ⟨s, hsm, hv⟩)
        · intro idx hidx
          by_cases hx : idx = loc
          · rcases hnode with ⟨hdT, hloc⟩ | ⟨hTd2, p, hp, hownp, hloc⟩
            · refine Or.inr (Or.inr ⟨N, by omega, ?_, ?_⟩)
              · rw [hx]
                exact hd3loc
              · rw [hown1N, hdT, ← hloc, ← hx]
            · exfalso
              omega
          · rw [hd3a idx hx (by omega)]
            rcases inv.table_classify idx hidx with hc | ⟨c, l, s, hm2, h1l, hlT2, hxl, hdix⟩ |
              ⟨p, hp2, hdix, hop⟩
            · exact Or.inl hc
            · exact Or.inr (Or.inl ⟨c, l, s, hm2, h1l, hlT2, hxl, hdix⟩)
            · exact Or.inr (Or.inr ⟨p, by omega, hdix, by
                rw [hown1lt p (by omega)]; exact hop⟩)
        · intro m hm
          by_cases hmN : m = N
          · subst hmN
            refine ⟨cs, ls, ss, hmem, ?_, ?_⟩
            · rw [h1N]
              omega
            · rw [h1N, h2N]
          · rw [hown1lt m hmN]
            exact inv.pair_used m (by omega)
        · intro c l s hcls hlT idx hidx hmodx
          obtain ⟨h1l, _, _⟩ := inv.scodes c l s (inv.sc_sub _ hcls)
          have hw := inv.complete_short c l s hcls hlT idx hidx hmodx
          rw [hd3a idx (write_miss d loc idx l s h0 hw (by omega)) (by omega)]
          exact hw
        · intro c l s hcls hTl
          obtain ⟨h1l, _, hcl2⟩ := inv.scodes c l s (inv.sc_sub _ hcls)
          obtain ⟨m, hm, hom, hwm⟩ := inv.complete_long c l s hcls hTl
          have hbit : c / 2 ^ (l - 1) < 2 := by
            apply div_pow_lt_two
            have hd1 : l - 1 + 1 = l := by omega
            rw [hd1]
            exact hcl2
          refine ⟨m, by omega, by rw [hown1lt m (by omega)]; exact hom, ?_⟩
          rw [hd3a _ (write_miss d loc _ l s h0 hwm (by omega)) (by omega)]
          exact hwm
      obtain ⟨hle, own2, hagree, hinv2⟩ := ih d3 (N + 1) own1 (depth + 1)
        (2 ^ T + 2 * N + cs / 2 ^ depth % 2) hinv1 (by omega)
        (Or.inr ⟨by omega, N, by omega, hown1N, rfl⟩)
      refine ⟨by omega, own2, ?_, hinv2⟩
      intro m hm
      rw [hagree m (by omega), hown1lt m (by omega)]
    · -- follow an existing pointer
      have hsym : (d loc).symbol = n2 := by rw [hdx]
      have hncl : ¬(d loc).code_length = 0 := by
        rw [hdx, hte_cl]
        omega
      rw [treeInsert_follow (2 ^ T) d loc (cs / 2 ^ depth) depth ls ss N hdls hncl,
        hsym, hdd]
      exact ih d N own (depth + 1) (2 ^ T + 2 * n2 + cs / 2 ^ depth % 2) inv (by omega)
        (Or.inr ⟨by omega, n2, hn2, hown2, rfl⟩)
    · exfalso
      omega

theorem div_mod_pow_general (a k m : Nat) : a % 2 ^ (k + m) / 2 ^ k = a / 2 ^ k % 2 ^ m := by
  rw [pow_add]
  exact Nat.mod_mul_right_div_self a (2 ^ k) (2 ^ m)

/-- Two numbers agreeing on their low `ls` bits agree on every bit below
`ls`. -/
theorem bit_match (input cs ls k : Nat) (hmatch : input % 2 ^ ls = cs) (hk : k < ls) :
    input / 2 ^ k % 2 = cs / 2 ^ k % 2 := by
  obtain ⟨m, rfl⟩ : ∃ m, ls = k + m := ⟨ls - k, by omega⟩
  rw [← hmatch, div_mod_pow_general,
    Nat.mod_mod_of_dvd _ (dvd_pow_self 2 (by omega : m ≠ 0))]

theorem count_take_succ_ne (v : List Nat) (k a : Nat) (hk : k < v.length)
    (hne : v.getD k 0 ≠ a) :
    (v.take (k + 1)).count a = (v.take k).count a := by
  rw [List.take_succ, List.count_append]
  have hopt : v[k]? = some (v.getD k 0) := by
    rw [List.getElem?_eq_getElem hk, List.getD_eq_getElem v 0 hk]
  rw [hopt]
  have h1 : ((some (v.getD k 0)).toList).count a = 0 := by
    simp only [Option.toList_some, List.count_cons, List.count_nil, beq_iff_eq]
    rw [if_neg (by omega)]
  rw [h1]
  omega

/-- The full canonical (already bit-reversed) code assignment of a
code-length vector: one `(code, length, symbol)` triple per symbol with a
nonzero code length (specification side, RFC 1951 §3.2.2). -/
def canonCodes (v : List Nat) : List (Nat × Nat × Nat) :=
  (List.range v.length).filterMap fun i =>
    if v.getD i 0 ≠ 0 then some (bitRev (v.getD i 0) (codeN v i), v.getD i 0, i) else none

theorem canonCodes_mem (v : List Nat) (c l s : Nat) :
    (c, l, s) ∈ canonCodes v ↔
      s < v.length ∧ l = v.getD s 0 ∧ l ≠ 0 ∧ c = bitRev l (codeN v s) := by
  simp only [canonCodes, List.mem_filterMap, List.mem_range]
  constructor
  · rintro ⟨i, hi, hif⟩
    by_cases h : v.getD i 0 ≠ 0
    · rw [if_pos h] at hif
      injection hif with h1
      injection h1 with ha hbc
      injection hbc with hb hc
      refine ⟨by omega, ?_, ?_, ?_⟩
      · rw [← hb, ← hc]
      · rw [← hb]
        exact h
      · rw [← ha, ← hb, ← hc]
    · rw [if_neg h] at hif
      exact Option.noConfusion hif
  · rintro ⟨hs, hl, hl0, hc⟩
    refine ⟨s, hs, ?_⟩
    rw [if_pos (by rw [← hl]; exact hl0)]
    rw [← hl, ← hc]

theorem canonCodes_scodes (v : List Nat) (hv15 : ∀ x ∈ v, x ≤ 15) :
    ∀ c l s, (c, l, s) ∈ canonCodes v → 1 ≤ l ∧ l ≤ 15 ∧ c < 2 ^ l := by
  intro c l s h
  obtain ⟨hs, hl, hl0, hc⟩ := (canonCodes_mem v c l s).mp h
  refine ⟨by omega, ?_, ?_⟩
  · rw [hl, List.getD_eq_getElem v 0 hs]
    exact hv15 _ (List.getElem_mem hs)
  · rw [hc]
    exact bitRev_lt l (codeN v s)

/-- Any two distinct canonical codes of an accepted length vector are
conflict-free in their LSB-first forms. -/
theorem canonCodes_NC (v : List Nat) (hv15 : ∀ x ∈ v, x ≤ 15)
    (hacc : ∀ l, 1 ≤ l → l ≤ 15 →
      nextCodeF (fun x => v.count x) l + v.count l ≤ 2 ^ l)
    (cs ls ss : Nat) (hm : (cs, ls, ss) ∈ canonCodes v) :
    ∀ c l s, (c, l, s) ∈ canonCodes v → (c, l, s) ≠ (cs, ls, ss) →
      c % 2 ^ min l ls ≠ cs % 2 ^ min l ls := by
  intro c l s hcls hne
  obtain ⟨hs, hl, hl0, hc⟩ := (canonCodes_mem v c l s).mp hcls
  obtain ⟨hss, hls, hls0, hcs'⟩ := (canonCodes_mem v cs ls ss).mp hm
  have h15s : v.getD s 0 ≤ 15 := by
    rw [List.getD_eq_getElem v 0 hs]
    exact hv15 _ (List.getElem_mem hs)
  have h15ss : v.getD ss 0 ≤ 15 := by
    rw [List.getD_eq_getElem v 0 hss]
    exact hv15 _ (List.getElem_mem hss)
  have hsne : s ≠ ss := by
    intro he
    apply hne
    have hle : l = ls := by rw [hl, hls, he]
    have hce : c = cs := by rw [hc, hcs', hle, he]
    rw [hce, hle, he]
  rw [hc, hcs', hl, hls]
  exact revCode_conflict_free v s ss hs hss hsne (by omega) (by omega)
    h15s h15ss hacc

theorem assignSymbols_skip (tb : Nat) (d : Nat → huffman_table_entry) (ncs : Nat → Nat)
    (rest : List Nat) (i N : Nat) :
    assignSymbols tb d ncs (0 :: rest) i N = assignSymbols tb d ncs rest (i + 1) N := by
  simp only [assignSymbols]
  rw [if_neg (by omega)]

theorem assignSymbols_short (tb : Nat) (d : Nat → huffman_table_entry) (ncs : Nat → Nat)
    (len : Nat) (rest : List Nat) (i N : Nat) (h0 : len ≠ 0) (hle : len ≤ tb) :
    assignSymbols tb d ncs (len :: rest) i N
      = assignSymbols tb (fillTable d (reverse_bits (ncs len) len) len i (2 ^ tb - 1))
          (fun j => if j = len then ncs len + 1 else ncs j) rest (i + 1) N := by
  simp only [assignSymbols]
  rw [if_pos h0, if_pos hle]

theorem assignSymbols_long (tb : Nat) (d : Nat → huffman_table_entry) (ncs : Nat → Nat)
    (len : Nat) (rest : List Nat) (i N : Nat) (h0 : len ≠ 0) (hgt : ¬len ≤ tb) :
    assignSymbols tb d ncs (len :: rest) i N
      = assignSymbols tb
          (treeInsert (2 ^ tb) d (reverse_bits (ncs len) len % 2 ^ tb)
            (reverse_bits (ncs len) len / 2 ^ tb) tb len i N).1
          (fun j => if j = len then ncs len + 1 else ncs j) rest (i + 1)
          (treeInsert (2 ^ tb) d (reverse_bits (ncs len) len % 2 ^ tb)
            (reverse_bits (ncs len) len / 2 ^ tb) tb len i N).2 := by
  simp only [assignSymbols]
  rw [if_pos h0, if_neg hgt]

/-- The freshly zeroed table satisfies the tree invariant with no pairs and
no completed codes. -/
theorem TreeInv_init (T : Nat) (v : List Nat) (d0 : Nat → huffman_table_entry)
    (hT1 : 1 ≤ T) (hT15 : T < 15)
    (hv15 : ∀ x ∈ v, x ≤ 15)
    (hd0 : ∀ x, x < 2 ^ T → (d0 x).code_length = 0) :
    TreeInv T d0 0 (canonCodes v) [] (fun _ => (0, 0)) := by
  refine ⟨hT1, hT15, canonCodes_scodes v hv15, ?_, ?_, ?_, ?_, ?_, ?_, ?_, ?_, ?_⟩
  · intro n hn
    exact absurd hn (Nat.not_lt_zero n)
  · intro n hn
    exact absurd hn (Nat.not_lt_zero n)
  · intro n1 h1 n2 h2 _
    exact absurd h1 (Nat.not_lt_zero n1)
  · intro n hn
    exact absurd hn (Nat.not_lt_zero n)
  · intro idx hidx
    exact Or.inl (hd0 idx hidx)
  · intro n hn
    exact absurd hn (Nat.not_lt_zero n)
  · intro x hx
    exact absurd hx (List.not_mem_nil x)
  · intro c l s h
    exact absurd h (List.not_mem_nil _)
  · intro c l s h
    exact absurd h (List.not_mem_nil _)

/-- STEP 3 of `huffman_tree_reset` maintains the tree invariant and, upon
consuming the whole length vector, completes exactly the canonical codes. -/
theorem assignSymbols_inv (T : Nat) (v : List Nat)
    (hv15 : ∀ x ∈ v, x ≤ 15)
    (hacc : ∀ l, 1 ≤ l → l ≤ 15 →
      nextCodeF (fun x => v.count x) l + v.count l ≤ 2 ^ l) :
    ∀ (rest : List Nat) (i : Nat) (d : Nat → huffman_table_entry) (N : Nat)
      (ncs : Nat → Nat) (Sc : List (Nat × Nat × Nat)) (own : Nat → Nat × Nat),
    v.drop i = rest →
    (∀ l, 1 ≤ l → l ≤ 15 →
      ncs l = nextCodeF (fun x => v.count x) l + (v.take i).count l) →
    (∀ c l s, (c, l, s) ∈ Sc ↔ ((c, l, s) ∈ canonCodes v ∧ s < i)) →
    TreeInv T d N (canonCodes v) Sc own →
    ∃ Sc2 own2,
      (∀ c l s, (c, l, s) ∈ Sc2 ↔ ((c, l, s) ∈ canonCodes v ∧ s < i + rest.length)) ∧
      TreeInv T (assignSymbols T d ncs rest i N).1 (assignSymbols T d ncs rest i N).2
        (canonCodes v) Sc2 own2 := by
  intro rest
  induction rest with
  | nil =>
    intro i d N ncs Sc own hdrop hncs hSc inv
    exact ⟨Sc, own, hSc, inv⟩
  | cons len rest2 ih =>
    intro i d N ncs Sc own hdrop hncs hSc inv
    have hiv : i < v.length := by
      by_contra hcon
      push_neg at hcon
      rw [List.drop_eq_nil_of_le hcon] at hdrop
      exact List.noConfusion hdrop
    have hgetd : v.getD i 0 = len := by
      have h := List.drop_eq_getElem_cons hiv
      rw [hdrop] at h
      injection h with h1 h2
      rw [List.getD_eq_getElem v 0 hiv]
      exact h1.symm
    have hdrop2 : v.drop (i + 1) = rest2 := by
      have h := List.drop_eq_getElem_cons hiv
      rw [hdrop] at h
      injection h with h1 h2
      exact h2.symm
    by_cases hlen0 : len ≠ 0
    · -- a real code is assigned to symbol i
      have hlen1 : 1 ≤ len := by omega
      have hlen15 : len ≤ 15 := hv15 len (List.drop_subset i v
        (by rw [hdrop]; exact List.mem_cons_self len rest2))
      have hcode_val : ncs len = codeN v i := by
        rw [hncs len hlen1 hlen15, codeN, hgetd]
      have hcodeN_lt : codeN v i < 2 ^ len := by
        have h := codeN_lt v i hiv (by rw [hgetd]; exact hlen15)
          (by rw [hgetd]; omega) hacc
        rw [hgetd] at h
        exact h
      have hrb : reverse_bits (ncs len) len = bitRev len (codeN v i) := by
        rw [hcode_val, reverse_bits_eq, Nat.mod_eq_of_lt hcodeN_lt]
      have hmem : (bitRev len (codeN v i), len, i) ∈ canonCodes v :=
        (canonCodes_mem v _ _ _).mpr ⟨hiv, hgetd.symm, hlen0, rfl⟩
      have hncs' : ∀ l, 1 ≤ l → l ≤ 15 →
          (fun j => if j = len then ncs len + 1 else ncs j) l
            = nextCodeF (fun x => v.count x) l + (v.take (i + 1)).count l := by
        intro l h1 h2
        show (if l = len then ncs len + 1 else ncs l)
          = nextCodeF (fun x => v.count x) l + (v.take (i + 1)).count l
        by_cases hl : l = len
        · rw [if_pos hl, hncs len hlen1 hlen15, hl]
          have hcnt := count_take_succ v i hiv
          rw [hgetd] at hcnt
          rw [hcnt]
          omega
        · rw [if_neg hl, hncs l h1 h2,
            count_take_succ_ne v i l hiv (by rw [hgetd]; omega)]
      have hSc' : ∀ c l s, ((c, l, s) ∈ ((bitRev len (codeN v i), len, i) :: Sc)) ↔
          ((c, l, s) ∈ canonCodes v ∧ s < i + 1) := by
        intro c l s
        rw [List.mem_cons, hSc c l s]
        constructor
        · intro h
          rcases h with heq | ⟨hm, hs⟩
          · injection heq with he1 he2
            injection he2 with he2 he3
            rw [he1, he2, he3]
            exact ⟨hmem, by omega⟩
          · exact ⟨hm, by omega⟩
        · rintro ⟨hm, hs⟩
          rcases Nat.lt_succ_iff_lt_or_eq.mp hs with h | h
          · exact Or.inr ⟨hm, h⟩
          · left
            obtain ⟨hs', hl, hl0, hc⟩ := (canonCodes_mem v c l s).mp hm
            rw [hc, hl, h, hgetd]
      by_cases hleT : len ≤ T
      · rw [assignSymbols_short T d ncs len rest2 i N hlen0 hleT, hrb]
        obtain ⟨Sc2, own3, hSc2, hinv3⟩ := ih (i + 1) _ N _ _ own hdrop2 hncs' hSc'
          (fillTable_inv T d N (canonCodes v) Sc own _ len i inv hmem hleT
            (canonCodes_NC v hv15 hacc _ _ _ hmem))
        refine ⟨Sc2, own3, ?_, hinv3⟩
        intro c l s
        rw [hSc2 c l s, List.length_cons]
        constructor
        · rintro ⟨hm, hs⟩
          exact ⟨hm, by omega⟩
        · rintro ⟨hm, hs⟩
          exact ⟨hm, by omega⟩
      · rw [assignSymbols_long T d ncs len rest2 i N hlen0 hleT, hrb]
        obtain ⟨hNle, own2, hagree, hinv2⟩ := treeInsert_inv T (bitRev len (codeN v i))
          len i (canonCodes v) Sc hmem (by omega)
          (canonCodes_NC v hv15 hacc _ _ _ hmem) (len - T) d N own T
          (bitRev len (codeN v i) % 2 ^ T) inv (by omega) (Or.inl ⟨rfl, rfl⟩)
        obtain ⟨Sc2, own3, hSc2, hinv3⟩ := ih (i + 1) _ _ _ _ own2 hdrop2 hncs' hSc'
          hinv2
        refine ⟨Sc2, own3, ?_, hinv3⟩
        intro c l s
        rw [hSc2 c l s, List.length_cons]
        constructor
        · rintro ⟨hm, hs⟩
          exact ⟨hm, by omega⟩
        · rintro ⟨hm, hs⟩
          exact ⟨hm, by omega⟩
    · -- length zero: the symbol gets no code
      have hl0' : len = 0 := by omega
      subst hl0'
      rw [assignSymbols_skip T d ncs rest2 i N]
      have hncs1 : ∀ l, 1 ≤ l → l ≤ 15 →
          ncs l = nextCodeF (fun x => v.count x) l + (v.take (i + 1)).count l := by
        intro l h1 h2
        rw [hncs l h1 h2, count_take_succ_ne v i l hiv (by rw [hgetd]; omega)]
      have hSc1 : ∀ c l s, (c, l, s) ∈ Sc ↔ ((c, l, s) ∈ canonCodes v ∧ s < i + 1) := by
        intro c l s
        rw [hSc c l s]
        constructor
        · rintro ⟨hm, hs⟩
          exact ⟨hm, by omega⟩
        · rintro ⟨hm, hs⟩
          refine ⟨hm, ?_⟩
          rcases Nat.lt_succ_iff_lt_or_eq.mp hs with h | h
          · exact h
          · exfalso
            obtain ⟨_, hl, hl0, _⟩ := (canonCodes_mem v c l s).mp hm
            rw [h, hgetd] at hl
            exact hl0 hl
      obtain ⟨Sc2, own3, hSc2, hinv3⟩ := ih (i + 1) d N ncs Sc own hdrop2 hncs1 hSc1 inv
      refine ⟨Sc2, own3, ?_, hinv3⟩
      intro c l s
      rw [hSc2 c l s, List.length_cons]
      constructor
      · rintro ⟨hm, hs⟩
        exact ⟨hm, by omega⟩
      · rintro ⟨hm, hs⟩
        exact ⟨hm, by omega⟩

/-- From any pair owning a prefix of `cs`, the pointer chain back to the
lookup table exists: `f k` is the pair at depth `T + k`. -/
theorem tree_chain (T : Nat) (d : Nat → huffman_table_entry) (N : Nat)
    (S Sc : List (Nat × Nat × Nat)) (own : Nat → Nat × Nat)
    (inv : TreeInv T d N S Sc own) (cs : Nat) :
    ∀ (j n : Nat), n < N → own n = (T + j, cs % 2 ^ (T + j)) →
    ∃ f : Nat → Nat,
      f j = n ∧ (∀ k, k ≤ j → f k < N ∧ own (f k) = (T + k, cs % 2 ^ (T + k))) ∧
      d (cs % 2 ^ T) = ⟨15, f 0⟩ ∧
      (∀ k, k < j → d (2 ^ T + 2 * f k + cs / 2 ^ (T + k) % 2) = ⟨15, f (k + 1)⟩) := by
  intro j
  induction j with
  | zero =>
    intro n hn hown
    have h2 : (own n).2 = cs % 2 ^ T := by
      rw [hown]
      simp
    refine ⟨fun _ => n, rfl, ?_, ?_, ?_⟩
    · intro k hk
      have hk0 : k = 0 := by omega
      rw [hk0]
      exact ⟨hn, hown⟩
    · rcases inv.own_link n hn with ⟨ha, hb⟩ | ⟨ha, _⟩
      · rw [← h2]
        exact hb
      · rw [hown] at ha
        have ha' : T < T + 0 := ha
        omega
    · intro k hk
      exact absurd hk (Nat.not_lt_zero k)
  | succ j ihj =>
    intro n hn hown
    rcases inv.own_link n hn with ⟨ha, _⟩ | ⟨ha, n', hn', hw1, hw2⟩
    · rw [hown] at ha
      have ha' : T + (j + 1) = T := ha
      omega
    · have h1 : (own n).1 = T + (j + 1) := by rw [hown]
      have h2 : (own n).2 = cs % 2 ^ (T + (j + 1)) := by rw [hown]
      rw [h1, h2] at hw1
      rw [h1, h2] at hw2
      have hd1 : T + (j + 1) - 1 = T + j := by omega
      rw [hd1] at hw1
      rw [hd1] at hw2
      rw [mod_mod_pow cs (T + (j + 1)) (T + j) (by omega)] at hw1
      have hidx : cs % 2 ^ (T + (j + 1)) / 2 ^ (T + j) = cs / 2 ^ (T + j) % 2 :=
        div_mod_pow_succ cs (T + j)
      rw [hidx] at hw2
      obtain ⟨f, hfj, hfall, hftab, hflink⟩ := ihj n' hn' hw1
      obtain ⟨g, hg1, hg2⟩ : ∃ g : Nat → Nat, g (j + 1) = n ∧ ∀ k, k ≠ j + 1 → g k = f k :=
        ⟨fun k => if k = j + 1 then n else f k, by simp, fun k hk => by simp [hk]⟩
      refine ⟨g, hg1, ?_, ?_, ?_⟩
      · intro k hk
        by_cases hkj : k = j + 1
        · constructor
          · rw [hkj, hg1]
            exact hn
          · rw [hkj, hg1]
            exact hown
        · rw [hg2 k hkj]
          exact hfall k (by omega)
      · rw [hg2 0 (by omega)]
        exact hftab
      · intro k hk
        by_cases hkj : k = j
        · rw [hkj, hg2 j (by omega), hfj, hg1]
          exact hw2
        · rw [hg2 k (by omega), hg2 (k + 1) (by omega)]
          exact hflink k (by omega)

theorem walkLookup_stop (d : Nat → huffman_table_entry) (B : Nat)
    (e : huffman_table_entry) (bitsRead rem bits : Nat) (h1 : ¬bitsRead ≥ bits)
    (h2 : ¬(d (B + 2 * e.symbol + rem % 2)).code_length > bitsRead + 1) :
    walkLookup d B e bitsRead rem bits = some (d (B + 2 * e.symbol + rem % 2)) := by
  rw [walkLookup, if_neg h1, if_neg h2]

theorem walkLookup_step (d : Nat → huffman_table_entry) (B : Nat)
    (e : huffman_table_entry) (bitsRead rem bits : Nat) (h1 : ¬bitsRead ≥ bits)
    (h2 : (d (B + 2 * e.symbol + rem % 2)).code_length > bitsRead + 1) :
    walkLookup d B e bitsRead rem bits
      = walkLookup d B (d (B + 2 * e.symbol + rem % 2)) (bitsRead + 1) (rem / 2) bits := by
  rw [walkLookup, if_neg h1, if_pos h2]

/-- The lookup walk follows the pointer chain of a completed long code down
to its terminal entry. -/
theorem walkLookup_run (d : Nat → huffman_table_entry) (T ls ss input bits cs : Nat)
    (f : Nat → Nat)
    (hTls : T < ls) (hls15 : ls ≤ 15) (hbitsge : ls ≤ bits)
    (hmatch : input % 2 ^ ls = cs)
    (hlink : ∀ k, k < ls - 1 - T →
      d (2 ^ T + 2 * f k + cs / 2 ^ (T + k) % 2) = ⟨15, f (k + 1)⟩)
    (hterm : d (2 ^ T + 2 * f (ls - 1 - T) + cs / 2 ^ (ls - 1) % 2) = ⟨ls, ss⟩) :
    ∀ (j k : Nat), k + j = ls - 1 - T →
    walkLookup d (2 ^ T) ⟨15, f k⟩ (T + k) (input / 2 ^ (T + k)) bits
      = some ⟨ls, ss⟩ := by
  intro j
  induction j with
  | zero =>
    intro k hk
    have hkeq : k = ls - 1 - T := by omega
    have hbit : input / 2 ^ (T + k) % 2 = cs / 2 ^ (T + k) % 2 :=
      bit_match input cs ls (T + k) hmatch (by omega)
    have hterm' : d (2 ^ T + 2 * f k + cs / 2 ^ (T + k) % 2) = ⟨ls, ss⟩ := by
      have hdep2 : T + k = ls - 1 := by omega
      rw [hdep2, hkeq]
      exact hterm
    rw [walkLookup_stop d (2 ^ T) ⟨15, f k⟩ (T + k) (input / 2 ^ (T + k)) bits
      (by omega) (by rw [hte_sym, hbit, hterm', hte_cl]; omega)]
    rw [hte_sym, hbit, hterm']
  | succ j ihj =>
    intro k hk
    have hbit : input / 2 ^ (T + k) % 2 = cs / 2 ^ (T + k) % 2 :=
      bit_match input cs ls (T + k) hmatch (by omega)
    have hlk := hlink k (by omega)
    rw [walkLookup_step d (2 ^ T) ⟨15, f k⟩ (T + k) (input / 2 ^ (T + k)) bits
      (by omega) (by rw [hte_sym, hbit, hlk, hte_cl]; omega)]
    rw [hte_sym, hbit, hlk]
    have hdd : input / 2 ^ (T + k) / 2 = input / 2 ^ (T + k + 1) := by
      rw [Nat.div_div_eq_div_mul, ← Nat.pow_succ]
    rw [hdd]
    exact ihj (k + 1) (by omega)

/-- `huffman_tree_lookup` finds every completed code once enough bits are
available, consuming exactly its length. -/
theorem huffman_tree_lookup_found (t : huffman_tree) (bs : bitstream)
    (N : Nat) (S Sc : List (Nat × Nat × Nat)) (own : Nat → Nat × Nat)
    (inv : TreeInv t.table_bits t.data N S Sc own)
    (cs ls ss : Nat) (hm : (cs, ls, ss) ∈ Sc)
    (havail : ls ≤ (bitstream_peek bs).2)
    (hbits : (bitstream_peek bs).1 % 2 ^ ls = cs) :
    huffman_tree_lookup t bs = (.found ss, bitstream_consume_bits bs ls) := by
  obtain ⟨hls1, hls15, hcs⟩ := inv.scodes cs ls ss (inv.sc_sub _ hm)
  by_cases hcase : ls ≤ t.table_bits
  · -- short code: direct table hit
    have hidx : (bitstream_peek bs).1 % 2 ^ t.table_bits < 2 ^ t.table_bits :=
      Nat.mod_lt _ (Nat.pos_pow_of_pos _ (by decide))
    have hmod : (bitstream_peek bs).1 % 2 ^ t.table_bits % 2 ^ ls = cs := by
      rw [mod_mod_pow _ t.table_bits ls hcase]
      exact hbits
    have hde : t.data ((bitstream_peek bs).1 % 2 ^ t.table_bits) = ⟨ls, ss⟩ :=
      inv.complete_short cs ls ss hm hcase _ hidx hmod
    simp only [huffman_tree_lookup]
    rw [hde, hte_cl]
    rw [if_neg (by omega)]
    rw [if_neg (by omega)]
    show (if (⟨ls, ss⟩ : huffman_table_entry).code_length = 0 then ((.err : lookup_result), bs)
      else (.found (⟨ls, ss⟩ : huffman_table_entry).symbol,
        bitstream_consume_bits bs (⟨ls, ss⟩ : huffman_table_entry).code_length))
      = (.found ss, bitstream_consume_bits bs ls)
    rw [hte_cl, hte_sym, if_neg (by omega)]
  · -- long code: descend into the binary tree
    push_neg at hcase
    have hT15 := inv.hT15
    obtain ⟨nl, hnl, hownl, hterm0⟩ := inv.complete_long cs ls ss hm hcase
    have hj : t.table_bits + (ls - 1 - t.table_bits) = ls - 1 := by omega
    obtain ⟨f, hfj, hfall, hftab, hflink⟩ := tree_chain t.table_bits t.data N S Sc own
      inv cs (ls - 1 - t.table_bits) nl hnl (by rw [hownl, hj])
    have hdiv2 : cs / 2 ^ (ls - 1) % 2 = cs / 2 ^ (ls - 1) := by
      apply Nat.mod_eq_of_lt
      apply div_pow_lt_two
      have hd1 : ls - 1 + 1 = ls := by omega
      rw [hd1]
      exact hcs
    have hterm : t.data (2 ^ t.table_bits + 2 * f (ls - 1 - t.table_bits)
        + cs / 2 ^ (ls - 1) % 2) = ⟨ls, ss⟩ := by
      rw [hdiv2, hfj]
      exact hterm0
    have hidxeq : (bitstream_peek bs).1 % 2 ^ t.table_bits = cs % 2 ^ t.table_bits := by
      rw [← hbits, mod_mod_pow _ ls t.table_bits (by omega)]
    have hde : t.data ((bitstream_peek bs).1 % 2 ^ t.table_bits) = ⟨15, f 0⟩ := by
      rw [hidxeq]
      exact hftab
    simp only [huffman_tree_lookup]
    rw [hde, hte_cl]
    rw [if_neg (by omega)]
    rw [if_pos (by omega)]
    have hw := walkLookup_run t.data t.table_bits ls ss (bitstream_peek bs).1
      (bitstream_peek bs).2 cs f hcase hls15 havail hbits hflink hterm
      (ls - 1 - t.table_bits) 0 (by omega)
    rw [Nat.add_zero] at hw
    rw [hw]
    show (if (⟨ls, ss⟩ : huffman_table_entry).code_length = 0 then ((.err : lookup_result), bs)
      else (.found (⟨ls, ss⟩ : huffman_table_entry).symbol,
        bitstream_consume_bits bs (⟨ls, ss⟩ : huffman_table_entry).code_length))
      = (.found ss, bitstream_consume_bits bs ls)
    rw [hte_cl, hte_sym, if_neg (by omega)]

/-- On success, `huffman_tree_reset` leaves `table_bits` unchanged and
produces a table satisfying the tree invariant with every canonical code
completed. -/
theorem huffman_tree_reset_inv (t : huffman_tree) (v : List Nat) (t' : huffman_tree)
    (hT1 : 1 ≤ t.table_bits) (hT15 : t.table_bits < 15)
    (hv15 : ∀ x ∈ v, x ≤ 15)
    (hres : huffman_tree_reset t v = .ok t') :
    t'.table_bits = t.table_bits ∧
    ∃ N Sc own, (∀ c l s, (c, l, s) ∈ Sc ↔ (c, l, s) ∈ canonCodes v) ∧
      TreeInv t.table_bits t'.data N (canonCodes v) Sc own := by
  rcases hcnc : computeNextCodes (fun l => v.count l) 1 0 (fun _ => 0) with e | nc
  · exfalso
    simp only [huffman_tree_reset, hcnc] at hres
    exact Except.noConfusion hres
  · simp only [huffman_tree_reset, hcnc, Except.ok.injEq] at hres
    subst hres
    have hacc : ∀ l, 1 ≤ l → l ≤ 15 →
        nextCodeF (fun x => v.count x) l + v.count l ≤ 2 ^ l := by
      by_contra hcon
      push_neg at hcon
      obtain ⟨l, h1, h2, h3⟩ := hcon
      obtain ⟨e, he⟩ := computeNextCodes_err (fun x => v.count x) 15 1 0 (fun _ => 0)
        (by omega) le_rfl (by rfl)
        ⟨l, h1, h2, by show nextCodeF (fun x => v.count x) l + v.count l > 2 ^ l; omega⟩
      rw [hcnc] at he
      exact Except.noConfusion he
    obtain ⟨nc', hnc', hset, _⟩ := computeNextCodes_ok (fun x => v.count x) 15 1 0
      (fun _ => 0) (by omega) le_rfl (by rfl) hacc
    rw [hcnc] at hnc'
    injection hnc' with hnceq
    obtain ⟨Sc2, own2, hSc2, hinv2⟩ := assignSymbols_inv t.table_bits v hv15 hacc v 0
      (fun j => if j < 2 ^ t.table_bits then ⟨0, 0⟩ else t.data j) 0 nc [] (fun _ => (0, 0))
      (List.drop_zero v)
      (by
        intro l h1 h2
        rw [hnceq, hset l h1 h2]
        simp)
      (by
        intro c l s
        constructor
        · intro h
          exact absurd h (List.not_mem_nil _)
        · rintro ⟨_, hs⟩
          exact absurd hs (Nat.not_lt_zero s))
      (TreeInv_init t.table_bits v _ hT1 hT15 hv15 (by
        intro x hx
        rw [if_pos hx]))
    refine ⟨rfl, _, Sc2, own2, ?_, hinv2⟩
    intro c l s
    rw [hSc2 c l s]
    constructor
    · rintro ⟨hm, _⟩
      exact hm
    · intro hm
      refine ⟨hm, ?_⟩
      obtain ⟨hs, _, _, _⟩ := (canonCodes_mem v c l s).mp hm
      omega

/-- C2: for every code-length vector accepted by `huffman_tree_reset`, the
built table realizes the canonical RFC 1951 §3.2.2 assignment: each symbol
`i` with nonzero length receives the bit-reversed canonical code
`bitRev len (codeN v i)` (per-length counts, starting codes by the
`next[len] = (next[len-1] + count[len-1]) << 1` formula embodied in
`nextCodeF`, codes assigned in ascending symbol order), and
`huffman_tree_lookup`, offered enough input bits whose low `len` bits equal
that reversed code, returns exactly symbol `i` and consumes exactly `len`
bits. -/
theorem C2_canonical_codes_and_lookup (t t' : huffman_tree) (v : List Nat)
    (bs : bitstream) (i : Nat)
    (hT1 : 1 ≤ t.table_bits) (hT15 : t.table_bits < 15)
    (hv15 : ∀ x ∈ v, x ≤ 15)
    (hres : huffman_tree_reset t v = .ok t')
    (hi : i < v.length) (hlen0 : v.getD i 0 ≠ 0)
    (havail : v.getD i 0 ≤ (bitstream_peek bs).2)
    (hbits : (bitstream_peek bs).1 % 2 ^ (v.getD i 0)
        = bitRev (v.getD i 0) (codeN v i)) :
    huffman_tree_lookup t' bs
      = (.found i, bitstream_consume_bits bs (v.getD i 0)) := by
  obtain ⟨htb, N, Sc, own, hScm, hinv⟩ := huffman_tree_reset_inv t v t' hT1 hT15 hv15 hres
  have hmem : (bitRev (v.getD i 0) (codeN v i), v.getD i 0, i) ∈ Sc :=
    (hScm _ _ _).mpr ((canonCodes_mem v _ _ _).mpr ⟨hi, rfl, hlen0, rfl⟩)
  have hinv' : TreeInv t'.table_bits t'.data N (canonCodes v) Sc own := by
    rw [htb]
    exact hinv
  exact huffman_tree_lookup_found t' bs N (canonCodes v) Sc own hinv' _ _ _ hmem
    havail hbits

/-- Witness for C2: the spec's example vector `[3,3,3,3,3,2,4,4]` on a
table-bits-2 tree; symbol 0 has canonical code 2 of length 3, whose
LSB-first form is again 2, presented in a bitstream holding exactly the
three bits `010`. -/
theorem C2_witness :
    ∃ t', huffman_tree_reset ⟨2, fun _ => ⟨0, 0⟩⟩ [3, 3, 3, 3, 3, 2, 4, 4] = .ok t' ∧
      huffman_tree_lookup t' ⟨[], 2, 3⟩
        = (.found 0, bitstream_consume_bits ⟨[], 2, 3⟩ 3) := by
  obtain ⟨t', ht'⟩ := huffman_tree_reset_ok ⟨2, fun _ => ⟨0, 0⟩⟩ [3, 3, 3, 3, 3, 2, 4, 4]
    (by intro l h1 h2; interval_cases l <;> decide)
  exact ⟨t', ht', C2_canonical_codes_and_lookup ⟨2, fun _ => ⟨0, 0⟩⟩ t' _ _ 0
    (by decide) (by decide) (by decide) ht' (by decide) (by decide) (by decide) (by decide)⟩

/-- Witness for C3 (oversubscribed vector `[1,1,1]`, no padding, on a
table-bits-7 tree). -/
theorem C3_witness :
    (∃ l, 1 ≤ l ∧ l ≤ 15 ∧
      nextCodeF (fun x => ([1, 1, 1] : List Nat).count x) l + ([1, 1, 1] : List Nat).count l > 2 ^ l) ∧
    (∃ e, huffman_tree_reset ⟨7, fun _ => ⟨0, 0⟩⟩ [1, 1, 1] = .error e) :=
  ⟨⟨1, le_rfl, by omega, by decide⟩,
   C3_oversubscription_rejected.1 ⟨7, fun _ => ⟨0, 0⟩⟩ [1, 1, 1] ⟨1, le_rfl, by omega, by decide⟩⟩

/-! ## Stream-level inflater (src/lib/inflate.c with internal.h, inflatelib.h)

The checked-in internal.h is an earlier iteration that lacks the `mode`
field and the `ifstate_init` state used by inflate.c; both are modelled from
the spec: `mode` indexes `inflate_tables` (0 = DEFLATE, 1 = DEFLATE64,
`INFLATELIB_MODE_DEFLATE`/`INFLATELIB_MODE_DEFLATE64`) and `ifstate_init` is
the state set by `inflatelib_init`/`inflatelib_reset` before the first
inflate call.  The C union `data` is modelled as a plain product (each phase
writes its fields before reading them, so the shared storage is
unobservable).  The byte-pointer pair `next_in`/`avail_in` is modelled as
the single list `next_in` of readable bytes (`avail_in` is its length), and
`next_out`/`avail_out` as the list `out_data` of all bytes written so far
plus the remaining capacity `avail_out` (the C loop locals `out`/`outSize`
shadow these two fields exactly and are written back on every exit path, so
the embedding updates the fields directly).  Error messages are modelled by
their static fallback strings (`format_error_message` only affects the text,
never control flow). -/

def window_init (d : Nat → Nat) : window :=
  ⟨0, 0, 0, 0, d⟩

/-- `window_copy_output` from window.c: move `min outputSize unconsumed`
bytes out of the circular buffer starting at `read_offset`; the two-chunk
`memcpy` loop is written as its effect, one wrapped-index read per byte. -/
def window_copy_output (w : window) (outputSize : Nat) : List Nat × window :=
  ((List.range (min outputSize w.unconsumed_bytes)).map
      fun i => w.data ((w.read_offset + i) % WSIZE),
   { w with
     read_offset := (w.read_offset + min outputSize w.unconsumed_bytes) % WSIZE,
     unconsumed_bytes := w.unconsumed_bytes - min outputSize w.unconsumed_bytes })

/-- A raw byte write plus write-cursor advance (the body of the chunked copy
loop of `window_copy_bytes`). -/
def window_write_raw (w : window) (b : Nat) : window :=
  { w with
    data := fun i => if i = w.write_offset then b else w.data i,
    write_offset := (w.write_offset + 1) % WSIZE }

/-- `window_copy_bytes` from window.c: copy up to `count` byte-aligned bytes
from the bitstream into the window (the chunked loop written as its
per-byte effect); returns the number of bytes copied. -/
def window_copy_bytes (w : window) (bs : bitstream) (count : Nat) :
    Nat × window × bitstream :=
  let copied := min count bs.data.length
  let w' := (bs.data.take copied).foldl window_write_raw w
  (copied,
   { w' with
     unconsumed_bytes := w.unconsumed_bytes + copied,
     total_bytes := w.total_bytes + copied },
   { bs with data := bs.data.drop copied })

/-- `window_write_byte` from window.c: `none` when the window is full (the C
returns 0 without mutating). -/
def window_write_byte (w : window) (b : Nat) : Option window :=
  if w.unconsumed_bytes ≥ WSIZE then none
  else some { w with
    data := fun i => if i = w.write_offset then b else w.data i,
    write_offset := (w.write_offset + 1) % WSIZE,
    unconsumed_bytes := w.unconsumed_bytes + 1,
    total_bytes := w.total_bytes + 1 }

/-- `window_write_byte_consume` from window.c (fast path; precondition
`unconsumed_bytes = 0`): write and advance both cursors. -/
def window_write_byte_consume (w : window) (b : Nat) : window :=
  { w with
    data := fun i => if i = w.write_offset then b else w.data i,
    write_offset := (w.write_offset + 1) % WSIZE,
    read_offset := (w.read_offset + 1) % WSIZE,
    total_bytes := w.total_bytes + 1 }

/-- Modelled from the spec (§4.1): peek without the availability clamp; only
ever called with at least 6 whole bytes available, where it agrees with
`bitstream_peek`. -/
def bitstream_peek_unchecked (bs : bitstream) : Nat :=
  bs.bitsValue % 2 ^ 16

/-- The un-guarded descent of `huffman_tree_lookup_unchecked` (fuelled; the
C relies on table well-formedness for termination and 16 levels always
suffice for codes of length at most 15). -/
def walkLookupU (d : Nat → huffman_table_entry) (treeBase : Nat) :
    Nat → huffman_table_entry → Nat → Nat → huffman_table_entry
  | 0, e, _, _ => e
  | fuel + 1, e, bitsRead, rem =>
    if (d (treeBase + 2 * e.symbol + rem % 2)).code_length > bitsRead + 1 then
      walkLookupU d treeBase fuel (d (treeBase + 2 * e.symbol + rem % 2)) (bitsRead + 1)
        (rem / 2)
    else d (treeBase + 2 * e.symbol + rem % 2)

/-- `huffman_tree_lookup_unchecked` from huffman_tree.c. -/
def huffman_tree_lookup_unchecked (t : huffman_tree) (bs : bitstream) :
    lookup_result × bitstream :=
  let input := bitstream_peek_unchecked bs
  let e := t.data (input % 2 ^ t.table_bits)
  let fe := if e.code_length > t.table_bits then
      walkLookupU t.data (2 ^ t.table_bits) 16 e t.table_bits (input / 2 ^ t.table_bits)
    else e
  if fe.code_length = 0 then (.err, bs)
  else (.found fe.symbol, bitstream_consume_bits bs fe.code_length)

/-- `deflate_tables.lengths` from inflate.c: `(base, extra_bits)` for length
symbol `257 + i`. -/
def deflate_lengths : List (Nat × Nat) :=
  [(3, 0), (4, 0), (5, 0), (6, 0), (7, 0), (8, 0), (9, 0), (10, 0), (11, 1), (13, 1),
   (15, 1), (17, 1), (19, 2), (23, 2), (27, 2), (31, 2), (35, 3), (43, 3), (51, 3), (59, 3),
   (67, 4), (83, 4), (99, 4), (115, 4), (131, 5), (163, 5), (195, 5), (227, 5), (258, 0)]

/-- `deflate64_tables.lengths`: identical except the entry for symbol 285,
`(3, 16)` instead of `(258, 0)`. -/
def deflate64_lengths : List (Nat × Nat) :=
  [(3, 0), (4, 0), (5, 0), (6, 0), (7, 0), (8, 0), (9, 0), (10, 0), (11, 1), (13, 1),
   (15, 1), (17, 1), (19, 2), (23, 2), (27, 2), (31, 2), (35, 3), (43, 3), (51, 3), (59, 3),
   (67, 4), (83, 4), (99, 4), (115, 4), (131, 5), (163, 5), (195, 5), (227, 5), (3, 16)]

/-- `deflate_tables.distances`: entries 30 and 31 have base 0 so the decoder
can recognise them as invalid in Deflate. -/
def deflate_distances : List (Nat × Nat) :=
  [(1, 0), (2, 0), (3, 0), (4, 0), (5, 1), (7, 1), (9, 2), (13, 2),
   (17, 3), (25, 3), (33, 4), (49, 4), (65, 5), (97, 5), (129, 6), (193, 6),
   (257, 7), (385, 7), (513, 8), (769, 8), (1025, 9), (1537, 9), (2049, 10), (3073, 10),
   (4097, 11), (6145, 11), (8193, 12), (12289, 12), (16385, 13), (24577, 13),
   (0, 0), (0, 0)]

/-- `deflate64_tables.distances`: symbols 30 and 31 are valid with bases
32769 and 49153 and 14 extra bits. -/
def deflate64_distances : List (Nat × Nat) :=
  [(1, 0), (2, 0), (3, 0), (4, 0), (5, 1), (7, 1), (9, 2), (13, 2),
   (17, 3), (25, 3), (33, 4), (49, 4), (65, 5), (97, 5), (129, 6), (193, 6),
   (257, 7), (385, 7), (513, 8), (769, 8), (1025, 9), (1537, 9), (2049, 10), (3073, 10),
   (4097, 11), (6145, 11), (8193, 12), (12289, 12), (16385, 13), (24577, 13),
   (32769, 14), (49153, 14)]

/-- `inflate_tables[mode]->lengths[i]`. -/
def tables_lengths (mode i : Nat) : Nat × Nat :=
  (if mode = 0 then deflate_lengths else deflate64_lengths).getD i (0, 0)

/-- `inflate_tables[mode]->distances[i]`. -/
def tables_distances (mode i : Nat) : Nat × Nat :=
  (if mode = 0 then deflate_distances else deflate64_distances).getD i (0, 0)

/-- `max_compressed_op_size[mode]` from inflate.c. -/
def max_compressed_op_size (mode : Nat) : Nat := if mode = 0 then 6 else 8

def INFLATELIB_OK : Int := 0
def INFLATELIB_EOF : Int := 1
def INFLATELIB_ERROR_ARG : Int := -1
def INFLATELIB_ERROR_DATA : Int := -2
def INFLATELIB_ERROR_OOM : Int := -3
def INFLATELIB_MODE_DEFLATE : Nat := 0
def INFLATELIB_MODE_DEFLATE64 : Nat := 1

/-- `inflate_state` from internal.h plus the `ifstate_init` state of the
newer iteration used by inflate.c (modelled from the spec); the numbering
`inflate_state.idx` preserves the header's relative order, which the code
relies on via `ifstate < ifstate_reading_literal_length_code`. -/
inductive inflate_state where
  | init
  | reading_bfinal
  | reading_btype
  | reading_uncompressed_block_len
  | reading_uncompressed_block_len_complement
  | reading_uncompressed_data
  | reading_num_lit_codes
  | reading_num_dist_codes
  | reading_num_code_len_codes
  | reading_code_len_codes
  | reading_tree_codes_before
  | reading_tree_codes_after
  | reading_literal_length_code
  | decoding_literal_length_code
  | reading_length_extra_bits
  | reading_distance_code
  | reading_distance_extra_bits
  | copying_length_distance_from_window
  | copying_output_from_window
  | eof
deriving DecidableEq

def inflate_state.idx : inflate_state → Nat
  | .init => 0
  | .reading_bfinal => 1
  | .reading_btype => 2
  | .reading_uncompressed_block_len => 3
  | .reading_uncompressed_block_len_complement => 4
  | .reading_uncompressed_data => 5
  | .reading_num_lit_codes => 6
  | .reading_num_dist_codes => 7
  | .reading_num_code_len_codes => 8
  | .reading_code_len_codes => 9
  | .reading_tree_codes_before => 10
  | .reading_tree_codes_after => 11
  | .reading_literal_length_code => 12
  | .decoding_literal_length_code => 13
  | .reading_length_extra_bits => 14
  | .reading_distance_code => 15
  | .reading_distance_extra_bits => 16
  | .copying_length_distance_from_window => 17
  | .copying_output_from_window => 18
  | .eof => 19

/-- `inflatelib_state` from internal.h (union fields flattened with
prefixes: `u_` uncompressed, `dc_` dynamic_codes, `c_` compressed). -/
structure inflatelib_state where
  bitstream : bitstream
  window : window
  ifstate : inflate_state
  btype : Nat
  bfinal : Nat
  mode : Nat
  code_length_tree : huffman_tree
  literal_length_tree : huffman_tree
  distance_tree : huffman_tree
  u_block_len : Nat
  dc_lit_count : Nat
  dc_dist_count : Nat
  dc_clen_count : Nat
  dc_length_code : Nat
  dc_loop_counter : Nat
  dc_code_lengths : Nat → Nat
  c_symbol : Nat
  c_extra_bits : Nat
  c_block_length : Nat
  c_block_distance : Nat

/-- `inflatelib_stream` from inflatelib.h (pointers fused with their byte
counts as described above; `alloc`/`free`/`user_data` are opaque). -/
structure inflatelib_stream where
  next_in : List Nat
  total_in : Nat
  out_data : List Nat
  avail_out : Nat
  total_out : Nat
  error_msg : Option String
  user_data : Nat
  alloc : Nat
  free : Nat
  internal : Option inflatelib_state

def inflatelib_stream.avail_in (s : inflatelib_stream) : Nat := s.next_in.length

/-- The internal state right after a successful `inflatelib_init`: the
`memset` zeroes every field, the three trees are initialised with their
fixed table sizes (array contents are unspecified, hence parameters), the
bitstream and window are initialised, and `ifstate` is `ifstate_init`. -/
def inflatelib_init_state (wd : Nat → Nat)
    (cd ld dd : Nat → huffman_table_entry) : inflatelib_state :=
  { bitstream := ⟨[], 0, 0⟩,
    window := window_init wd,
    ifstate := .init,
    btype := 0,
    bfinal := 0,
    mode := 0,
    code_length_tree := ⟨7, cd⟩,
    literal_length_tree := ⟨9, ld⟩,
    distance_tree := ⟨7, dd⟩,
    u_block_len := 0,
    dc_lit_count := 0,
    dc_dist_count := 0,
    dc_clen_count := 0,
    dc_length_code := 0,
    dc_loop_counter := 0,
    dc_code_lengths := fun _ => 0,
    c_symbol := 0,
    c_extra_bits := 0,
    c_block_length := 0,
    c_block_distance := 0 }

/-- `inflatelib_reset` from inflate.c. -/
def inflatelib_reset (s : inflatelib_stream) : Int × inflatelib_stream :=
  match s.internal with
  | none =>
    (INFLATELIB_ERROR_ARG,
     { s with
       error_msg := some "Internal state is null; ensure inflatelib_init has been called first" })
  | some st =>
    let st' : inflatelib_state :=
      { st with
        bitstream := bitstream_reset,
        window := window_reset st.window,
        ifstate := .init }
    (INFLATELIB_OK, { s with internal := some st' })

/-- Write the bytes produced by a `window_copy_output` call to the output
buffer (`out += bytesCopied; outSize -= bytesCopied`). -/
def stream_emit (s : inflatelib_stream) (bytes : List Nat) : inflatelib_stream :=
  { s with out_data := s.out_data ++ bytes, avail_out := s.avail_out - bytes.length }

/-- `case ifstate_reading_uncompressed_data` of `inflater_read_uncompressed`. -/
def iru_data (s : inflatelib_stream) (st : inflatelib_state) :
    Int × inflatelib_stream × inflatelib_state :=
  let r := window_copy_bytes st.window st.bitstream st.u_block_len
  let st1 : inflatelib_state :=
    { st with window := r.2.1, bitstream := r.2.2, u_block_len := st.u_block_len - r.1 }
  let o := window_copy_output st1.window s.avail_out
  let s1 := stream_emit s o.1
  let st2 : inflatelib_state := { st1 with window := o.2 }
  let st3 : inflatelib_state :=
    if st2.u_block_len = 0 ∧ st2.window.unconsumed_bytes = 0 then
      { st2 with ifstate := if st2.bfinal ≠ 0 then .eof else .reading_bfinal }
    else st2
  (INFLATELIB_OK, s1, st3)

/-- `case ifstate_reading_uncompressed_block_len_complement` (falls through
into the data case). -/
def iru_complement (s : inflatelib_stream) (st : inflatelib_state) :
    Int × inflatelib_stream × inflatelib_state :=
  match bitstream_read_bits st.bitstream 16 with
  | none => (INFLATELIB_OK, s, st)
  | some vbs =>
    let st1 : inflatelib_state := { st with bitstream := vbs.2 }
    if st.u_block_len ≠ 65535 - vbs.1 then
      (INFLATELIB_ERROR_DATA,
       { s with
         error_msg := some "Uncompressed block length does not match its encoded ones complement value" },
       st1)
    else iru_data s { st1 with ifstate := .reading_uncompressed_data }

/-- `case ifstate_reading_uncompressed_block_len` (falls through). -/
def iru_len (s : inflatelib_stream) (st : inflatelib_state) :
    Int × inflatelib_stream × inflatelib_state :=
  match bitstream_read_bits st.bitstream 16 with
  | none => (INFLATELIB_OK, s, st)
  | some vbs =>
    iru_complement s
      { st with
        bitstream := vbs.2,
        u_block_len := vbs.1,
        ifstate := .reading_uncompressed_block_len_complement }

/-- `inflater_read_uncompressed` from inflate.c. -/
def inflater_read_uncompressed (s : inflatelib_stream) (st : inflatelib_state) :
    Int × inflatelib_stream × inflatelib_state :=
  match st.ifstate with
  | .reading_uncompressed_block_len => iru_len s st
  | .reading_uncompressed_block_len_complement => iru_complement s st
  | .reading_uncompressed_data => iru_data s st
  | _ => (INFLATELIB_OK, s, st)

/-- The static literal/length code lengths of RFC 1951 §3.2.6 as built by
`inflater_init_static_tables`. -/
def static_ll_lengths : List Nat :=
  List.replicate 144 8 ++ List.replicate 112 9 ++ List.replicate 24 7 ++ List.replicate 8 8

/-- The static distance code lengths (32 entries of 5 bits). -/
def static_dist_lengths : List Nat := List.replicate 32 5

/-- `inflater_init_static_tables` from inflate.c (the source asserts the
resets cannot fail; on the impossible failure the tree is kept). -/
def inflater_init_static_tables (st : inflatelib_state) : inflatelib_state :=
  let lt := match huffman_tree_reset st.literal_length_tree static_ll_lengths with
    | .ok x => x
    | .error _ => st.literal_length_tree
  let dt := match huffman_tree_reset st.distance_tree static_dist_lengths with
    | .ok x => x
    | .error _ => st.distance_tree
  { st with literal_length_tree := lt, distance_tree := dt }

/-- `code_order` from inflate.c (RFC 1951 §3.2.7). -/
def code_order : List Nat :=
  [16, 17, 18, 0, 8, 7, 9, 6, 10, 5, 11, 4, 12, 3, 13, 2, 14, 1, 15]

/-- The `while (loop_counter < code_length_code_count)` read loop of
`inflater_read_dynamic_header`; `false` plays the C early `return
INFLATELIB_OK` for missing data. -/
def irdh_clen_loop (s : inflatelib_stream) (st : inflatelib_state) :
    Bool × inflatelib_stream × inflatelib_state :=
  if h : st.dc_loop_counter < st.dc_clen_count then
    match bitstream_read_bits st.bitstream 3 with
    | none => (false, s, st)
    | some vbs =>
      irdh_clen_loop s
        { st with
          bitstream := vbs.2,
          dc_code_lengths := fun j =>
            if j = code_order.getD st.dc_loop_counter 0 then vbs.1
            else st.dc_code_lengths j,
          dc_loop_counter := st.dc_loop_counter + 1 }
  else (true, s, st)
termination_by st.dc_clen_count - st.dc_loop_counter
decreasing_by simp; omega

/-- The zero-fill loop over the rest of `code_order`. -/
def irdh_zero_loop (st : inflatelib_state) : inflatelib_state :=
  if h : st.dc_loop_counter < 19 then
    irdh_zero_loop
      { st with
        dc_code_lengths := fun j =>
          if j = code_order.getD st.dc_loop_counter 0 then 0 else st.dc_code_lengths j,
        dc_loop_counter := st.dc_loop_counter + 1 }
  else st
termination_by 19 - st.dc_loop_counter
decreasing_by simp; omega

/-- Decoding of one already-read length code (RFC 1951 §3.2.7 values 0-18)
inside the tree-codes loop; `.inl` is a `return` out of the header reader,
`.inr` continues the loop. -/
def irdh_decode_one (s : inflatelib_stream) (st : inflatelib_state) :
    (Int × Bool × inflatelib_stream × inflatelib_state) ⊕
      (inflatelib_stream × inflatelib_state) :=
  let caSize := st.dc_lit_count + st.dc_dist_count
  let lc := st.dc_length_code
  if lc ≤ 15 then
    .inr (s,
      { st with
        dc_code_lengths := fun j =>
          if j = st.dc_loop_counter then lc else st.dc_code_lengths j,
        dc_loop_counter := st.dc_loop_counter + 1,
        ifstate := .reading_tree_codes_before })
  else if lc = 16 then
    match bitstream_read_bits st.bitstream 2 with
    | none => .inl (INFLATELIB_OK, false, s, { st with ifstate := .reading_tree_codes_after })
    | some vbs =>
      if st.dc_loop_counter = 0 then
        .inl (INFLATELIB_ERROR_DATA, false,
          { s with error_msg := some "Code length repeat code encountered at beginning of data" },
          { st with bitstream := vbs.2 })
      else
        let prev := st.dc_code_lengths (st.dc_loop_counter - 1)
        let reps := vbs.1 + 3
        if st.dc_loop_counter + reps > caSize then
          .inl (INFLATELIB_ERROR_DATA, false,
            { s with
              error_msg := some "Code length repeat code specifies more repetitions than codes remain" },
            { st with bitstream := vbs.2 })
        else
          .inr (s,
            { st with
              bitstream := vbs.2,
              dc_code_lengths := fun j =>
                if st.dc_loop_counter ≤ j ∧ j < st.dc_loop_counter + reps then prev
                else st.dc_code_lengths j,
              dc_loop_counter := st.dc_loop_counter + reps,
              ifstate := .reading_tree_codes_before })
  else
    let bitCount := if lc = 17 then 3 else 7
    let repeatBase := if lc = 17 then 3 else 11
    match bitstream_read_bits st.bitstream bitCount with
    | none => .inl (INFLATELIB_OK, false, s, { st with ifstate := .reading_tree_codes_after })
    | some vbs =>
      let reps := vbs.1 + repeatBase
      if st.dc_loop_counter + reps > caSize then
        .inl (INFLATELIB_ERROR_DATA, false,
          { s with
            error_msg := some "Zero repeat code specifies more repetitions than codes remain" },
          { st with bitstream := vbs.2 })
      else
        .inr (s,
          { st with
            bitstream := vbs.2,
            dc_code_lengths := fun j =>
              if st.dc_loop_counter ≤ j ∧ j < st.dc_loop_counter + reps then 0
              else st.dc_code_lengths j,
            dc_loop_counter := st.dc_loop_counter + reps,
            ifstate := .reading_tree_codes_before })

/-- The `while (loop_counter < codeArraySize)` tree-codes loop (fuelled;
every iteration advances `loop_counter`, so `codeArraySize + 1` fuel is
always enough). -/
def irdh_tree_loop : Nat → inflatelib_stream → inflatelib_state →
    Int × Bool × inflatelib_stream × inflatelib_state
  | 0, s, st => (INFLATELIB_OK, false, s, st)
  | fuel + 1, s, st =>
    if st.dc_loop_counter < st.dc_lit_count + st.dc_dist_count then
      if st.ifstate = .reading_tree_codes_before then
        match huffman_tree_lookup st.code_length_tree st.bitstream with
        | (.more, _) => (INFLATELIB_OK, false, s, st)
        | (.err, _) =>
          (INFLATELIB_ERROR_DATA, false,
           { s with
             error_msg := some "Input bit sequence is not a valid Huffman code for the encoded table" },
           st)
        | (.found v, bs1) =>
          match irdh_decode_one s { st with bitstream := bs1, dc_length_code := v } with
          | .inl r => r
          | .inr ss => irdh_tree_loop fuel ss.1 ss.2
      else
        match irdh_decode_one s st with
        | .inl r => r
        | .inr ss => irdh_tree_loop fuel ss.1 ss.2
    else (INFLATELIB_OK, true, s, st)

/-- The two `huffman_tree_reset` calls after the tree-codes loop. -/
def irdh_finish (s : inflatelib_stream) (st : inflatelib_state) :
    Int × inflatelib_stream × inflatelib_state :=
  match huffman_tree_reset st.literal_length_tree
      ((List.range st.dc_lit_count).map st.dc_code_lengths) with
  | .error _ =>
    (INFLATELIB_ERROR_DATA,
     { s with error_msg := some "Code lengths are over-subscribed" }, st)
  | .ok lt =>
    match huffman_tree_reset st.distance_tree
        ((List.range st.dc_dist_count).map fun i =>
          st.dc_code_lengths (st.dc_lit_count + i)) with
    | .error _ =>
      (INFLATELIB_ERROR_DATA,
       { s with error_msg := some "Code lengths are over-subscribed" },
       { st with literal_length_tree := lt })
    | .ok dt =>
      (INFLATELIB_OK, s,
       { st with
         literal_length_tree := lt,
         distance_tree := dt,
         ifstate := .reading_literal_length_code })

/-- The tree-codes phase: loop then finish. -/
def irdh_tree_phase (s : inflatelib_stream) (st : inflatelib_state) :
    Int × inflatelib_stream × inflatelib_state :=
  let r := irdh_tree_loop (st.dc_lit_count + st.dc_dist_count + 1) s st
  if r.2.1 then irdh_finish r.2.2.1 r.2.2.2
  else (r.1, r.2.2.1, r.2.2.2)

/-- `case ifstate_reading_code_len_codes` onwards. -/
def irdh_from_clen (s : inflatelib_stream) (st : inflatelib_state) :
    Int × inflatelib_stream × inflatelib_state :=
  let cl := irdh_clen_loop s st
  if cl.1 then
    let st1 := irdh_zero_loop cl.2.2
    match huffman_tree_reset st1.code_length_tree ((List.range 19).map st1.dc_code_lengths) with
    | .error _ =>
      (INFLATELIB_ERROR_DATA,
       { cl.2.1 with error_msg := some "Code lengths are over-subscribed" }, st1)
    | .ok ct =>
      irdh_tree_phase cl.2.1
        { st1 with
          code_length_tree := ct,
          dc_loop_counter := 0,
          ifstate := .reading_tree_codes_before }
  else (INFLATELIB_OK, cl.2.1, cl.2.2)

/-- `case ifstate_reading_num_code_len_codes` (falls through). -/
def irdh_num_clen (s : inflatelib_stream) (st : inflatelib_state) :
    Int × inflatelib_stream × inflatelib_state :=
  match bitstream_read_bits st.bitstream 4 with
  | none => (INFLATELIB_OK, s, st)
  | some vbs =>
    irdh_from_clen s
      { st with
        bitstream := vbs.2,
        dc_clen_count := vbs.1 + 4,
        dc_loop_counter := 0,
        ifstate := .reading_code_len_codes }

/-- `case ifstate_reading_num_dist_codes` (falls through). -/
def irdh_num_dist (s : inflatelib_stream) (st : inflatelib_state) :
    Int × inflatelib_stream × inflatelib_state :=
  match bitstream_read_bits st.bitstream 5 with
  | none => (INFLATELIB_OK, s, st)
  | some vbs =>
    irdh_num_clen s
      { st with
        bitstream := vbs.2,
        dc_dist_count := vbs.1 + 1,
        ifstate := .reading_num_code_len_codes }

/-- `case ifstate_reading_num_lit_codes` (falls through). -/
def irdh_num_lit (s : inflatelib_stream) (st : inflatelib_state) :
    Int × inflatelib_stream × inflatelib_state :=
  match bitstream_read_bits st.bitstream 5 with
  | none => (INFLATELIB_OK, s, st)
  | some vbs =>
    irdh_num_dist s
      { st with
        bitstream := vbs.2,
        dc_lit_count := vbs.1 + 257,
        ifstate := .reading_num_dist_codes }

/-- `inflater_read_dynamic_header` from inflate.c. -/
def inflater_read_dynamic_header (s : inflatelib_stream) (st : inflatelib_state) :
    Int × inflatelib_stream × inflatelib_state :=
  match st.ifstate with
  | .reading_num_lit_codes => irdh_num_lit s st
  | .reading_num_dist_codes => irdh_num_dist s st
  | .reading_num_code_len_codes => irdh_num_clen s st
  | .reading_code_len_codes => irdh_from_clen s st
  | .reading_tree_codes_before => irdh_tree_phase s st
  | .reading_tree_codes_after => irdh_tree_phase s st
  | _ => (INFLATELIB_OK, s, st)

/-- `case ifstate_copying_output_from_window` of `inflater_read_compressed`. -/
def rc_copy_output (s : inflatelib_stream) (st : inflatelib_state) :
    Int × Bool × inflatelib_stream × inflatelib_state :=
  let o := window_copy_output st.window s.avail_out
  let s1 := stream_emit s o.1
  let st1 : inflatelib_state := { st with window := o.2 }
  let st2 : inflatelib_state :=
    if st1.window.unconsumed_bytes = 0 then
      { st1 with ifstate := if st1.bfinal ≠ 0 then .eof else .reading_bfinal }
    else st1
  (INFLATELIB_OK, false, s1, st2)

/-- `case ifstate_copying_length_distance_from_window`. -/
def rc_copy_ld (s : inflatelib_stream) (st : inflatelib_state) :
    Int × Bool × inflatelib_stream × inflatelib_state :=
  let op := window_copy_length_distance st.window st.c_block_distance st.c_block_length
  if op.2 < 0 then
    (INFLATELIB_ERROR_DATA, false,
     { s with
       error_msg := some "Compressed block has a distance which exceeds the size of the window" },
     st)
  else
    let copied := op.2.toNat
    let st1 : inflatelib_state :=
      { st with window := op.1, c_block_length := st.c_block_length - copied }
    let o := window_copy_output st1.window s.avail_out
    let s1 := stream_emit s o.1
    let st2 : inflatelib_state := { st1 with window := o.2 }
    if st2.c_block_length = 0 ∧ st2.window.unconsumed_bytes = 0 then
      (INFLATELIB_OK, true, s1, { st2 with ifstate := .reading_literal_length_code })
    else
      let st3 : inflatelib_state := { st2 with ifstate := .copying_length_distance_from_window }
      if (st3.c_block_length = 0 ∨ copied = 0) ∧ s1.avail_out = 0 then
        (INFLATELIB_OK, false, s1, st3)
      else (INFLATELIB_OK, true, s1, st3)

/-- `case ifstate_reading_distance_extra_bits` (falls through). -/
def rc_distance_extra (s : inflatelib_stream) (st : inflatelib_state) :
    Int × Bool × inflatelib_stream × inflatelib_state :=
  if st.c_extra_bits > 0 then
    match bitstream_read_bits st.bitstream st.c_extra_bits with
    | none => (INFLATELIB_OK, false, s, { st with ifstate := .reading_distance_extra_bits })
    | some vbs =>
      rc_copy_ld s
        { st with bitstream := vbs.2, c_block_distance := st.c_block_distance + vbs.1 }
  else rc_copy_ld s st

/-- `case ifstate_reading_distance_code` (falls through). -/
def rc_distance_code (s : inflatelib_stream) (st : inflatelib_state) :
    Int × Bool × inflatelib_stream × inflatelib_state :=
  match huffman_tree_lookup st.distance_tree st.bitstream with
  | (.more, _) => (INFLATELIB_OK, false, s, { st with ifstate := .reading_distance_code })
  | (.err, _) =>
    (INFLATELIB_ERROR_DATA, false,
     { s with
       error_msg := some "Input bit sequence is not a valid Huffman code for the encoded table" },
     st)
  | (.found sym, bs1) =>
    let st1 : inflatelib_state :=
      { st with
        bitstream := bs1,
        c_block_distance := (tables_distances st.mode sym).1,
        c_extra_bits := (tables_distances st.mode sym).2 }
    if st1.c_block_distance = 0 then
      (INFLATELIB_ERROR_DATA, false,
       { s with error_msg := some "Distance code is not valid in Deflate" }, st1)
    else rc_distance_extra s st1

/-- `case ifstate_reading_length_extra_bits` (falls through). -/
def rc_length_extra (s : inflatelib_stream) (st : inflatelib_state) :
    Int × Bool × inflatelib_stream × inflatelib_state :=
  if st.c_extra_bits > 0 then
    match bitstream_read_bits st.bitstream st.c_extra_bits with
    | none => (INFLATELIB_OK, false, s, { st with ifstate := .reading_length_extra_bits })
    | some vbs =>
      rc_distance_code s
        { st with bitstream := vbs.2, c_block_length := st.c_block_length + vbs.1 }
  else rc_distance_code s st

/-- `case ifstate_decoding_literal_length_code` (falls through). -/
def rc_decoding_lit (s : inflatelib_stream) (st : inflatelib_state) :
    Int × Bool × inflatelib_stream × inflatelib_state :=
  if st.c_symbol < 256 then
    match window_write_byte st.window st.c_symbol with
    | some w1 =>
      (INFLATELIB_OK, true, s, { st with window := w1, ifstate := .reading_literal_length_code })
    | none =>
      let o := window_copy_output st.window s.avail_out
      if o.1.length = 0 then
        (INFLATELIB_OK, false, s, { st with ifstate := .decoding_literal_length_code })
      else
        let s1 := stream_emit s o.1
        let w2 := match window_write_byte o.2 st.c_symbol with
          | some x => x
          | none => o.2
        (INFLATELIB_OK, true, s1,
         { st with window := w2, ifstate := .reading_literal_length_code })
  else if st.c_symbol = 256 then
    (INFLATELIB_OK, true, s, { st with ifstate := .copying_output_from_window })
  else if st.c_symbol > 285 then
    (INFLATELIB_ERROR_DATA, false,
     { s with error_msg := some "Invalid symbol from literal/length tree" }, st)
  else
    rc_length_extra s
      { st with
        c_block_length := (tables_lengths st.mode (st.c_symbol - 257)).1,
        c_extra_bits := (tables_lengths st.mode (st.c_symbol - 257)).2 }

/-- `inflater_read_compressed_fast` from inflate.c (fuelled; each iteration
consumes at least one bit). -/
def rc_fast_loop : Nat → inflatelib_stream → inflatelib_state →
    Int × inflatelib_stream × inflatelib_state
  | 0, s, st => (INFLATELIB_OK, s, st)
  | fuel + 1, s, st =>
    if st.bitstream.data.length ≥ max_compressed_op_size st.mode ∧ s.avail_out ≠ 0 then
      match huffman_tree_lookup_unchecked st.literal_length_tree st.bitstream with
      | (.err, _) =>
        (INFLATELIB_ERROR_DATA,
         { s with
           error_msg := some "Input bit sequence is not a valid Huffman code for the encoded table" },
         st)
      | (.more, _) => (INFLATELIB_OK, s, st)
      | (.found sym, bs1) =>
        if sym < 256 then
          rc_fast_loop fuel
            { s with out_data := s.out_data ++ [sym], avail_out := s.avail_out - 1 }
            { st with bitstream := bs1, window := window_write_byte_consume st.window sym }
        else if sym = 256 then
          (INFLATELIB_OK, s, { st with bitstream := bs1, ifstate := .copying_output_from_window })
        else if sym > 285 then
          (INFLATELIB_ERROR_DATA,
           { s with error_msg := some "Invalid symbol from literal/length tree" },
           { st with bitstream := bs1 })
        else
          let lbase := (tables_lengths st.mode (sym - 257)).1
          let lextra := (tables_lengths st.mode (sym - 257)).2
          let r1 := if lextra > 0 then bitstream_read_bits_unchecked bs1 lextra else (0, bs1)
          let blockLength := lbase + r1.1
          match huffman_tree_lookup_unchecked st.distance_tree r1.2 with
          | (.err, _) =>
            (INFLATELIB_ERROR_DATA,
             { s with
               error_msg := some "Input bit sequence is not a valid Huffman code for the encoded table" },
             { st with bitstream := r1.2 })
          | (.more, _) => (INFLATELIB_OK, s, { st with bitstream := r1.2 })
          | (.found dsym, bs3) =>
            let dbase := (tables_distances st.mode dsym).1
            let dextra := (tables_distances st.mode dsym).2
            if dbase = 0 then
              (INFLATELIB_ERROR_DATA,
               { s with error_msg := some "Distance code is not valid in Deflate" },
               { st with bitstream := bs3 })
            else
              let r2 := if dextra > 0 then bitstream_read_bits_unchecked bs3 dextra else (0, bs3)
              let blockDistance := dbase + r2.1
              let op := window_copy_length_distance st.window blockDistance blockLength
              if op.2 < 0 then
                (INFLATELIB_ERROR_DATA,
                 { s with
                   error_msg := some "Compressed block has a distance which exceeds the size of the window" },
                 { st with bitstream := r2.2 })
              else
                let copied := op.2.toNat
                let o := window_copy_output op.1 s.avail_out
                let s1 := stream_emit s o.1
                let st1 : inflatelib_state := { st with bitstream := r2.2, window := o.2 }
                if copied < blockLength ∨ st1.window.unconsumed_bytes ≠ 0 then
                  (INFLATELIB_OK, s1,
                   { st1 with
                     c_block_length := blockLength - copied,
                     c_block_distance := blockDistance,
                     ifstate := .copying_length_distance_from_window })
                else rc_fast_loop fuel s1 st1
    else (INFLATELIB_OK, s, st)

def inflater_read_compressed_fast (s : inflatelib_stream) (st : inflatelib_state) :
    Int × inflatelib_stream × inflatelib_state :=
  rc_fast_loop (8 * st.bitstream.data.length + 8) s st

/-- `case ifstate_reading_literal_length_code` (fast-path dispatch, else one
literal/length lookup, falling through). -/
def rc_reading_lit (s : inflatelib_stream) (st : inflatelib_state) :
    Int × Bool × inflatelib_stream × inflatelib_state :=
  if st.bitstream.data.length ≥ max_compressed_op_size st.mode ∧ s.avail_out ≠ 0 then
    let r := inflater_read_compressed_fast s st
    if r.1 < INFLATELIB_OK then (r.1, false, r.2.1, r.2.2)
    else (r.1, true, r.2.1, r.2.2)
  else
    match huffman_tree_lookup st.literal_length_tree st.bitstream with
    | (.more, _) => (INFLATELIB_OK, false, s, st)
    | (.err, _) =>
      (INFLATELIB_ERROR_DATA, false,
       { s with
         error_msg := some "Input bit sequence is not a valid Huffman code for the encoded table" },
       st)
    | (.found sym, bs1) =>
      rc_decoding_lit s { st with bitstream := bs1, c_symbol := sym }

/-- One iteration of the `while (keepGoing)` loop of
`inflater_read_compressed` (the `switch (state->ifstate)`). -/
def rc_step (s : inflatelib_stream) (st : inflatelib_state) :
    Int × Bool × inflatelib_stream × inflatelib_state :=
  match st.ifstate with
  | .reading_literal_length_code => rc_reading_lit s st
  | .decoding_literal_length_code => rc_decoding_lit s st
  | .reading_length_extra_bits => rc_length_extra s st
  | .reading_distance_code => rc_distance_code s st
  | .reading_distance_extra_bits => rc_distance_extra s st
  | .copying_length_distance_from_window => rc_copy_ld s st
  | .copying_output_from_window => rc_copy_output s st
  | _ => (INFLATELIB_OK, false, s, st)

/-- The `while (keepGoing)` loop (fuelled). -/
def rc_loop : Nat → inflatelib_stream → inflatelib_state →
    Int × inflatelib_stream × inflatelib_state
  | 0, s, st => (INFLATELIB_OK, s, st)
  | fuel + 1, s, st =>
    let r := rc_step s st
    if r.2.1 then rc_loop fuel r.2.2.1 r.2.2.2
    else (r.1, r.2.2.1, r.2.2.2)

/-- `inflater_read_compressed` from inflate.c: flush pending window output,
run the state loop, flush again. -/
def inflater_read_compressed (s : inflatelib_stream) (st : inflatelib_state) :
    Int × inflatelib_stream × inflatelib_state :=
  let o := window_copy_output st.window s.avail_out
  let s1 := stream_emit s o.1
  let st1 : inflatelib_state := { st with window := o.2 }
  let r := rc_loop (8 * st1.bitstream.data.length + s1.avail_out + 2 * WSIZE + 64) s1 st1
  let o2 := window_copy_output r.2.2.window r.2.1.avail_out
  (r.1, stream_emit r.2.1 o2.1, { r.2.2 with window := o2.2 })

/-- The `switch (state->btype)` block of `inflater_process_data`; `.inl` is
an immediate `return`, `.inr` falls to the do-while condition. -/
def ipd_block (s : inflatelib_stream) (st : inflatelib_state) :
    (Int × inflatelib_stream × inflatelib_state) ⊕
      (Int × inflatelib_stream × inflatelib_state) :=
  if st.btype = 0 then .inr (inflater_read_uncompressed s st)
  else if st.btype = 2 ∧ st.ifstate.idx < (inflate_state.reading_literal_length_code).idx then
    let rh := inflater_read_dynamic_header s st
    if rh.1 < 0 then .inl rh
    else if rh.2.2.ifstate.idx < (inflate_state.reading_literal_length_code).idx then
      .inl (INFLATELIB_OK, rh.2.1, rh.2.2)
    else .inr (inflater_read_compressed rh.2.1 rh.2.2)
  else .inr (inflater_read_compressed s st)

/-- `case ifstate_reading_btype` of the first switch (falls through into the
block dispatch). -/
def ipd_btype (s : inflatelib_stream) (st : inflatelib_state) :
    (Int × inflatelib_stream × inflatelib_state) ⊕
      (Int × inflatelib_stream × inflatelib_state) :=
  match bitstream_read_bits st.bitstream 2 with
  | none => .inl (INFLATELIB_OK, s, st)
  | some vbs =>
    if vbs.1 > 2 then
      .inl (INFLATELIB_ERROR_DATA,
        { s with error_msg := some "Unexpected block type" },
        { st with bitstream := vbs.2 })
    else
      let st1 : inflatelib_state := { st with bitstream := vbs.2, btype := vbs.1 }
      let st2 : inflatelib_state :=
        if vbs.1 = 0 then
          { st1 with
            bitstream := bitstream_byte_align st1.bitstream,
            ifstate := .reading_uncompressed_block_len }
        else if vbs.1 = 1 then
          inflater_init_static_tables { st1 with ifstate := .reading_literal_length_code }
        else { st1 with ifstate := .reading_num_lit_codes }
      ipd_block s st2

/-- One full iteration of the `do { ... }` body of `inflater_process_data`. -/
def ipd_iter (s : inflatelib_stream) (st : inflatelib_state) :
    (Int × inflatelib_stream × inflatelib_state) ⊕
      (Int × inflatelib_stream × inflatelib_state) :=
  match st.ifstate with
  | .reading_bfinal =>
    match bitstream_read_bits st.bitstream 1 with
    | none => .inl (INFLATELIB_OK, s, st)
    | some vbs =>
      ipd_btype s { st with bitstream := vbs.2, bfinal := vbs.1, ifstate := .reading_btype }
  | .reading_btype => ipd_btype s st
  | .eof => .inl (INFLATELIB_EOF, s, st)
  | _ => ipd_block s st

/-- The `do ... while ((result == INFLATELIB_OK) && (state->ifstate ==
ifstate_reading_bfinal))` loop (fuelled; each continuing iteration consumes
at least one bit). -/
def inflater_process_data_loop : Nat → inflatelib_stream → inflatelib_state →
    Int × inflatelib_stream × inflatelib_state
  | 0, s, st => (INFLATELIB_OK, s, st)
  | fuel + 1, s, st =>
    match ipd_iter s st with
    | .inl r => r
    | .inr r =>
      if r.1 = INFLATELIB_OK ∧ r.2.2.ifstate = .reading_bfinal then
        inflater_process_data_loop fuel r.2.1 r.2.2
      else r

/-- `inflater_process_data` from inflate.c. -/
def inflater_process_data (s : inflatelib_stream) (st : inflatelib_state) :
    Int × inflatelib_stream × inflatelib_state :=
  let r := inflater_process_data_loop (st.bitstream.avail + 2) s st
  if r.1 = INFLATELIB_OK ∧ r.2.2.ifstate = .eof then (INFLATELIB_EOF, r.2.1, r.2.2)
  else r

/-- `do_inflate` from inflate.c: attach the input, process, then update the
totals and pointers unconditionally (also on failure). -/
def do_inflate (s : inflatelib_stream) (st : inflatelib_state) : Int × inflatelib_stream :=
  let initialOutSize := s.avail_out
  let availIn := s.next_in.length
  let r := inflater_process_data s { st with bitstream := bitstream_set_data st.bitstream s.next_in }
  let s1 := r.2.1
  let st1 := r.2.2
  let s2 : inflatelib_stream :=
    { s1 with
      total_out := s1.total_out + (initialOutSize - s1.avail_out),
      total_in := s1.total_in + (availIn - st1.bitstream.data.length),
      next_in := st1.bitstream.data,
      internal := some { st1 with bitstream := { st1.bitstream with data := [] } } }
  (r.1, s2)

/-- `inflatelib_inflate` from inflate.c. -/
def inflatelib_inflate (s : inflatelib_stream) : Int × inflatelib_stream :=
  match s.internal with
  | none =>
    (INFLATELIB_ERROR_ARG,
     { s with
       error_msg := some "Internal state is null; ensure inflatelib_init has been called first" })
  | some st =>
    if st.ifstate = .init then
      do_inflate s { st with mode := INFLATELIB_MODE_DEFLATE, ifstate := .reading_bfinal }
    else if st.mode ≠ INFLATELIB_MODE_DEFLATE then
      (INFLATELIB_ERROR_ARG,
       { s with
         error_msg := some "inflatelib_stream is initialized for Deflate64 and cannot be called with Deflate encoded data. First call inflatelib_reset to reset the stream" })
    else do_inflate s st

/-- `inflatelib_inflate64` from inflate.c. -/
def inflatelib_inflate64 (s : inflatelib_stream) : Int × inflatelib_stream :=
  match s.internal with
  | none =>
    (INFLATELIB_ERROR_ARG,
     { s with
       error_msg := some "Internal state is null; ensure inflatelib_init has been called first" })
  | some st =>
    if st.ifstate = .init then
      do_inflate s { st with mode := INFLATELIB_MODE_DEFLATE64, ifstate := .reading_bfinal }
    else if st.mode ≠ INFLATELIB_MODE_DEFLATE64 then
      (INFLATELIB_ERROR_ARG,
       { s with
         error_msg := some "inflatelib_stream is initialized for Deflate and cannot be called with Deflate64 encoded data. First call inflatelib_reset to reset the stream" })
    else do_inflate s st

/-- C7: a stream is bound to DEFLATE resp. DEFLATE64 by its first
inflate/inflate64 call after init or reset (the `ifstate_init` branch sets
`mode` before decoding); afterwards, calling the other entry point without
an intervening reset returns the argument-error code and only sets
`error_msg` — the returned stream is literally the input stream with a new
`error_msg`, so no input is consumed, no output is written, and the totals,
pointers and the whole internal state are unchanged. -/
theorem C7_mode_binding (s : inflatelib_stream) (st : inflatelib_state)
    (hint : s.internal = some st) :
    (st.ifstate = .init →
      inflatelib_inflate s
        = do_inflate s { st with mode := INFLATELIB_MODE_DEFLATE, ifstate := .reading_bfinal } ∧
      inflatelib_inflate64 s
        = do_inflate s { st with mode := INFLATELIB_MODE_DEFLATE64, ifstate := .reading_bfinal }) ∧
    (st.ifstate ≠ .init → st.mode = INFLATELIB_MODE_DEFLATE64 →
      inflatelib_inflate s =
        (INFLATELIB_ERROR_ARG,
         { s with error_msg := some "inflatelib_stream is initialized for Deflate64 and cannot be called with Deflate encoded data. First call inflatelib_reset to reset the stream" })) ∧
    (st.ifstate ≠ .init → st.mode = INFLATELIB_MODE_DEFLATE →
      inflatelib_inflate64 s =
        (INFLATELIB_ERROR_ARG,
         { s with error_msg := some "inflatelib_stream is initialized for Deflate and cannot be called with Deflate64 encoded data. First call inflatelib_reset to reset the stream" })) := by
  refine ⟨?_, ?_, ?_⟩
  · intro h
    constructor
    · simp only [inflatelib_inflate, hint]
      rw [if_pos h]
    · simp only [inflatelib_inflate64, hint]
      rw [if_pos h]
  · intro h hm
    simp only [inflatelib_inflate, hint]
    rw [if_neg h, if_pos (by rw [hm]; decide)]
  · intro h hm
    simp only [inflatelib_inflate64, hint]
    rw [if_neg h, if_pos (by rw [hm]; decide)]

/-- Witness for C7: a stream bound to DEFLATE64 (mode 1, past init) rejects
`inflatelib_inflate` with the argument error, leaving everything but
`error_msg` unchanged. -/
theorem C7_witness :
    inflatelib_inflate
      { next_in := [], total_in := 0, out_data := [], avail_out := 0, total_out := 0,
        error_msg := none, user_data := 0, alloc := 0, free := 0,
        internal := some { inflatelib_init_state (fun _ => 0) (fun _ => ⟨0, 0⟩)
          (fun _ => ⟨0, 0⟩) (fun _ => ⟨0, 0⟩) with
            mode := INFLATELIB_MODE_DEFLATE64, ifstate := .reading_bfinal } }
      = (INFLATELIB_ERROR_ARG,
         { next_in := [], total_in := 0, out_data := [], avail_out := 0, total_out := 0,
           error_msg := some "inflatelib_stream is initialized for Deflate64 and cannot be called with Deflate encoded data. First call inflatelib_reset to reset the stream",
           user_data := 0, alloc := 0, free := 0,
           internal := some { inflatelib_init_state (fun _ => 0) (fun _ => ⟨0, 0⟩)
             (fun _ => ⟨0, 0⟩) (fun _ => ⟨0, 0⟩) with
               mode := INFLATELIB_MODE_DEFLATE64, ifstate := .reading_bfinal } }) :=
  (C7_mode_binding _ _ rfl).2.1 (by decide) rfl

/-- C4 (corrected): `inflatelib_reset` on an initialized stream succeeds and
returns the decode-relevant state to its post-init value — the bitstream and
`ifstate` equal those of `inflatelib_init_state` and the window cursors are
zeroed — without reallocation (the same `internal` state and tree storage
are kept) and preserving `alloc`/`free`/`user_data`; however the public
`total_in`/`total_out` fields are NOT reset (no code path ever resets them),
so after a reset they keep counting all bytes since init: the claim's "count
only bytes consumed and written since that reset" does not hold (see
`C4_counterexample`). -/
theorem C4_reset_to_post_init (s : inflatelib_stream) (st : inflatelib_state)
    (hint : s.internal = some st) :
    ∃ st',
      inflatelib_reset s = (INFLATELIB_OK, { s with internal := some st' }) ∧
      st'.bitstream = bitstream_reset ∧
      st'.window = window_reset st.window ∧
      st'.ifstate = .init ∧
      st'.window.read_offset = 0 ∧
      st'.window.write_offset = 0 ∧
      st'.window.unconsumed_bytes = 0 ∧
      st'.window.total_bytes = 0 ∧
      st'.code_length_tree = st.code_length_tree ∧
      st'.literal_length_tree = st.literal_length_tree ∧
      st'.distance_tree = st.distance_tree ∧
      (∀ wd cd ld dd,
        st'.bitstream = (inflatelib_init_state wd cd ld dd).bitstream ∧
        st'.ifstate = (inflatelib_init_state wd cd ld dd).ifstate) ∧
      (inflatelib_reset s).2.total_in = s.total_in ∧
      (inflatelib_reset s).2.total_out = s.total_out ∧
      (inflatelib_reset s).2.alloc = s.alloc ∧
      (inflatelib_reset s).2.free = s.free ∧
      (inflatelib_reset s).2.user_data = s.user_data ∧
      (inflatelib_reset s).2.next_in = s.next_in ∧
      (inflatelib_reset s).2.out_data = s.out_data := by
  refine ⟨{ st with bitstream := bitstream_reset, window := window_reset st.window, ifstate := .init },
    ?_, rfl, rfl, rfl, rfl, rfl, rfl, rfl, rfl, rfl, rfl,
    fun wd cd ld dd => ⟨rfl, rfl⟩, ?_, ?_, ?_, ?_, ?_, ?_, ?_⟩
  · simp only [inflatelib_reset, hint]
  all_goals simp only [inflatelib_reset, hint]

/-- Witness for C4 at a concrete initialized stream with nonzero totals:
reset succeeds and the totals survive unchanged. -/
theorem C4_witness :
    ∃ st',
      inflatelib_reset
        { next_in := [7], total_in := 5, out_data := [9], avail_out := 3, total_out := 11,
          error_msg := none, user_data := 1, alloc := 2, free := 3,
          internal := some (inflatelib_init_state (fun _ => 0) (fun _ => ⟨0, 0⟩)
            (fun _ => ⟨0, 0⟩) (fun _ => ⟨0, 0⟩)) }
        = (INFLATELIB_OK,
           { next_in := [7], total_in := 5, out_data := [9], avail_out := 3, total_out := 11,
             error_msg := none, user_data := 1, alloc := 2, free := 3,
             internal := some st' }) ∧
      st'.ifstate = .init ∧ st'.window.total_bytes = 0 := by
  obtain ⟨st', h1, _, _, h4, _, _, _, h8, _⟩ :=
    C4_reset_to_post_init
      { next_in := [7], total_in := 5, out_data := [9], avail_out := 3, total_out := 11,
        error_msg := none, user_data := 1, alloc := 2, free := 3,
        internal := some (inflatelib_init_state (fun _ => 0) (fun _ => ⟨0, 0⟩)
          (fun _ => ⟨0, 0⟩) (fun _ => ⟨0, 0⟩)) }
      (inflatelib_init_state (fun _ => 0) (fun _ => ⟨0, 0⟩)
        (fun _ => ⟨0, 0⟩) (fun _ => ⟨0, 0⟩)) rfl
  exact ⟨st', h1, h4, h8⟩

/-- C6: in DEFLATE mode, distance symbols 30 and 31 have table base 0 and
decoding either of them is a data error; in DEFLATE64 mode the same symbols
are valid, yielding `block_distance = 32769` (symbol 30) resp. `49153`
(symbol 31) plus the value of a following 14-bit extra field.  Stated on
`inflate_tables` and on the distance-code/extra-bits steps of
`inflater_read_compressed`. -/
theorem C6_distance_symbols_30_31 :
    (tables_distances INFLATELIB_MODE_DEFLATE 30 = (0, 0) ∧
     tables_distances INFLATELIB_MODE_DEFLATE 31 = (0, 0) ∧
     tables_distances INFLATELIB_MODE_DEFLATE64 30 = (32769, 14) ∧
     tables_distances INFLATELIB_MODE_DEFLATE64 31 = (49153, 14)) ∧
    (∀ (s : inflatelib_stream) (st : inflatelib_state) (sym : Nat) (bs1 : bitstream),
      st.mode = INFLATELIB_MODE_DEFLATE →
      huffman_tree_lookup st.distance_tree st.bitstream = (.found sym, bs1) →
      sym = 30 ∨ sym = 31 →
      rc_distance_code s st =
        (INFLATELIB_ERROR_DATA, false,
         { s with error_msg := some "Distance code is not valid in Deflate" },
         { st with bitstream := bs1, c_block_distance := 0, c_extra_bits := 0 })) ∧
    (∀ (s : inflatelib_stream) (st : inflatelib_state) (sym v : Nat) (bs1 bs2 : bitstream),
      st.mode = INFLATELIB_MODE_DEFLATE64 →
      huffman_tree_lookup st.distance_tree st.bitstream = (.found sym, bs1) →
      sym = 30 ∨ sym = 31 →
      bitstream_read_bits bs1 14 = some (v, bs2) →
      rc_distance_code s st =
        rc_copy_ld s
          { st with
            bitstream := bs2,
            c_block_distance := (if sym = 30 then 32769 else 49153) + v,
            c_extra_bits := 14 }) := by
  refine ⟨⟨by decide, by decide, by decide, by decide⟩, ?_, ?_⟩
  · intro s st sym bs1 hm hlook h3031
    simp only [rc_distance_code, hlook]
    rcases h3031 with rfl | rfl
    · rw [hm]
      have ht : tables_distances INFLATELIB_MODE_DEFLATE 30 = (0, 0) := by decide
      rw [ht]
      rw [if_pos rfl]
    · rw [hm]
      have ht : tables_distances INFLATELIB_MODE_DEFLATE 31 = (0, 0) := by decide
      rw [ht]
      rw [if_pos rfl]
  · intro s st sym v bs1 bs2 hm hlook h3031 hread
    simp only [rc_distance_code, hlook]
    rcases h3031 with rfl | rfl
    · rw [hm]
      have ht : tables_distances INFLATELIB_MODE_DEFLATE64 30 = (32769, 14) := by decide
      rw [ht]
      rw [if_neg (by decide)]
      simp only [rc_distance_extra, if_pos (by decide : (0 < ((32769, 14) : Nat × Nat).2)), hread]
      rw [if_pos trivial]
    · rw [hm]
      have ht : tables_distances INFLATELIB_MODE_DEFLATE64 31 = (49153, 14) := by decide
      rw [ht]
      rw [if_neg (by decide)]
      simp only [rc_distance_extra, if_pos (by decide : (0 < ((49153, 14) : Nat × Nat).2)), hread]
      rw [if_neg (by decide)]

/-- Witness for C6: a one-entry distance tree that decodes symbol 30 from a
single bit; in mode DEFLATE the step data-errors, in mode DEFLATE64 it
reads 14 extra bits of value 0 and proceeds with distance 32769. -/
theorem C6_witness :
    (huffman_tree_lookup (⟨7, fun _ => ⟨1, 30⟩⟩ : huffman_tree) ⟨[0, 0], 0, 1⟩
        = (.found 30, ⟨[0, 0], 0, 0⟩) ∧
      bitstream_read_bits ⟨[0, 0], 0, 0⟩ 14 = some (0, ⟨[], 0, 2⟩)) ∧
    rc_distance_code
      { next_in := [], total_in := 0, out_data := [], avail_out := 0, total_out := 0,
        error_msg := none, user_data := 0, alloc := 0, free := 0, internal := none }
      { inflatelib_init_state (fun _ => 0) (fun _ => ⟨0, 0⟩) (fun _ => ⟨0, 0⟩)
          (fun _ => ⟨0, 0⟩) with
        mode := INFLATELIB_MODE_DEFLATE,
        distance_tree := ⟨7, fun _ => ⟨1, 30⟩⟩,
        bitstream := ⟨[0, 0], 0, 1⟩ }
      = (INFLATELIB_ERROR_DATA, false,
         { next_in := [], total_in := 0, out_data := [], avail_out := 0, total_out := 0,
           error_msg := some "Distance code is not valid in Deflate", user_data := 0,
           alloc := 0, free := 0, internal := none },
         { inflatelib_init_state (fun _ => 0) (fun _ => ⟨0, 0⟩) (fun _ => ⟨0, 0⟩)
             (fun _ => ⟨0, 0⟩) with
           mode := INFLATELIB_MODE_DEFLATE,
           distance_tree := ⟨7, fun _ => ⟨1, 30⟩⟩,
           bitstream := ⟨[0, 0], 0, 0⟩,
           c_block_distance := 0, c_extra_bits := 0 }) ∧
    rc_distance_code
      { next_in := [], total_in := 0, out_data := [], avail_out := 0, total_out := 0,
        error_msg := none, user_data := 0, alloc := 0, free := 0, internal := none }
      { inflatelib_init_state (fun _ => 0) (fun _ => ⟨0, 0⟩) (fun _ => ⟨0, 0⟩)
          (fun _ => ⟨0, 0⟩) with
        mode := INFLATELIB_MODE_DEFLATE64,
        distance_tree := ⟨7, fun _ => ⟨1, 30⟩⟩,
        bitstream := ⟨[0, 0], 0, 1⟩ }
      = rc_copy_ld
          { next_in := [], total_in := 0, out_data := [], avail_out := 0, total_out := 0,
            error_msg := none, user_data := 0, alloc := 0, free := 0, internal := none }
          { inflatelib_init_state (fun _ => 0) (fun _ => ⟨0, 0⟩) (fun _ => ⟨0, 0⟩)
              (fun _ => ⟨0, 0⟩) with
            mode := INFLATELIB_MODE_DEFLATE64,
            distance_tree := ⟨7, fun _ => ⟨1, 30⟩⟩,
            bitstream := ⟨[], 0, 2⟩,
            c_block_distance := 32769 + 0, c_extra_bits := 14 } := by
  refine ⟨⟨rfl, rfl⟩, ?_, ?_⟩
  · refine C6_distance_symbols_30_31.2.1 _ _ 30 _ ?_ ?_ (Or.inl rfl)
    · rfl
    · rfl
  · refine C6_distance_symbols_30_31.2.2 _ _ 30 0 ⟨[0, 0], 0, 0⟩ ⟨[], 0, 2⟩ ?_ ?_ (Or.inl rfl) ?_
    · rfl
    · rfl
    · rfl

/-- C10: a dynamic header with HLIT at its maximum describes 288
literal/length codes, so symbols 286 and 287 may receive nonzero lengths;
any such (non-over-subscribed) vector builds the literal/length table
without error, and the "invalid symbol" data error arises only when a
symbol above 285 is actually decoded from the payload: the decode step
errors exactly for symbols above 285 and proceeds normally (to the length
tables) for symbols 257-285, to the literal path below 256 and to
end-of-block for 256. -/
theorem C10_288_symbol_table :
    (∀ (t : huffman_tree) (v : List Nat),
      v.length = 288 → v.getD 286 0 ≠ 0 → v.getD 287 0 ≠ 0 →
      (∀ l, 1 ≤ l → l ≤ 15 → nextCodeF (fun x => v.count x) l + v.count l ≤ 2 ^ l) →
      ∃ t', huffman_tree_reset t v = .ok t') ∧
    (∀ (s : inflatelib_stream) (st : inflatelib_state),
      (st.c_symbol > 285 →
        rc_decoding_lit s st =
          (INFLATELIB_ERROR_DATA, false,
           { s with error_msg := some "Invalid symbol from literal/length tree" }, st)) ∧
      (257 ≤ st.c_symbol → st.c_symbol ≤ 285 →
        rc_decoding_lit s st =
          rc_length_extra s
            { st with
              c_block_length := (tables_lengths st.mode (st.c_symbol - 257)).1,
              c_extra_bits := (tables_lengths st.mode (st.c_symbol - 257)).2 })) := by
  refine ⟨?_, ?_⟩
  · intro t v _ _ _ hacc
    exact huffman_tree_reset_ok t v hacc
  · intro s st
    constructor
    · intro h
      rw [rc_decoding_lit, if_neg (by omega), if_neg (by omega), if_pos (by omega)]
    · intro h1 h2
      rw [rc_decoding_lit, if_neg (by omega), if_neg (by omega), if_neg (by omega)]

set_option maxRecDepth 4096 in
/-- Witness for C10: the all-9s vector assigns codes to all 288 symbols
(including 286 and 287) and builds; decoding symbol 287 errors while
symbol 285 proceeds to the length table. -/
theorem C10_witness :
    (∃ t', huffman_tree_reset ⟨9, fun _ => ⟨0, 0⟩⟩ (List.replicate 288 9) = .ok t') ∧
    rc_decoding_lit
      { next_in := [], total_in := 0, out_data := [], avail_out := 0, total_out := 0,
        error_msg := none, user_data := 0, alloc := 0, free := 0, internal := none }
      { inflatelib_init_state (fun _ => 0) (fun _ => ⟨0, 0⟩) (fun _ => ⟨0, 0⟩)
          (fun _ => ⟨0, 0⟩) with c_symbol := 287 }
      = (INFLATELIB_ERROR_DATA, false,
         { next_in := [], total_in := 0, out_data := [], avail_out := 0, total_out := 0,
           error_msg := some "Invalid symbol from literal/length tree", user_data := 0,
           alloc := 0, free := 0, internal := none },
         { inflatelib_init_state (fun _ => 0) (fun _ => ⟨0, 0⟩) (fun _ => ⟨0, 0⟩)
             (fun _ => ⟨0, 0⟩) with c_symbol := 287 }) ∧
    rc_decoding_lit
      { next_in := [], total_in := 0, out_data := [], avail_out := 0, total_out := 0,
        error_msg := none, user_data := 0, alloc := 0, free := 0, internal := none }
      { inflatelib_init_state (fun _ => 0) (fun _ => ⟨0, 0⟩) (fun _ => ⟨0, 0⟩)
          (fun _ => ⟨0, 0⟩) with c_symbol := 285 }
      = rc_length_extra
          { next_in := [], total_in := 0, out_data := [], avail_out := 0, total_out := 0,
            error_msg := none, user_data := 0, alloc := 0, free := 0, internal := none }
          { inflatelib_init_state (fun _ => 0) (fun _ => ⟨0, 0⟩) (fun _ => ⟨0, 0⟩)
              (fun _ => ⟨0, 0⟩) with
            c_symbol := 285,
            c_block_length := (tables_lengths 0 (285 - 257)).1,
            c_extra_bits := (tables_lengths 0 (285 - 257)).2 } := by
  refine ⟨?_, ?_, ?_⟩
  · exact (C10_288_symbol_table).1 ⟨9, fun _ => ⟨0, 0⟩⟩ (List.replicate 288 9)
      (by decide) (by decide) (by decide)
      (by intro l h1 h2; interval_cases l <;> decide)
  · exact ((C10_288_symbol_table).2 _ _).1 (by decide)
  · exact ((C10_288_symbol_table).2 _ _).2 (by decide) (by decide)

/-- `inflater_process_data_loop` exits after one iteration when the
iteration result is not (OK, reading_bfinal) (the do-while condition). -/
theorem ipdl_exit (fuel : Nat) (s : inflatelib_stream) (st : inflatelib_state)
    (r : Int × inflatelib_stream × inflatelib_state)
    (h : ipd_iter s st = .inr r)
    (hne : ¬(r.1 = INFLATELIB_OK ∧ r.2.2.ifstate = .reading_bfinal)) :
    inflater_process_data_loop (fuel + 1) s st = r := by
  simp only [inflater_process_data_loop, h]
  exact if_neg hne

/-- `inflater_process_data` converts an OK result in the `eof` state into
the EOF return code. -/
theorem ipd_eof (s : inflatelib_stream) (st : inflatelib_state)
    (r : Int × inflatelib_stream × inflatelib_state)
    (h : inflater_process_data_loop (st.bitstream.avail + 2) s st = r)
    (h2 : r.1 = INFLATELIB_OK) (h3 : r.2.2.ifstate = .eof) :
    inflater_process_data s st = (INFLATELIB_EOF, r.2.1, r.2.2) := by
  simp only [inflater_process_data, h]
  rw [if_pos ⟨h2, h3⟩]

/-- `do_inflate` in terms of the result of `inflater_process_data`: the
totals and input pointer are updated unconditionally from the consumed and
written byte counts, whatever the result code. -/
theorem do_inflate_eq (s : inflatelib_stream) (st : inflatelib_state)
    (r : Int × inflatelib_stream × inflatelib_state)
    (h : inflater_process_data s
        { st with bitstream := bitstream_set_data st.bitstream s.next_in } = r) :
    do_inflate s st =
      (r.1,
       { r.2.1 with
         total_out := r.2.1.total_out + (s.avail_out - r.2.1.avail_out),
         total_in := r.2.1.total_in + (s.next_in.length - r.2.2.bitstream.data.length),
         next_in := r.2.2.bitstream.data,
         internal := some { r.2.2 with
           bitstream := { r.2.2.bitstream with
             data := [] } } }) := by
  simp only [do_inflate, h]

/-- The `ifstate_init` branch of `inflatelib_inflate`: the first call binds
the stream to DEFLATE and starts decoding. -/
theorem inflatelib_inflate_init (s : inflatelib_stream) (st : inflatelib_state)
    (hint : s.internal = some st) (hini : st.ifstate = .init) :
    inflatelib_inflate s
      = do_inflate s { st with
          mode := INFLATELIB_MODE_DEFLATE,
          ifstate := .reading_bfinal } := by
  simp only [inflatelib_inflate, hint]
  rw [if_pos hini]

/-- One `ipd_iter` on the 5-byte empty stored block from the fresh state:
reads BFINAL=1, BTYPE=00, byte-aligns, reads LEN=0 and NLEN=0xFFFF, copies
zero bytes and reaches `eof` without touching the output stream. -/
theorem ipd_iter_empty_stored (wd : Nat → Nat) (cd ld dd : Nat → huffman_table_entry)
    (od : List Nat) (aout tin tout ud al fr : Nat) (em : Option String) :
    ipd_iter
      ⟨[1, 0, 0, 255, 255], tin, od, aout, tout, em, ud, al, fr,
       some (inflatelib_init_state wd cd ld dd)⟩
      ⟨⟨[1, 0, 0, 255, 255], 0, 0⟩, window_init wd, .reading_bfinal, 0, 0,
       INFLATELIB_MODE_DEFLATE, ⟨7, cd⟩, ⟨9, ld⟩, ⟨7, dd⟩, 0, 0, 0, 0, 0, 0,
       fun _ => 0, 0, 0, 0, 0⟩
      = .inr (INFLATELIB_OK,
         ⟨[1, 0, 0, 255, 255], tin, od, aout, tout, em, ud, al, fr,
          some (inflatelib_init_state wd cd ld dd)⟩,
         ⟨⟨[], 0, 0⟩, window_init wd, .eof, 0, 1, INFLATELIB_MODE_DEFLATE,
          ⟨7, cd⟩, ⟨9, ld⟩, ⟨7, dd⟩, 0, 0, 0, 0, 0, 0, fun _ => 0, 0, 0, 0, 0⟩) := by
  simp [ipd_iter, ipd_btype, ipd_block, inflater_read_uncompressed, iru_len,
    iru_complement, iru_data, bitstream_read_bits, bitstream_consume_bits,
    bitstream.avail, bitstream.bitsValue, bytesVal, bitstream_byte_align,
    window_copy_bytes, window_copy_output, stream_emit, window_init]

/-- C8: decoding the five bytes `01 00 00 FF FF` — a final (`BFINAL = 1`)
stored (`BTYPE = 00`) block of length zero — on a freshly initialised
stream via `inflatelib_inflate`, with any output buffer size, any prior
output/totals and any tree/window array contents, returns the EOF status,
writes no output (`out_data`, `avail_out`, `total_out` unchanged), consumes
exactly the five input bytes (`total_in` grows by 5, `next_in` empties) and
leaves the decoder in the `eof` state. -/
theorem C8_empty_stored_block (wd : Nat → Nat) (cd ld dd : Nat → huffman_table_entry)
    (od : List Nat) (aout tin tout ud al fr : Nat) (em : Option String) :
    inflatelib_inflate
        ⟨[1, 0, 0, 255, 255], tin, od, aout, tout, em, ud, al, fr,
         some (inflatelib_init_state wd cd ld dd)⟩
      = (INFLATELIB_EOF,
         ⟨[], tin + 5, od, aout, tout, em, ud, al, fr,
          some ⟨⟨[], 0, 0⟩, window_init wd, .eof, 0, 1, INFLATELIB_MODE_DEFLATE,
            ⟨7, cd⟩, ⟨9, ld⟩, ⟨7, dd⟩, 0, 0, 0, 0, 0, 0, fun _ => 0, 0, 0, 0, 0⟩⟩) := by
  have hloop : inflater_process_data_loop 42
      ⟨[1, 0, 0, 255, 255], tin, od, aout, tout, em, ud, al, fr,
       some (inflatelib_init_state wd cd ld dd)⟩
      ⟨⟨[1, 0, 0, 255, 255], 0, 0⟩, window_init wd, .reading_bfinal, 0, 0,
       INFLATELIB_MODE_DEFLATE, ⟨7, cd⟩, ⟨9, ld⟩, ⟨7, dd⟩, 0, 0, 0, 0, 0, 0,
       fun _ => 0, 0, 0, 0, 0⟩
      = (INFLATELIB_OK,
         ⟨[1, 0, 0, 255, 255], tin, od, aout, tout, em, ud, al, fr,
          some (inflatelib_init_state wd cd ld dd)⟩,
         ⟨⟨[], 0, 0⟩, window_init wd, .eof, 0, 1, INFLATELIB_MODE_DEFLATE,
          ⟨7, cd⟩, ⟨9, ld⟩, ⟨7, dd⟩, 0, 0, 0, 0, 0, 0, fun _ => 0, 0, 0, 0, 0⟩) :=
    ipdl_exit 41 _ _ _
      (ipd_iter_empty_stored wd cd ld dd od aout tin tout ud al fr em) (by simp)
  have hpd : inflater_process_data
      ⟨[1, 0, 0, 255, 255], tin, od, aout, tout, em, ud, al, fr,
       some (inflatelib_init_state wd cd ld dd)⟩
      ⟨⟨[1, 0, 0, 255, 255], 0, 0⟩, window_init wd, .reading_bfinal, 0, 0,
       INFLATELIB_MODE_DEFLATE, ⟨7, cd⟩, ⟨9, ld⟩, ⟨7, dd⟩, 0, 0, 0, 0, 0, 0,
       fun _ => 0, 0, 0, 0, 0⟩
      = (INFLATELIB_EOF,
         ⟨[1, 0, 0, 255, 255], tin, od, aout, tout, em, ud, al, fr,
          some (inflatelib_init_state wd cd ld dd)⟩,
         ⟨⟨[], 0, 0⟩, window_init wd, .eof, 0, 1, INFLATELIB_MODE_DEFLATE,
          ⟨7, cd⟩, ⟨9, ld⟩, ⟨7, dd⟩, 0, 0, 0, 0, 0, 0, fun _ => 0, 0, 0, 0, 0⟩) :=
    ipd_eof _ _ _ hloop rfl rfl
  rw [inflatelib_inflate_init _ (inflatelib_init_state wd cd ld dd) rfl rfl,
    do_inflate_eq _ _ _ hpd]
  simp


/-- Counterexample to the totals clause of C4: a full decode of the 5-byte
empty stored block leaves `total_in = 5`; after an `inflatelib_reset`
(which succeeds) a second identical decode leaves `total_in = 10`, not 5 —
the public totals are never reset, so after a reset they do NOT count only
the bytes consumed since that reset. -/
theorem C4_counterexample :
    (inflatelib_inflate
        ⟨[1, 0, 0, 255, 255], 0, [], 0, 0, none, 0, 0, 0,
         some (inflatelib_init_state (fun _ => 0) (fun _ => ⟨0, 0⟩) (fun _ => ⟨0, 0⟩)
           (fun _ => ⟨0, 0⟩))⟩).2.total_in = 5 ∧
    (inflatelib_reset
        { (inflatelib_inflate
            ⟨[1, 0, 0, 255, 255], 0, [], 0, 0, none, 0, 0, 0,
             some (inflatelib_init_state (fun _ => 0) (fun _ => ⟨0, 0⟩) (fun _ => ⟨0, 0⟩)
               (fun _ => ⟨0, 0⟩))⟩).2 with
          next_in := [1, 0, 0, 255, 255] }).1 = INFLATELIB_OK ∧
    (inflatelib_inflate
        (inflatelib_reset
          { (inflatelib_inflate
              ⟨[1, 0, 0, 255, 255], 0, [], 0, 0, none, 0, 0, 0,
               some (inflatelib_init_state (fun _ => 0) (fun _ => ⟨0, 0⟩) (fun _ => ⟨0, 0⟩)
                 (fun _ => ⟨0, 0⟩))⟩).2 with
            next_in := [1, 0, 0, 255, 255] }).2).2.total_in = 10 :=
  ⟨rfl, rfl, rfl⟩


/-! ### Accounting invariants (C5)

`stream_advances s s'` says the public stream moved forward by exactly the
bytes of some written block `w` (output grew by `w`, `avail_out` shrank by
`w.length`) while the input pointer and both totals were untouched;
`bs_advances b b'` says the bitstream's remaining byte slice only ever
shrinks by dropping consumed bytes from the front.  Every internal
inflater function preserves both, which grounds the unconditional
totals/pointer update of `do_inflate` on every return path, data errors
included. -/

/-- Verification predicate: output grew by exactly some block `w`,
`avail_out` shrank by `w.length`, input pointer and totals untouched. -/
def stream_advances (s s' : inflatelib_stream) : Prop :=
  (∃ w : List Nat, s'.out_data = s.out_data ++ w ∧ s'.avail_out + w.length = s.avail_out) ∧
  s'.next_in = s.next_in ∧ s'.total_in = s.total_in ∧ s'.total_out = s.total_out

/-- Verification predicate: the remaining byte slice is a drop of the
earlier one. -/
def bs_advances (b b' : bitstream) : Prop := ∃ k, b'.data = b.data.drop k

/-- Accounting for an `(result, stream, state)` triple. -/
def acct3 (s : inflatelib_stream) (st : inflatelib_state)
    (r : Int × inflatelib_stream × inflatelib_state) : Prop :=
  stream_advances s r.2.1 ∧ bs_advances st.bitstream r.2.2.bitstream

/-- Accounting for a `(result, keepGoing, stream, state)` quadruple. -/
def acct4 (s : inflatelib_stream) (st : inflatelib_state)
    (r : Int × Bool × inflatelib_stream × inflatelib_state) : Prop :=
  stream_advances s r.2.2.1 ∧ bs_advances st.bitstream r.2.2.2.bitstream

theorem sadv_refl (s : inflatelib_stream) : stream_advances s s :=
  ⟨⟨[], by simp, by simp⟩, rfl, rfl, rfl⟩

theorem sadv_trans {s1 s2 s3 : inflatelib_stream}
    (h1 : stream_advances s1 s2) (h2 : stream_advances s2 s3) :
    stream_advances s1 s3 := by
  obtain ⟨⟨w1, ho1, ha1⟩, hn1, hi1, ht1⟩ := h1
  obtain ⟨⟨w2, ho2, ha2⟩, hn2, hi2, ht2⟩ := h2
  refine ⟨⟨w1 ++ w2, ?_, ?_⟩, hn2.trans hn1, hi2.trans hi1, ht2.trans ht1⟩
  · rw [ho2, ho1, List.append_assoc]
  · rw [List.length_append]; omega

theorem sadv_err (s : inflatelib_stream) (m : String) :
    stream_advances s { s with error_msg := some m } :=
  ⟨⟨[], by simp, by simp⟩, rfl, rfl, rfl⟩

theorem sadv_emit (s : inflatelib_stream) (w : List Nat) (h : w.length ≤ s.avail_out) :
    stream_advances s (stream_emit s w) :=
  ⟨⟨w, rfl, by simp only [stream_emit]; omega⟩, rfl, rfl, rfl⟩

theorem wco_len (w : window) (n : Nat) : (window_copy_output w n).1.length ≤ n := by
  simp only [window_copy_output, List.length_map, List.length_range]
  omega

theorem sadv_wco (s : inflatelib_stream) (w : window) :
    stream_advances s (stream_emit s (window_copy_output w s.avail_out).1) :=
  sadv_emit s _ (wco_len w s.avail_out)

theorem bsadv_refl (b : bitstream) : bs_advances b b := ⟨0, by simp⟩

theorem bsadv_trans {b1 b2 b3 : bitstream}
    (h1 : bs_advances b1 b2) (h2 : bs_advances b2 b3) : bs_advances b1 b3 := by
  obtain ⟨k1, e1⟩ := h1
  obtain ⟨k2, e2⟩ := h2
  exact ⟨k1 + k2, by rw [e2, e1, List.drop_drop]⟩

theorem bsadv_consume (bs : bitstream) (n : Nat) :
    bs_advances bs (bitstream_consume_bits bs n) := by
  simp only [bitstream_consume_bits]
  split
  · exact ⟨0, by simp⟩
  · split
    · exact ⟨_, rfl⟩
    · exact ⟨_, rfl⟩

theorem bsadv_read (bs : bitstream) (n : Nat) (p : Nat × bitstream)
    (h : bitstream_read_bits bs n = some p) : bs_advances bs p.2 := by
  simp only [bitstream_read_bits] at h
  split at h
  · exact absurd h (by simp)
  · cases h
    exact bsadv_consume bs n

theorem bsadv_read_unchecked (bs : bitstream) (n : Nat) :
    bs_advances bs (bitstream_read_bits_unchecked bs n).2 :=
  bsadv_consume bs n

theorem bsadv_align (bs : bitstream) : bs_advances bs (bitstream_byte_align bs) :=
  ⟨0, by simp [bitstream_byte_align]⟩

theorem bsadv_copy_bytes (w : window) (bs : bitstream) (n : Nat) :
    bs_advances bs (window_copy_bytes w bs n).2.2 := by
  simp only [window_copy_bytes]
  exact ⟨_, rfl⟩

theorem bsadv_lookup (t : huffman_tree) (bs : bitstream) :
    bs_advances bs (huffman_tree_lookup t bs).2 := by
  simp only [huffman_tree_lookup]
  repeat' split
  all_goals first
    | exact bsadv_refl bs
    | exact bsadv_consume bs _

theorem bsadv_lookupU (t : huffman_tree) (bs : bitstream) :
    bs_advances bs (huffman_tree_lookup_unchecked t bs).2 := by
  simp only [huffman_tree_lookup_unchecked]
  repeat' split
  all_goals first
    | exact bsadv_refl bs
    | exact bsadv_consume bs _

theorem acct3_comp {s : inflatelib_stream} {st : inflatelib_state}
    {s1 : inflatelib_stream} {st1 : inflatelib_state}
    (r : Int × inflatelib_stream × inflatelib_state)
    (h1 : stream_advances s s1) (h2 : bs_advances st.bitstream st1.bitstream)
    (h3 : acct3 s1 st1 r) : acct3 s st r :=
  ⟨sadv_trans h1 h3.1, bsadv_trans h2 h3.2⟩

theorem iru_data_acct (s : inflatelib_stream) (st : inflatelib_state) :
    acct3 s st (iru_data s st) := by
  simp only [iru_data, acct3]
  split
  · exact ⟨sadv_wco s (window_copy_bytes st.window st.bitstream st.u_block_len).2.1,
      bsadv_copy_bytes st.window st.bitstream st.u_block_len⟩
  · exact ⟨sadv_wco s (window_copy_bytes st.window st.bitstream st.u_block_len).2.1,
      bsadv_copy_bytes st.window st.bitstream st.u_block_len⟩

theorem iru_complement_acct (s : inflatelib_stream) (st : inflatelib_state) :
    acct3 s st (iru_complement s st) := by
  simp only [iru_complement]
  split
  · exact ⟨sadv_refl s, bsadv_refl _⟩
  · rename_i vbs heq
    have hb : bs_advances st.bitstream vbs.2 := bsadv_read _ _ _ heq
    split
    · exact ⟨sadv_err s _, hb⟩
    · exact acct3_comp _ (sadv_refl s) hb (iru_data_acct s _)

theorem iru_len_acct (s : inflatelib_stream) (st : inflatelib_state) :
    acct3 s st (iru_len s st) := by
  simp only [iru_len]
  split
  · exact ⟨sadv_refl s, bsadv_refl _⟩
  · rename_i vbs heq
    exact acct3_comp _ (sadv_refl s) (bsadv_read _ _ _ heq) (iru_complement_acct s _)

theorem iru_acct (s : inflatelib_stream) (st : inflatelib_state) :
    acct3 s st (inflater_read_uncompressed s st) := by
  simp only [inflater_read_uncompressed]
  split
  · exact iru_len_acct s st
  · exact iru_complement_acct s st
  · exact iru_data_acct s st
  · exact ⟨sadv_refl s, bsadv_refl _⟩

theorem irdh_clen_loop_acct (s : inflatelib_stream) (st : inflatelib_state) :
    (irdh_clen_loop s st).2.1 = s ∧
    bs_advances st.bitstream (irdh_clen_loop s st).2.2.bitstream := by
  have H : ∀ n st2, st2.dc_clen_count - st2.dc_loop_counter ≤ n →
      (irdh_clen_loop s st2).2.1 = s ∧
      bs_advances st2.bitstream (irdh_clen_loop s st2).2.2.bitstream := by
    intro n
    induction n with
    | zero =>
      intro st2 hn
      unfold irdh_clen_loop
      rw [dif_neg (by omega)]
      exact ⟨rfl, bsadv_refl _⟩
    | succ n ih =>
      intro st2 hn
      by_cases hlt : st2.dc_loop_counter < st2.dc_clen_count
      · unfold irdh_clen_loop
        rw [dif_pos hlt]
        split
        · exact ⟨rfl, bsadv_refl _⟩
        · rename_i vbs heq
          have hrec := ih
            { st2 with
              bitstream := vbs.2,
              dc_code_lengths := fun j =>
                if j = code_order.getD st2.dc_loop_counter 0 then vbs.1
                else st2.dc_code_lengths j,
              dc_loop_counter := st2.dc_loop_counter + 1 }
            (by simp; omega)
          exact ⟨hrec.1, bsadv_trans (bsadv_read _ _ _ heq) hrec.2⟩
      · unfold irdh_clen_loop
        rw [dif_neg hlt]
        exact ⟨rfl, bsadv_refl _⟩
  exact H _ st le_rfl

theorem irdh_zero_loop_bitstream (st : inflatelib_state) :
    (irdh_zero_loop st).bitstream = st.bitstream := by
  have H : ∀ n st2, 19 - st2.dc_loop_counter ≤ n →
      (irdh_zero_loop st2).bitstream = st2.bitstream := by
    intro n
    induction n with
    | zero =>
      intro st2 hn
      unfold irdh_zero_loop
      rw [dif_neg (by omega)]
    | succ n ih =>
      intro st2 hn
      by_cases hlt : st2.dc_loop_counter < 19
      · unfold irdh_zero_loop
        rw [dif_pos hlt]
        exact ih
          { st2 with
            dc_code_lengths := fun j =>
              if j = code_order.getD st2.dc_loop_counter 0 then 0
              else st2.dc_code_lengths j,
            dc_loop_counter := st2.dc_loop_counter + 1 }
          (by simp; omega)
      · unfold irdh_zero_loop
        rw [dif_neg hlt]
  exact H _ st le_rfl

theorem irdh_decode_one_acct (s : inflatelib_stream) (st : inflatelib_state) :
    Sum.elim
      (fun r : Int × Bool × inflatelib_stream × inflatelib_state =>
        stream_advances s r.2.2.1 ∧ bs_advances st.bitstream r.2.2.2.bitstream)
      (fun p : inflatelib_stream × inflatelib_state =>
        p.1 = s ∧ bs_advances st.bitstream p.2.bitstream)
      (irdh_decode_one s st) := by
  simp only [irdh_decode_one]
  repeat' split
  all_goals simp only [Sum.elim_inl, Sum.elim_inr]
  all_goals refine ⟨?_, ?_⟩ <;> first
    | trivial
    | exact sadv_refl s
    | exact sadv_err s _
    | exact bsadv_refl _
    | exact bsadv_read _ _ _ (by assumption)

theorem irdh_tree_loop_acct (fuel : Nat) (s : inflatelib_stream) (st : inflatelib_state) :
    stream_advances s (irdh_tree_loop fuel s st).2.2.1 ∧
    bs_advances st.bitstream (irdh_tree_loop fuel s st).2.2.2.bitstream := by
  induction fuel generalizing s st with
  | zero => exact ⟨sadv_refl s, bsadv_refl _⟩
  | succ n ih =>
    unfold irdh_tree_loop
    split
    · split
      · split
        · exact ⟨sadv_refl s, bsadv_refl _⟩
        · exact ⟨sadv_err s _, bsadv_refl _⟩
        · rename_i v bs1 heq
          have hb : bs_advances st.bitstream bs1 := by
            have hl := bsadv_lookup st.code_length_tree st.bitstream
            rw [heq] at hl
            exact hl
          split
          · rename_i r heq2
            have hd := irdh_decode_one_acct s { st with bitstream := bs1, dc_length_code := v }
            rw [heq2] at hd
            simp only [Sum.elim_inl] at hd
            exact ⟨hd.1, bsadv_trans hb hd.2⟩
          · rename_i p heq2
            have hd := irdh_decode_one_acct s { st with bitstream := bs1, dc_length_code := v }
            rw [heq2] at hd
            simp only [Sum.elim_inr] at hd
            rw [hd.1]
            have hrec := ih s p.2
            exact ⟨hrec.1, bsadv_trans hb (bsadv_trans hd.2 hrec.2)⟩
      · split
        · rename_i r heq2
          have hd := irdh_decode_one_acct s st
          rw [heq2] at hd
          simp only [Sum.elim_inl] at hd
          exact hd
        · rename_i p heq2
          have hd := irdh_decode_one_acct s st
          rw [heq2] at hd
          simp only [Sum.elim_inr] at hd
          rw [hd.1]
          have hrec := ih s p.2
          exact ⟨hrec.1, bsadv_trans hd.2 hrec.2⟩
    · exact ⟨sadv_refl s, bsadv_refl _⟩

theorem irdh_finish_acct (s : inflatelib_stream) (st : inflatelib_state) :
    acct3 s st (irdh_finish s st) := by
  simp only [irdh_finish]
  split
  · exact ⟨sadv_err s _, bsadv_refl _⟩
  · split
    · exact ⟨sadv_err s _, bsadv_refl _⟩
    · exact ⟨sadv_refl s, bsadv_refl _⟩

theorem irdh_tree_phase_acct (s : inflatelib_stream) (st : inflatelib_state) :
    acct3 s st (irdh_tree_phase s st) := by
  simp only [irdh_tree_phase]
  have h := irdh_tree_loop_acct (st.dc_lit_count + st.dc_dist_count + 1) s st
  split
  · exact acct3_comp _ h.1 h.2 (irdh_finish_acct _ _)
  · exact ⟨h.1, h.2⟩

theorem irdh_from_clen_acct (s : inflatelib_stream) (st : inflatelib_state) :
    acct3 s st (irdh_from_clen s st) := by
  simp only [irdh_from_clen]
  have hcl := irdh_clen_loop_acct s st
  have hz : bs_advances st.bitstream
      (irdh_zero_loop (irdh_clen_loop s st).2.2).bitstream := by
    rw [irdh_zero_loop_bitstream]
    exact hcl.2
  split
  · split
    · rw [hcl.1]
      exact ⟨sadv_err s _, hz⟩
    · rw [hcl.1]
      exact acct3_comp _ (sadv_refl s) hz (irdh_tree_phase_acct _ _)
  · rw [hcl.1]
    exact ⟨sadv_refl s, hcl.2⟩

theorem irdh_num_clen_acct (s : inflatelib_stream) (st : inflatelib_state) :
    acct3 s st (irdh_num_clen s st) := by
  simp only [irdh_num_clen]
  split
  · exact ⟨sadv_refl s, bsadv_refl _⟩
  · rename_i vbs heq
    exact acct3_comp _ (sadv_refl s) (bsadv_read _ _ _ heq) (irdh_from_clen_acct s _)

theorem irdh_num_dist_acct (s : inflatelib_stream) (st : inflatelib_state) :
    acct3 s st (irdh_num_dist s st) := by
  simp only [irdh_num_dist]
  split
  · exact ⟨sadv_refl s, bsadv_refl _⟩
  · rename_i vbs heq
    exact acct3_comp _ (sadv_refl s) (bsadv_read _ _ _ heq) (irdh_num_clen_acct s _)

theorem irdh_num_lit_acct (s : inflatelib_stream) (st : inflatelib_state) :
    acct3 s st (irdh_num_lit s st) := by
  simp only [irdh_num_lit]
  split
  · exact ⟨sadv_refl s, bsadv_refl _⟩
  · rename_i vbs heq
    exact acct3_comp _ (sadv_refl s) (bsadv_read _ _ _ heq) (irdh_num_dist_acct s _)

theorem irdh_acct (s : inflatelib_stream) (st : inflatelib_state) :
    acct3 s st (inflater_read_dynamic_header s st) := by
  simp only [inflater_read_dynamic_header]
  split
  · exact irdh_num_lit_acct s st
  · exact irdh_num_dist_acct s st
  · exact irdh_num_clen_acct s st
  · exact irdh_from_clen_acct s st
  · exact irdh_tree_phase_acct s st
  · exact irdh_tree_phase_acct s st
  · exact ⟨sadv_refl s, bsadv_refl _⟩

theorem acct4_comp {s : inflatelib_stream} {st : inflatelib_state}
    {s1 : inflatelib_stream} {st1 : inflatelib_state}
    (r : Int × Bool × inflatelib_stream × inflatelib_state)
    (h1 : stream_advances s s1) (h2 : bs_advances st.bitstream st1.bitstream)
    (h3 : acct4 s1 st1 r) : acct4 s st r :=
  ⟨sadv_trans h1 h3.1, bsadv_trans h2 h3.2⟩

theorem bsadv_lookup_eq (t : huffman_tree) (bs : bitstream)
    (res : lookup_result) (b2 : bitstream)
    (h : huffman_tree_lookup t bs = (res, b2)) : bs_advances bs b2 := by
  have hl := bsadv_lookup t bs
  rw [h] at hl
  exact hl

theorem bsadv_lookupU_eq (t : huffman_tree) (bs : bitstream)
    (res : lookup_result) (b2 : bitstream)
    (h : huffman_tree_lookup_unchecked t bs = (res, b2)) : bs_advances bs b2 := by
  have hl := bsadv_lookupU t bs
  rw [h] at hl
  exact hl

theorem bsadv_read_opt (bs : bitstream) (c : Prop) [Decidable c] (n : Nat) :
    bs_advances bs (if c then bitstream_read_bits_unchecked bs n else (0, bs)).2 := by
  split
  · exact bsadv_consume bs n
  · exact bsadv_refl bs

theorem drop_min {α : Type} (l : List α) (k : Nat) :
    l.drop k = l.drop (min k l.length) := by
  rcases le_total k l.length with h | h
  · rw [min_eq_left h]
  · rw [min_eq_right h, List.drop_eq_nil_of_le h, List.drop_eq_nil_of_le le_rfl]

theorem rc_copy_output_acct (s : inflatelib_stream) (st : inflatelib_state) :
    acct4 s st (rc_copy_output s st) := by
  simp only [rc_copy_output, acct4]
  refine ⟨sadv_wco s st.window, ?_⟩
  split
  · exact bsadv_refl _
  · exact bsadv_refl _

theorem rc_copy_ld_acct (s : inflatelib_stream) (st : inflatelib_state) :
    acct4 s st (rc_copy_ld s st) := by
  simp only [rc_copy_ld, acct4]
  split
  · exact ⟨sadv_err s _, bsadv_refl _⟩
  · split
    · exact ⟨sadv_wco s
        (window_copy_length_distance st.window st.c_block_distance st.c_block_length).1,
        bsadv_refl _⟩
    · split
      · exact ⟨sadv_wco s
          (window_copy_length_distance st.window st.c_block_distance st.c_block_length).1,
          bsadv_refl _⟩
      · exact ⟨sadv_wco s
          (window_copy_length_distance st.window st.c_block_distance st.c_block_length).1,
          bsadv_refl _⟩

theorem rc_distance_extra_acct (s : inflatelib_stream) (st : inflatelib_state) :
    acct4 s st (rc_distance_extra s st) := by
  simp only [rc_distance_extra]
  split
  · split
    · exact ⟨sadv_refl s, bsadv_refl _⟩
    · rename_i vbs heq
      exact acct4_comp _ (sadv_refl s) (bsadv_read _ _ _ heq) (rc_copy_ld_acct s _)
  · exact rc_copy_ld_acct s st

theorem rc_distance_code_acct (s : inflatelib_stream) (st : inflatelib_state) :
    acct4 s st (rc_distance_code s st) := by
  simp only [rc_distance_code]
  split
  · exact ⟨sadv_refl s, bsadv_refl _⟩
  · exact ⟨sadv_err s _, bsadv_refl _⟩
  · rename_i sym bs1 heq
    have hb := bsadv_lookup_eq _ _ _ _ heq
    split
    · exact ⟨sadv_err s _, hb⟩
    · exact acct4_comp _ (sadv_refl s) hb (rc_distance_extra_acct s _)

theorem rc_length_extra_acct (s : inflatelib_stream) (st : inflatelib_state) :
    acct4 s st (rc_length_extra s st) := by
  simp only [rc_length_extra]
  split
  · split
    · exact ⟨sadv_refl s, bsadv_refl _⟩
    · rename_i vbs heq
      exact acct4_comp _ (sadv_refl s) (bsadv_read _ _ _ heq) (rc_distance_code_acct s _)
  · exact rc_distance_code_acct s st

theorem rc_decoding_lit_acct (s : inflatelib_stream) (st : inflatelib_state) :
    acct4 s st (rc_decoding_lit s st) := by
  simp only [rc_decoding_lit, acct4]
  split
  · split
    · exact ⟨sadv_refl s, bsadv_refl _⟩
    · split
      · exact ⟨sadv_refl s, bsadv_refl _⟩
      · exact ⟨sadv_wco s st.window, bsadv_refl _⟩
  · split
    · exact ⟨sadv_refl s, bsadv_refl _⟩
    · split
      · exact ⟨sadv_err s _, bsadv_refl _⟩
      · exact acct4_comp _ (sadv_refl s) (bsadv_refl _) (rc_length_extra_acct s _)

theorem rc_fast_loop_acct (fuel : Nat) (s : inflatelib_stream) (st : inflatelib_state) :
    stream_advances s (rc_fast_loop fuel s st).2.1 ∧
    bs_advances st.bitstream (rc_fast_loop fuel s st).2.2.bitstream := by
  induction fuel generalizing s st with
  | zero => exact ⟨sadv_refl s, bsadv_refl _⟩
  | succ n ih =>
    simp only [rc_fast_loop]
    split
    · rename_i hc
      split
      · exact ⟨sadv_err s _, bsadv_refl _⟩
      · exact ⟨sadv_refl s, bsadv_refl _⟩
      · rename_i sym bs1 heq1
        have hb1 : bs_advances st.bitstream bs1 := bsadv_lookupU_eq _ _ _ _ heq1
        split
        · rename_i hsym
          have hrec := ih
            { s with out_data := s.out_data ++ [sym], avail_out := s.avail_out - 1 }
            { st with bitstream := bs1, window := window_write_byte_consume st.window sym }
          have hstep : stream_advances s
              { s with out_data := s.out_data ++ [sym], avail_out := s.avail_out - 1 } := by
            refine ⟨⟨[sym], rfl, ?_⟩, rfl, rfl, rfl⟩
            simp only [List.length_cons, List.length_nil]
            omega
          exact ⟨sadv_trans hstep hrec.1, bsadv_trans hb1 hrec.2⟩
        · split
          · exact ⟨sadv_refl s, hb1⟩
          · split
            · exact ⟨sadv_err s _, hb1⟩
            · generalize hr1 : (if (tables_lengths st.mode (sym - 257)).2 > 0 then
                  bitstream_read_bits_unchecked bs1 (tables_lengths st.mode (sym - 257)).2
                else (0, bs1)) = r1p
              have hb2 : bs_advances bs1 r1p.2 := by
                rw [← hr1]
                exact bsadv_read_opt bs1 _ _
              split
              · exact ⟨sadv_err s _, bsadv_trans hb1 hb2⟩
              · exact ⟨sadv_refl s, bsadv_trans hb1 hb2⟩
              · rename_i dsym bs3 heq2
                have hb3 := bsadv_lookupU_eq _ _ _ _ heq2
                have h13 : bs_advances st.bitstream bs3 :=
                  bsadv_trans hb1 (bsadv_trans hb2 hb3)
                split
                · exact ⟨sadv_err s _, h13⟩
                · generalize hr2 : (if (tables_distances st.mode dsym).2 > 0 then
                      bitstream_read_bits_unchecked bs3 (tables_distances st.mode dsym).2
                    else (0, bs3)) = r2p
                  have hb4 : bs_advances bs3 r2p.2 := by
                    rw [← hr2]
                    exact bsadv_read_opt bs3 _ _
                  have h14 := bsadv_trans h13 hb4
                  split
                  · exact ⟨sadv_err s _, h14⟩
                  · split
                    · exact ⟨sadv_wco s _, h14⟩
                    · exact ⟨sadv_trans (sadv_wco s _) (ih _ _).1,
                        bsadv_trans h14 (ih _ _).2⟩
    · exact ⟨sadv_refl s, bsadv_refl _⟩

theorem rc_fast_acct (s : inflatelib_stream) (st : inflatelib_state) :
    acct3 s st (inflater_read_compressed_fast s st) := by
  simp only [inflater_read_compressed_fast, acct3]
  exact rc_fast_loop_acct _ s st

theorem rc_reading_lit_acct (s : inflatelib_stream) (st : inflatelib_state) :
    acct4 s st (rc_reading_lit s st) := by
  simp only [rc_reading_lit, acct4]
  split
  · have h := rc_fast_acct s st
    split
    · exact ⟨h.1, h.2⟩
    · exact ⟨h.1, h.2⟩
  · split
    · exact ⟨sadv_refl s, bsadv_refl _⟩
    · exact ⟨sadv_err s _, bsadv_refl _⟩
    · rename_i sym bs1 heq
      exact acct4_comp _ (sadv_refl s) (bsadv_lookup_eq _ _ _ _ heq)
        (rc_decoding_lit_acct s _)

theorem rc_step_acct (s : inflatelib_stream) (st : inflatelib_state) :
    acct4 s st (rc_step s st) := by
  simp only [rc_step]
  split
  · exact rc_reading_lit_acct s st
  · exact rc_decoding_lit_acct s st
  · exact rc_length_extra_acct s st
  · exact rc_distance_code_acct s st
  · exact rc_distance_extra_acct s st
  · exact rc_copy_ld_acct s st
  · exact rc_copy_output_acct s st
  · exact ⟨sadv_refl s, bsadv_refl _⟩

theorem rc_loop_acct (fuel : Nat) (s : inflatelib_stream) (st : inflatelib_state) :
    stream_advances s (rc_loop fuel s st).2.1 ∧
    bs_advances st.bitstream (rc_loop fuel s st).2.2.bitstream := by
  induction fuel generalizing s st with
  | zero => exact ⟨sadv_refl s, bsadv_refl _⟩
  | succ n ih =>
    simp only [rc_loop]
    have h := rc_step_acct s st
    split
    · have hrec := ih (rc_step s st).2.2.1 (rc_step s st).2.2.2
      exact ⟨sadv_trans h.1 hrec.1, bsadv_trans h.2 hrec.2⟩
    · exact ⟨h.1, h.2⟩

theorem rc_compressed_acct (s : inflatelib_stream) (st : inflatelib_state) :
    acct3 s st (inflater_read_compressed s st) := by
  simp only [inflater_read_compressed, acct3]
  have h1 := sadv_wco s st.window
  have hr := rc_loop_acct
    (8 * ({ st with window := (window_copy_output st.window s.avail_out).2 }
        : inflatelib_state).bitstream.data.length +
      (stream_emit s (window_copy_output st.window s.avail_out).1).avail_out + 2 * WSIZE + 64)
    (stream_emit s (window_copy_output st.window s.avail_out).1)
    { st with window := (window_copy_output st.window s.avail_out).2 }
  constructor
  · refine sadv_trans h1 (sadv_trans hr.1 (sadv_wco _ _))
  · exact hr.2

theorem ipd_block_acct (s : inflatelib_stream) (st : inflatelib_state) :
    Sum.elim (acct3 s st) (acct3 s st) (ipd_block s st) := by
  simp only [ipd_block]
  split
  · simp only [Sum.elim_inr]
    exact iru_acct s st
  · split
    · have h := irdh_acct s st
      split
      · simp only [Sum.elim_inl]
        exact h
      · split
        · simp only [Sum.elim_inl]
          exact ⟨h.1, h.2⟩
        · simp only [Sum.elim_inr]
          exact acct3_comp _ h.1 h.2 (rc_compressed_acct _ _)
    · simp only [Sum.elim_inr]
      exact rc_compressed_acct s st

theorem acctSum_comp (s : inflatelib_stream) {st st2 : inflatelib_state}
    (x : (Int × inflatelib_stream × inflatelib_state) ⊕
      (Int × inflatelib_stream × inflatelib_state))
    (hb : bs_advances st.bitstream st2.bitstream)
    (h : Sum.elim (acct3 s st2) (acct3 s st2) x) :
    Sum.elim (acct3 s st) (acct3 s st) x := by
  cases x with
  | inl r =>
    simp only [Sum.elim_inl] at h ⊢
    exact ⟨h.1, bsadv_trans hb h.2⟩
  | inr r =>
    simp only [Sum.elim_inr] at h ⊢
    exact ⟨h.1, bsadv_trans hb h.2⟩

theorem ipd_btype_acct (s : inflatelib_stream) (st : inflatelib_state) :
    Sum.elim (acct3 s st) (acct3 s st) (ipd_btype s st) := by
  simp only [ipd_btype]
  split
  · simp only [Sum.elim_inl]
    exact ⟨sadv_refl s, bsadv_refl _⟩
  · rename_i vbs heq
    have hb : bs_advances st.bitstream vbs.2 := bsadv_read _ _ _ heq
    split
    · simp only [Sum.elim_inl]
      exact ⟨sadv_err s _, hb⟩
    · split
      · exact acctSum_comp s _ (bsadv_trans hb (bsadv_align _)) (ipd_block_acct s _)
      · split
        · exact acctSum_comp s _ hb (ipd_block_acct s _)
        · exact acctSum_comp s _ hb (ipd_block_acct s _)

theorem ipd_iter_acct (s : inflatelib_stream) (st : inflatelib_state) :
    Sum.elim (acct3 s st) (acct3 s st) (ipd_iter s st) := by
  simp only [ipd_iter]
  split
  · split
    · simp only [Sum.elim_inl]
      exact ⟨sadv_refl s, bsadv_refl _⟩
    · rename_i vbs heq
      exact acctSum_comp s _ (bsadv_read _ _ _ heq) (ipd_btype_acct s _)
  · exact ipd_btype_acct s st
  · simp only [Sum.elim_inl]
    exact ⟨sadv_refl s, bsadv_refl _⟩
  · exact ipd_block_acct s st

theorem ipdl_acct (fuel : Nat) (s : inflatelib_stream) (st : inflatelib_state) :
    acct3 s st (inflater_process_data_loop fuel s st) := by
  induction fuel generalizing s st with
  | zero => exact ⟨sadv_refl s, bsadv_refl _⟩
  | succ n ih =>
    simp only [inflater_process_data_loop]
    split
    · rename_i r heq
      have h := ipd_iter_acct s st
      rw [heq] at h
      simp only [Sum.elim_inl] at h
      exact h
    · rename_i r heq
      have h := ipd_iter_acct s st
      rw [heq] at h
      simp only [Sum.elim_inr] at h
      split
      · have hrec := ih r.2.1 r.2.2
        exact ⟨sadv_trans h.1 hrec.1, bsadv_trans h.2 hrec.2⟩
      · exact h

theorem ipd_acct (s : inflatelib_stream) (st : inflatelib_state) :
    acct3 s st (inflater_process_data s st) := by
  simp only [inflater_process_data]
  have h := ipdl_acct (st.bitstream.avail + 2) s st
  split
  · exact ⟨h.1, h.2⟩
  · exact h

theorem do_inflate_acct (s : inflatelib_stream) (st : inflatelib_state) :
    ∃ (w : List Nat) (k : Nat), k ≤ s.next_in.length ∧
      (do_inflate s st).2.out_data = s.out_data ++ w ∧
      (do_inflate s st).2.avail_out + w.length = s.avail_out ∧
      (do_inflate s st).2.total_out = s.total_out + w.length ∧
      (do_inflate s st).2.next_in = s.next_in.drop k ∧
      (do_inflate s st).2.total_in = s.total_in + k := by
  have h := ipd_acct s { st with bitstream := bitstream_set_data st.bitstream s.next_in }
  obtain ⟨⟨w, ho, ha⟩, hn, hi, ht⟩ := h.1
  obtain ⟨k0, hk⟩ := h.2
  have hsd : ({ st with bitstream := bitstream_set_data st.bitstream s.next_in }
      : inflatelib_state).bitstream.data = s.next_in := rfl
  rw [hsd] at hk
  refine ⟨w, min k0 s.next_in.length, min_le_right _ _, ?_, ?_, ?_, ?_, ?_⟩
  · simp only [do_inflate]
    exact ho
  · simp only [do_inflate]
    exact ha
  · simp only [do_inflate]
    omega
  · simp only [do_inflate]
    rw [hk]
    exact drop_min _ _
  · simp only [do_inflate]
    rw [hk, List.length_drop]
    omega

/-- C5: every `inflatelib_inflate`/`inflatelib_inflate64` call that returns
the data-error code (such a call necessarily passed the internal-state and
mode checks) still leaves `total_in`/`total_out`, `next_in`/`avail_in` and
the output accounting updated to reflect exactly the bytes consumed from
the input (`k`) and written to the output (`w.length`) before the error:
the output grew by exactly `w`, `avail_out` shrank by `w.length`,
`total_out` grew by `w.length`, `next_in` advanced by exactly the `k`
consumed bytes, `avail_in` shrank by `k` and `total_in` grew by `k`. -/
theorem C5_data_error_accounting (s : inflatelib_stream) :
    ((inflatelib_inflate s).1 = INFLATELIB_ERROR_DATA →
      ∃ (w : List Nat) (k : Nat), k ≤ s.next_in.length ∧
        (inflatelib_inflate s).2.out_data = s.out_data ++ w ∧
        (inflatelib_inflate s).2.avail_out + w.length = s.avail_out ∧
        (inflatelib_inflate s).2.total_out = s.total_out + w.length ∧
        (inflatelib_inflate s).2.next_in = s.next_in.drop k ∧
        (inflatelib_inflate s).2.avail_in = s.avail_in - k ∧
        (inflatelib_inflate s).2.total_in = s.total_in + k) ∧
    ((inflatelib_inflate64 s).1 = INFLATELIB_ERROR_DATA →
      ∃ (w : List Nat) (k : Nat), k ≤ s.next_in.length ∧
        (inflatelib_inflate64 s).2.out_data = s.out_data ++ w ∧
        (inflatelib_inflate64 s).2.avail_out + w.length = s.avail_out ∧
        (inflatelib_inflate64 s).2.total_out = s.total_out + w.length ∧
        (inflatelib_inflate64 s).2.next_in = s.next_in.drop k ∧
        (inflatelib_inflate64 s).2.avail_in = s.avail_in - k ∧
        (inflatelib_inflate64 s).2.total_in = s.total_in + k) := by
  constructor
  · intro hres
    rcases hint : s.internal with _ | st
    · rw [show inflatelib_inflate s =
          (INFLATELIB_ERROR_ARG, { s with
            error_msg := some "Internal state is null; ensure inflatelib_init has been called first" })
          from by simp only [inflatelib_inflate, hint]] at hres
      exact absurd (show INFLATELIB_ERROR_ARG = INFLATELIB_ERROR_DATA from hres) (by decide)
    · by_cases hini : st.ifstate = .init
      · have he : inflatelib_inflate s =
            do_inflate s { st with mode := INFLATELIB_MODE_DEFLATE, ifstate := .reading_bfinal } := by
          simp only [inflatelib_inflate, hint]
          rw [if_pos hini]
        rw [he]
        obtain ⟨w, k, h1, h2, h3, h4, h5, h6⟩ := do_inflate_acct s
          { st with mode := INFLATELIB_MODE_DEFLATE, ifstate := .reading_bfinal }
        refine ⟨w, k, h1, h2, h3, h4, h5, ?_, h6⟩
        simp only [inflatelib_stream.avail_in]
        rw [h5, List.length_drop]
      · by_cases hmode : st.mode = INFLATELIB_MODE_DEFLATE
        · have he : inflatelib_inflate s = do_inflate s st := by
            simp only [inflatelib_inflate, hint]
            rw [if_neg hini, if_neg (by simp [hmode])]
          rw [he]
          obtain ⟨w, k, h1, h2, h3, h4, h5, h6⟩ := do_inflate_acct s st
          refine ⟨w, k, h1, h2, h3, h4, h5, ?_, h6⟩
          simp only [inflatelib_stream.avail_in]
          rw [h5, List.length_drop]
        · rw [show inflatelib_inflate s =
              (INFLATELIB_ERROR_ARG, { s with
                error_msg := some "inflatelib_stream is initialized for Deflate64 and cannot be called with Deflate encoded data. First call inflatelib_reset to reset the stream" })
              from by
                simp only [inflatelib_inflate, hint]
                rw [if_neg hini, if_pos hmode]] at hres
          exact absurd (show INFLATELIB_ERROR_ARG = INFLATELIB_ERROR_DATA from hres) (by decide)
  · intro hres
    rcases hint : s.internal with _ | st
    · rw [show inflatelib_inflate64 s =
          (INFLATELIB_ERROR_ARG, { s with
            error_msg := some "Internal state is null; ensure inflatelib_init has been called first" })
          from by simp only [inflatelib_inflate64, hint]] at hres
      exact absurd (show INFLATELIB_ERROR_ARG = INFLATELIB_ERROR_DATA from hres) (by decide)
    · by_cases hini : st.ifstate = .init
      · have he : inflatelib_inflate64 s =
            do_inflate s { st with mode := INFLATELIB_MODE_DEFLATE64, ifstate := .reading_bfinal } := by
          simp only [inflatelib_inflate64, hint]
          rw [if_pos hini]
        rw [he]
        obtain ⟨w, k, h1, h2, h3, h4, h5, h6⟩ := do_inflate_acct s
          { st with mode := INFLATELIB_MODE_DEFLATE64, ifstate := .reading_bfinal }
        refine ⟨w, k, h1, h2, h3, h4, h5, ?_, h6⟩
        simp only [inflatelib_stream.avail_in]
        rw [h5, List.length_drop]
      · by_cases hmode : st.mode = INFLATELIB_MODE_DEFLATE64
        · have he : inflatelib_inflate64 s = do_inflate s st := by
            simp only [inflatelib_inflate64, hint]
            rw [if_neg hini, if_neg (by simp [hmode])]
          rw [he]
          obtain ⟨w, k, h1, h2, h3, h4, h5, h6⟩ := do_inflate_acct s st
          refine ⟨w, k, h1, h2, h3, h4, h5, ?_, h6⟩
          simp only [inflatelib_stream.avail_in]
          rw [h5, List.length_drop]
        · rw [show inflatelib_inflate64 s =
              (INFLATELIB_ERROR_ARG, { s with
                error_msg := some "inflatelib_stream is initialized for Deflate and cannot be called with Deflate64 encoded data. First call inflatelib_reset to reset the stream" })
              from by
                simp only [inflatelib_inflate64, hint]
                rw [if_neg hini, if_pos hmode]] at hres
          exact absurd (show INFLATELIB_ERROR_ARG = INFLATELIB_ERROR_DATA from hres) (by decide)


/-- Witness for C5: the single byte `0x06` (BFINAL=0, BTYPE=11, the invalid
block type) on a fresh stream is a data error; the theorem instantiates to
exact accounting facts for that call (and indeed 1 byte was consumed). -/
theorem C5_witness :
    (inflatelib_inflate
        ⟨[6], 0, [], 0, 0, none, 0, 0, 0,
         some (inflatelib_init_state (fun _ => 0) (fun _ => ⟨0, 0⟩) (fun _ => ⟨0, 0⟩)
           (fun _ => ⟨0, 0⟩))⟩).1 = INFLATELIB_ERROR_DATA ∧
    ∃ (w : List Nat) (k : Nat), k ≤ 1 ∧
      (inflatelib_inflate
        ⟨[6], 0, [], 0, 0, none, 0, 0, 0,
         some (inflatelib_init_state (fun _ => 0) (fun _ => ⟨0, 0⟩) (fun _ => ⟨0, 0⟩)
           (fun _ => ⟨0, 0⟩))⟩).2.out_data = [] ++ w ∧
      (inflatelib_inflate
        ⟨[6], 0, [], 0, 0, none, 0, 0, 0,
         some (inflatelib_init_state (fun _ => 0) (fun _ => ⟨0, 0⟩) (fun _ => ⟨0, 0⟩)
           (fun _ => ⟨0, 0⟩))⟩).2.avail_out + w.length = 0 ∧
      (inflatelib_inflate
        ⟨[6], 0, [], 0, 0, none, 0, 0, 0,
         some (inflatelib_init_state (fun _ => 0) (fun _ => ⟨0, 0⟩) (fun _ => ⟨0, 0⟩)
           (fun _ => ⟨0, 0⟩))⟩).2.total_out = 0 + w.length ∧
      (inflatelib_inflate
        ⟨[6], 0, [], 0, 0, none, 0, 0, 0,
         some (inflatelib_init_state (fun _ => 0) (fun _ => ⟨0, 0⟩) (fun _ => ⟨0, 0⟩)
           (fun _ => ⟨0, 0⟩))⟩).2.next_in = List.drop k [6] ∧
      (inflatelib_inflate
        ⟨[6], 0, [], 0, 0, none, 0, 0, 0,
         some (inflatelib_init_state (fun _ => 0) (fun _ => ⟨0, 0⟩) (fun _ => ⟨0, 0⟩)
           (fun _ => ⟨0, 0⟩))⟩).2.avail_in = 1 - k ∧
      (inflatelib_inflate
        ⟨[6], 0, [], 0, 0, none, 0, 0, 0,
         some (inflatelib_init_state (fun _ => 0) (fun _ => ⟨0, 0⟩) (fun _ => ⟨0, 0⟩)
           (fun _ => ⟨0, 0⟩))⟩).2.total_in = 0 + k :=
  ⟨rfl,
   (C5_data_error_accounting
     ⟨[6], 0, [], 0, 0, none, 0, 0, 0,
      some (inflatelib_init_state (fun _ => 0) (fun _ => ⟨0, 0⟩) (fun _ => ⟨0, 0⟩)
        (fun _ => ⟨0, 0⟩))⟩).1 rfl⟩

end Inflatelib
